import Mathlib

/-!
# Content splitting and chunked upload of `CodaMCPServer` (src/mcp-server.js)

A shallow embedding of `splitContent`, `splitLongLine`, `uploadContentInChunks`,
`updatePageContent` and `createPage`, and of `CodaClient.findDocByName`
(src/index.js), followed by the properties proved about them.

JavaScript strings are sequences of UTF-16 code units, and `length`, `substring`,
`lastIndexOf`, `split` and `trim` all work on code units, so a string is modelled
as the list of its code units.
-/

namespace CodaMCP

/-- A JavaScript string, as the list of its UTF-16 code units. -/
abbrev JSString := List Nat

/-- UTF-16 code units of one Unicode scalar value. -/
def utf16Char (c : Char) : List Nat :=
  if c.toNat < 65536 then [c.toNat]
  else [55296 + (c.toNat - 65536) / 1024, 56320 + (c.toNat - 65536) % 1024]

/-- The JavaScript string denoted by a source literal. -/
def utf16 (s : String) : JSString :=
  s.toList.flatMap utf16Char

/-- Code unit of the line separator `\n`. -/
def NL : Nat := 10

/-- Code unit of the space character. -/
def SP : Nat := 32

/-- The code units removed by `String.prototype.trim`: ECMAScript WhiteSpace and
LineTerminator. -/
def isWhiteSpace (c : Nat) : Bool :=
  c = 9 || c = 10 || c = 11 || c = 12 || c = 13 || c = 32 || c = 160 || c = 5760 ||
  (8192 ≤ c && c ≤ 8202) || c = 8232 || c = 8233 || c = 8239 || c = 8287 ||
  c = 12288 || c = 65279

/-- `s.trim()`. -/
def trim (s : JSString) : JSString :=
  (s.dropWhile isWhiteSpace).rdropWhile isWhiteSpace

/-- `s.split('\n')`: the lines of `s`; the separator is not kept, and the empty
string has the single line `''`. -/
def splitLines : JSString → List JSString
  | [] => [[]]
  | c :: cs =>
    if c = NL then [] :: splitLines cs
    else
      match splitLines cs with
      | [] => [[c]]
      | l :: ls => (c :: l) :: ls

/-- `chunks.join('\n')`. -/
def joinLines : List JSString → JSString
  | [] => []
  | [l] => l
  | l :: ls => l ++ NL :: joinLines ls

/-- Index of the last occurrence of `c` in `s`, or `-1`. -/
def lastIndexIn (c : Nat) : JSString → Int
  | [] => -1
  | x :: xs =>
    if 0 ≤ lastIndexIn c xs then lastIndexIn c xs + 1
    else if x = c then 0 else -1

/-- `s.lastIndexOf(c, position)` for a one-character search string: the largest
index `k ≤ position` (clamped to the string) with `s[k] = c`, or `-1`. -/
def lastIndexOf (s : JSString) (c : Nat) (position : Int) : Int :=
  lastIndexIn c (s.take (position.toNat + 1))

/-- `s.substring(0, stop)`; a negative `stop` counts as `0`. -/
def substringTo (s : JSString) (stop : Int) : JSString :=
  s.take stop.toNat

/-- `s.substring(start)`; a negative `start` counts as `0`. -/
def substringFrom (s : JSString) (start : Int) : JSString :=
  s.drop start.toNat

/-- Numerator over `2^53` of the double that the literal `0.7` denotes
(`0x3FE6666666666666`). -/
def mantissa07 : Nat := 6305039478318694

/-- Number of binary digits of `n`, by halving at most `fuel` times. -/
def bitLengthAux : Nat → Nat → Nat
  | 0, _ => 0
  | fuel + 1, n => if n = 0 then 0 else bitLengthAux fuel (n / 2) + 1

/-- Number of binary digits of `n`. -/
def bitLength (n : Nat) : Nat :=
  bitLengthAux n n

/-- Round `n / 2^53` to the nearest double (53 significant bits, ties to even);
the result is again a numerator over `2^53`. -/
def roundDouble (n : Nat) : Nat :=
  if bitLength n ≤ 53 then n
  else
    let sh := bitLength n - 53
    let q := n / 2 ^ sh
    let r := n % 2 ^ sh
    if 2 ^ sh < 2 * r ∨ (2 * r = 2 ^ sh ∧ q % 2 = 1) then (q + 1) * 2 ^ sh
    else q * 2 ^ sh

/-- The double `maxSize * 0.7`, as a numerator over `2^53`, for an integer
`maxSize` that a double holds exactly. -/
def times07 (maxSize : Int) : Int :=
  if 0 ≤ maxSize then (roundDouble (maxSize.toNat * mantissa07) : Int)
  else -(roundDouble ((-maxSize).toNat * mantissa07) : Int)

/-- The test `spaceIndex > maxSize * 0.7`. -/
def aboveThreshold (spaceIndex maxSize : Int) : Bool :=
  decide (times07 maxSize < spaceIndex * 2 ^ 53)

/-- The cut position `splitLongLine` picks for `remaining`. -/
def splitPoint (remaining : JSString) (maxSize : Int) : Int :=
  if aboveThreshold (lastIndexOf remaining SP maxSize) maxSize then
    lastIndexOf remaining SP maxSize
  else maxSize

/-- The `while` loop of `splitLongLine`, run for at most `fuel` tests of its
condition, with `parts` as a list that can grow without limit; `none` when the
condition still holds at the last test allowed. For a positive ceiling the loop exits
after at most `remaining.length` rounds; where it never exits by its condition, the
code ends by the error of `parts.push` on a full array, which
`splitLongLineLoopWithin` shows. -/
def splitLongLineLoop (maxSize : Int) : Nat → JSString → List JSString →
    Option (List JSString)
  | 0, _, _ => none
  | fuel + 1, remaining, parts =>
    if maxSize < (remaining.length : Int) then
      splitLongLineLoop maxSize fuel
        (trim (substringFrom remaining (splitPoint remaining maxSize)))
        (parts ++ [substringTo remaining (splitPoint remaining maxSize)])
    else if remaining ≠ [] then some (parts ++ [remaining])
    else some parts

/-- `splitLongLine(line, maxSize)`; `none` when the loop does not exit by its
condition. -/
def splitLongLine (line : JSString) (maxSize : Int) : Option (List JSString) :=
  splitLongLineLoop maxSize (line.length + 1) line []

/-- The `for (const line of lines)` loop of `splitContent`, on the lines still to
visit, with the current `chunks` and `currentChunk`. -/
def splitContentLoop (maxSize : Int) : List JSString → List JSString → JSString →
    Option (List JSString × JSString)
  | [], chunks, currentChunk => some (chunks, currentChunk)
  | line :: rest, chunks, currentChunk =>
    if maxSize < (currentChunk.length : Int) + (line.length : Int) + 1 then
      let saved := if trim currentChunk ≠ [] then chunks ++ [trim currentChunk] else chunks
      if maxSize < (line.length : Int) then
        match splitLongLine line maxSize with
        | none => none
        | some lineParts =>
          match lineParts.getLast? with
          | none => none
          | some last => splitContentLoop maxSize rest (saved ++ lineParts.dropLast) last
      else splitContentLoop maxSize rest saved line
    else
      splitContentLoop maxSize rest chunks
        (currentChunk ++ (if currentChunk ≠ [] then [NL] else []) ++ line)

/-- `splitContent(content, maxSize)`; `none` when the call does not return a
chunk array, a loop of `splitLongLine` not exiting by its condition. -/
def splitContent (content : JSString) (maxSize : Int) : Option (List JSString) :=
  match splitContentLoop maxSize (splitLines content) [] [] with
  | none => none
  | some (chunks, currentChunk) =>
    if trim currentChunk ≠ [] then some (chunks ++ [trim currentChunk]) else some chunks

/-! ## The upload orchestrator -/

/-- An `Error` object; the code only ever reads its `message`. -/
structure JSError where
  message : JSString
deriving DecidableEq

/-- Arguments of one call `codaClient.updatePageContent(docId, pageId, content,
insertionMode, format)`. -/
structure WriteCall where
  docId : JSString
  pageId : JSString
  content : JSString
  insertionMode : JSString
  format : JSString
deriving DecidableEq

/-- The `pageData` object handed to `codaClient.createPage`; `subtitle` is set
only when the caller's subtitle is truthy. -/
structure PageData where
  name : JSString
  subtitle : Option JSString
deriving DecidableEq

/-- What a call does that is visible outside it, in the order it happens. -/
inductive Event where
  | write (call : WriteCall)
  | sleep (ms : Nat)
  | create (docId : JSString) (pageData : PageData)
  | consoleError (label : JSString) (message : JSString)
deriving DecidableEq

/-- How a call ends: it returns a value, throws an error, or never ends; for an
`async` method, its promise resolves with a value, rejects with an error, or never
settles. -/
inductive Outcome (α : Type) where
  | returned (value : α)
  | thrown (error : JSError)
  | hangs
deriving DecidableEq

/-- The write primitive `codaClient.updatePageContent`, as seen by its caller:
given the write calls made before and the present call, it resolves or rejects. -/
abbrev WritePrimitive := List WriteCall → WriteCall → Except JSError Unit

/-- The primitive `codaClient.createPage`: resolves with the `id` of the new page
or rejects. -/
abbrev CreatePrimitive := JSString → PageData → Except JSError JSString

/-- The write calls among some events, in order. -/
def writesOf : List Event → List WriteCall
  | [] => []
  | Event.write call :: rest => call :: writesOf rest
  | _ :: rest => writesOf rest

/-- The pauses among some events, in order. -/
def sleepsOf : List Event → List Nat
  | [] => []
  | Event.sleep ms :: rest => ms :: sleepsOf rest
  | _ :: rest => sleepsOf rest

/-- The constant `CHUNK_SIZE` of both uploaders. -/
def CHUNK_SIZE : Int := 4000

/-- The mode of the write of chunk `i`: `i === 0 ? 'replace' : 'append'`. -/
def chunkMode (i : Nat) : JSString :=
  if i = 0 then utf16 "replace" else utf16 "append"

/-- The loop `for (let i = 0; i < chunks.length; i++)` that both
`uploadContentInChunks` and `updatePageContent` run, from index `i` on, where
`rest` are the chunks `chunks[i], chunks[i+1], ...` and `prior` the write calls
made so far. The pause `i < chunks.length - 1` happens when a chunk follows. -/
def uploadLoop (write : WritePrimitive) (docId pageId : JSString) :
    Nat → List JSString → List WriteCall → List Event × Outcome Unit
  | _, [], _ => ([], Outcome.returned ())
  | i, chunk :: rest, prior =>
    match write prior ⟨docId, pageId, chunk, chunkMode i, utf16 "markdown"⟩ with
    | Except.error e =>
      ([Event.write ⟨docId, pageId, chunk, chunkMode i, utf16 "markdown"⟩], Outcome.thrown e)
    | Except.ok _ =>
      ((Event.write ⟨docId, pageId, chunk, chunkMode i, utf16 "markdown"⟩ ::
          (if rest ≠ [] then [Event.sleep 100] else [])) ++
        (uploadLoop write docId pageId (i + 1) rest
          (prior ++ [⟨docId, pageId, chunk, chunkMode i, utf16 "markdown"⟩])).1,
       (uploadLoop write docId pageId (i + 1) rest
          (prior ++ [⟨docId, pageId, chunk, chunkMode i, utf16 "markdown"⟩])).2)

/-- One awaited call of the write primitive. -/
def writeOnce (write : WritePrimitive) (call : WriteCall) (prior : List WriteCall) :
    List Event × Outcome Unit :=
  match write prior call with
  | Except.error e => ([Event.write call], Outcome.thrown e)
  | Except.ok _ => ([Event.write call], Outcome.returned ())

/-- The split-and-loop branch shared by both uploaders. -/
def uploadChunked (write : WritePrimitive) (docId pageId content : JSString)
    (prior : List WriteCall) : List Event × Outcome Unit :=
  match splitContent content CHUNK_SIZE with
  | none => ([], Outcome.hangs)
  | some chunks => uploadLoop write docId pageId 0 chunks prior

/-- `uploadContentInChunks(docId, pageId, content)`. -/
def uploadContentInChunks (write : WritePrimitive) (docId pageId content : JSString)
    (prior : List WriteCall) : List Event × Outcome Unit :=
  if (content.length : Int) ≤ CHUNK_SIZE then
    writeOnce write ⟨docId, pageId, content, utf16 "replace", utf16 "markdown"⟩ prior
  else uploadChunked write docId pageId content prior

/-- Decimal digits of a non-negative integer, as in a template literal. -/
def numberToString (n : Nat) : JSString :=
  utf16 (toString n)

/-- The text `updatePageContent` returns on success. -/
def updateSuccessText (pageId content mode : JSString) : JSString :=
  utf16 "✅ **Page content updated successfully!**\n\n" ++
  utf16 "• **Page ID**: " ++ pageId ++ utf16 "\n" ++
  utf16 "• **Mode**: " ++ mode ++ utf16 "\n" ++
  utf16 "• **Content Length**: " ++ numberToString content.length ++ utf16 " characters\n" ++
  utf16 "• **Method**: " ++
    (if CHUNK_SIZE < (content.length : Int) ∧ mode = utf16 "replace"
      then utf16 "Chunked upload" else utf16 "Direct upload") ++ utf16 "\n" ++
  utf16 "• **Status**: Content updated successfully"

/-- The body of the `try` block of `updatePageContent`, up to its `return`. -/
def updatePageContentBody (write : WritePrimitive) (docId pageId content mode : JSString)
    (prior : List WriteCall) : List Event × Outcome Unit :=
  if (content.length : Int) ≤ CHUNK_SIZE ∨ mode = utf16 "append" then
    writeOnce write ⟨docId, pageId, content, mode, utf16 "markdown"⟩ prior
  else uploadChunked write docId pageId content prior

/-- `updatePageContent(docId, pageId, content, mode)`: the events it causes and
how it ends. -/
def updatePageContent (write : WritePrimitive) (docId pageId content mode : JSString)
    (prior : List WriteCall) : List Event × Outcome JSString :=
  match (updatePageContentBody write docId pageId content mode prior).2 with
  | Outcome.returned _ =>
    ((updatePageContentBody write docId pageId content mode prior).1,
      Outcome.returned (updateSuccessText pageId content mode))
  | Outcome.thrown error =>
    ((updatePageContentBody write docId pageId content mode prior).1,
      Outcome.thrown ⟨utf16 "Failed to update page content: " ++ error.message⟩)
  | Outcome.hangs =>
    ((updatePageContentBody write docId pageId content mode prior).1, Outcome.hangs)

/-- The first three lines of every text `createPage` returns. -/
def createdHeader (name id subtitle : JSString) : JSString :=
  utf16 "✅ **Page created successfully!**\n\n" ++
  utf16 "• **Name**: " ++ name ++ utf16 "\n" ++
  utf16 "• **ID**: " ++ id ++ utf16 "\n" ++
  utf16 "• **Subtitle**: " ++ (if subtitle ≠ [] then subtitle else utf16 "None") ++ utf16 "\n"

/-- The text `createPage` returns when the content upload failed. -/
def createdContentFailedText (name id subtitle errorMessage : JSString) : JSString :=
  createdHeader name id subtitle ++
  utf16 "• **Content**: Failed to upload - try using coda_update_page_content with pageId: " ++
    id ++ utf16 "\n" ++
  utf16 "• **Error**: " ++ errorMessage

/-- The text `createPage` returns otherwise. -/
def createdText (name id subtitle content : JSString) : JSString :=
  createdHeader name id subtitle ++
  utf16 "• **Content**: " ++
    (if content ≠ [] then
      utf16 "Added successfully (" ++ numberToString content.length ++ utf16 " characters)"
    else utf16 "Empty page created")

/-- `createPage(docId, name, content, subtitle)`: the events it causes and how it
ends. A missing `content` or `subtitle` behaves as the empty string. -/
def createPage (create : CreatePrimitive) (write : WritePrimitive)
    (docId name content subtitle : JSString) (prior : List WriteCall) :
    List Event × Outcome JSString :=
  let pageData : PageData := ⟨name, if subtitle ≠ [] then some subtitle else none⟩
  match create docId pageData with
  | Except.error error =>
    ([Event.create docId pageData],
      Outcome.thrown ⟨utf16 "Failed to create page: " ++ error.message⟩)
  | Except.ok id =>
    if content ≠ [] then
      match (uploadContentInChunks write docId id content prior).2 with
      | Outcome.thrown contentError =>
        ([Event.create docId pageData, Event.sleep 1000] ++
            (uploadContentInChunks write docId id content prior).1 ++
            [Event.consoleError (utf16 "Content upload failed:") contentError.message],
          Outcome.returned (createdContentFailedText name id subtitle contentError.message))
      | Outcome.hangs =>
        ([Event.create docId pageData, Event.sleep 1000] ++
            (uploadContentInChunks write docId id content prior).1, Outcome.hangs)
      | Outcome.returned _ =>
        ([Event.create docId pageData, Event.sleep 1000] ++
            (uploadContentInChunks write docId id content prior).1,
          Outcome.returned (createdText name id subtitle content))
    else
      ([Event.create docId pageData], Outcome.returned (createdText name id subtitle content))

/-! ## `splitContent` on arrays that cannot grow without limit

An array holds at most `capacity` elements: `2^32 - 1` by the language, fewer in an
engine. `push` on a full array throws a `RangeError`. The definitions above use lists
without such a limit, which shows the same results as long as no array fills up; the
definitions below add the limit to the pushes of `splitLongLine` and `splitContent`,
so that a loop that pushes for ever ends as it does in the code. -/

/-- The error that `push` throws on an array that can hold no more elements: a
`RangeError` with the message `Invalid array length`. -/
def invalidArrayLength : JSError :=
  ⟨utf16 "Invalid array length"⟩

/-- `array.push(...items)` on an array that holds at most `capacity` elements. -/
def arrayPush (capacity : Nat) (array items : List JSString) : Outcome (List JSString) :=
  if array.length + items.length ≤ capacity then Outcome.returned (array ++ items)
  else Outcome.thrown invalidArrayLength

/-- The `while` loop of `splitLongLine` on arrays of at most `capacity` elements, run
for at most `fuel` tests of its condition. -/
def splitLongLineLoopWithin (capacity : Nat) (maxSize : Int) :
    Nat → JSString → List JSString → Outcome (List JSString)
  | 0, _, _ => Outcome.hangs
  | fuel + 1, remaining, parts =>
    if maxSize < (remaining.length : Int) then
      match arrayPush capacity parts [substringTo remaining (splitPoint remaining maxSize)] with
      | Outcome.returned pushed =>
        splitLongLineLoopWithin capacity maxSize fuel
          (trim (substringFrom remaining (splitPoint remaining maxSize))) pushed
      | Outcome.thrown error => Outcome.thrown error
      | Outcome.hangs => Outcome.hangs
    else if remaining ≠ [] then arrayPush capacity parts [remaining]
    else Outcome.returned parts

/-- `splitLongLine(line, maxSize)` on arrays of at most `capacity` elements. Every
round of the loop pushes one part, so `capacity + 1` tests of the condition are
enough for the loop to exit or for `push` to throw. -/
def splitLongLineWithin (capacity : Nat) (line : JSString) (maxSize : Int) :
    Outcome (List JSString) :=
  splitLongLineLoopWithin capacity maxSize (capacity + 1) line []

/-- The `for (const line of lines)` loop of `splitContent` on arrays of at most
`capacity` elements. As in `splitContentLoop`, the branch for an empty `lineParts` is
never taken: the loop of `splitLongLine` runs at least one round on a line longer
than `maxSize`, and each round pushes a part (`splitLongLineWithin_ne_nil`). -/
def splitContentLoopWithin (capacity : Nat) (maxSize : Int) :
    List JSString → List JSString → JSString → Outcome (List JSString × JSString)
  | [], chunks, currentChunk => Outcome.returned (chunks, currentChunk)
  | line :: rest, chunks, currentChunk =>
    if maxSize < (currentChunk.length : Int) + (line.length : Int) + 1 then
      match (if trim currentChunk ≠ [] then arrayPush capacity chunks [trim currentChunk]
          else Outcome.returned chunks) with
      | Outcome.returned saved =>
        if maxSize < (line.length : Int) then
          match splitLongLineWithin capacity line maxSize with
          | Outcome.returned lineParts =>
            match arrayPush capacity saved lineParts.dropLast with
            | Outcome.returned pushed =>
              match lineParts.getLast? with
              | none => Outcome.hangs
              | some last => splitContentLoopWithin capacity maxSize rest pushed last
            | Outcome.thrown error => Outcome.thrown error
            | Outcome.hangs => Outcome.hangs
          | Outcome.thrown error => Outcome.thrown error
          | Outcome.hangs => Outcome.hangs
        else splitContentLoopWithin capacity maxSize rest saved line
      | Outcome.thrown error => Outcome.thrown error
      | Outcome.hangs => Outcome.hangs
    else
      splitContentLoopWithin capacity maxSize rest chunks
        (currentChunk ++ (if currentChunk ≠ [] then [NL] else []) ++ line)

/-- `splitContent(content, maxSize)` on arrays of at most `capacity` elements: the
chunk array it returns or the error it throws. -/
def splitContentWithin (capacity : Nat) (content : JSString) (maxSize : Int) :
    Outcome (List JSString) :=
  match splitContentLoopWithin capacity maxSize (splitLines content) [] [] with
  | Outcome.returned (chunks, currentChunk) =>
    if trim currentChunk ≠ [] then arrayPush capacity chunks [trim currentChunk]
    else Outcome.returned chunks
  | Outcome.thrown error => Outcome.thrown error
  | Outcome.hangs => Outcome.hangs

/-! ## The lookup `CodaClient.findDocByName` (src/index.js) -/

/-- A document object of the list that `listDocs` resolves with; `name` is the field
the lookup reads. -/
structure Doc where
  id : JSString
  name : JSString
deriving DecidableEq

/-- The values a lookup can evaluate to: an element, `undefined` or `null`. -/
inductive Lookup (α : Type) where
  | element (value : α)
  | undefined
  | null
deriving DecidableEq

/-- `haystack.includes(needle)`. -/
def includes (haystack needle : JSString) : Bool :=
  decide (needle <:+: haystack)

/-- `array.find(predicate)`: the first element for which the predicate holds, or
`undefined`. -/
def arrayFind {α : Type} (predicate : α → Bool) : List α → Lookup α
  | [] => Lookup.undefined
  | x :: xs => if predicate x then Lookup.element x else arrayFind predicate xs

/-- `findDocByName(name)` on the list `docs` that `listDocs` resolved with;
`toLowerCase` stands for `String.prototype.toLowerCase`. -/
def findDocByName (toLowerCase : JSString → JSString) (docs : List Doc) (name : JSString) :
    Lookup Doc :=
  arrayFind (fun doc => includes (toLowerCase doc.name) (toLowerCase name)) docs

/-! ## The example server `createPageForMCP` (src/examples/mcp-integration.js) -/

/-- The endpoint that `CodaClient.updatePageContent(docId, pageId, ...)` requests
with `PUT`: the template `/docs/${docId}/pages/${pageId}`, on the arguments in the
positions of `docId` and `pageId`. -/
def updatePageContentEndpoint (call : WriteCall) : JSString :=
  utf16 "/docs/" ++ call.docId ++ utf16 "/pages/" ++ call.pageId

/-- The text of the result of `createPageForMCP` when nothing was thrown. -/
def createdForMCPText (name id content : JSString) : JSString :=
  utf16 "✅ Page created successfully!\n" ++
  utf16 "Name: " ++ name ++ utf16 "\n" ++
  utf16 "ID: " ++ id ++ utf16 "\n" ++
  (if content ≠ [] then utf16 "Content added" else utf16 "No content added")

/-- `createPageForMCP(docId, name, content, subtitle)` of the example server: the
events it causes and the `text` of the object it returns. The call
`this.client.updatePageContent(result.id, docId, content)` is recorded with its
arguments in the order given, under the defaults `'replace'` and `'markdown'` of
`CodaClient.updatePageContent`. -/
def createPageForMCP (create : CreatePrimitive) (write : WritePrimitive)
    (docId name content subtitle : JSString) (prior : List WriteCall) :
    List Event × JSString :=
  let pageData : PageData := ⟨name, if subtitle ≠ [] then some subtitle else none⟩
  match create docId pageData with
  | Except.error error =>
    ([Event.create docId pageData], utf16 "Error creating page: " ++ error.message)
  | Except.ok id =>
    if content ≠ [] then
      match write prior ⟨id, docId, content, utf16 "replace", utf16 "markdown"⟩ with
      | Except.error error =>
        ([Event.create docId pageData,
            Event.write ⟨id, docId, content, utf16 "replace", utf16 "markdown"⟩],
          utf16 "Error creating page: " ++ error.message)
      | Except.ok _ =>
        ([Event.create docId pageData,
            Event.write ⟨id, docId, content, utf16 "replace", utf16 "markdown"⟩],
          createdForMCPText name id content)
    else ([Event.create docId pageData], createdForMCPText name id content)

/-! ## Notions used to state the properties -/

/-- Deleting every whitespace code unit of a string. -/
def removeWhiteSpace (s : JSString) : JSString :=
  s.filter (fun c => !isWhiteSpace c)

/-- Length of the longest run of code units other than the space in `s`, when `run`
such code units come right before `s`. -/
def longestWordFrom : JSString → Nat → Nat
  | [], run => run
  | c :: cs, run =>
    if c = SP then max run (longestWordFrom cs 0) else longestWordFrom cs (run + 1)

/-- Length of the longest maximal run of non-space code units of `s`. -/
def longestWord (s : JSString) : Nat :=
  longestWordFrom s 0

/-- The `k`-th call in `issued`, counted from 1, rejects with `e`, when the calls
are made in that order after the calls `prior`. -/
def WriteFails (write : WritePrimitive) (prior issued : List WriteCall) (k : Nat)
    (e : JSError) : Prop :=
  1 ≤ k ∧ ∃ call, issued[k - 1]? = some call ∧
    write (prior ++ issued.take (k - 1)) call = Except.error e

/-- Every call in `issued` resolves, when the calls are made in that order after
the calls `prior`. -/
def WritesSucceed (write : WritePrimitive) (prior issued : List WriteCall) : Prop :=
  ∀ i call, issued[i]? = some call → write (prior ++ issued.take i) call = Except.ok ()

/-- The stub that rejects its `k`-th call (counted from 1) with `e` and resolves
every other call. -/
def failOnCall (k : Nat) (e : JSError) : WritePrimitive :=
  fun earlier _ => if earlier.length + 1 = k then Except.error e else Except.ok ()

/-- The stub that rejects every call in the mode `'append'` with `e`, whatever came
before, and resolves every other call. -/
def rejectAppend (e : JSError) : WritePrimitive :=
  fun _ call => if call.insertionMode = utf16 "append" then Except.error e else Except.ok ()

/-- The stub that resolves every call. -/
def succeedAlways : WritePrimitive :=
  fun _ _ => Except.ok ()

/-- The stub of `codaClient.createPage` that resolves with the page id `id`. -/
def createWithId (id : JSString) : CreatePrimitive :=
  fun _ _ => Except.ok id

/-- The chunks of a chunked upload of `content`: `splitContent(content, CHUNK_SIZE)`,
which always returns (`splitContent_chunkSize`). -/
def chunksOf (content : JSString) : List JSString :=
  (splitContent content CHUNK_SIZE).getD []

/-- The write calls of a chunked upload of `chunks`, numbered from `i`. -/
def uploadPlan (docId pageId : JSString) : Nat → List JSString → List WriteCall
  | _, [] => []
  | i, chunk :: rest =>
    ⟨docId, pageId, chunk, chunkMode i, utf16 "markdown"⟩ :: uploadPlan docId pageId (i + 1) rest

/-- Whether the last code unit of `s` is whitespace. -/
def endsInWhiteSpace (s : JSString) : Bool :=
  match s.getLast? with
  | some c => isWhiteSpace c
  | none => false

/-- The last space of `s` at or before index `maxSize` is at index `i`. -/
def LastSpaceAt (s : JSString) (maxSize : Int) (i : Nat) : Prop :=
  (i : Int) ≤ maxSize ∧ s[i]? = some SP ∧
    ∀ j, j < maxSize.toNat + 1 → i < j → s[j]? ≠ some SP

instance decidableLastSpaceAt (s : JSString) (maxSize : Int) (i : Nat) :
    Decidable (LastSpaceAt s maxSize i) := by
  unfold LastSpaceAt
  infer_instance

/-- No code unit of `s` at or before index `maxSize` is a space. -/
def NoSpaceUpTo (s : JSString) (maxSize : Int) : Prop :=
  ∀ j, j < maxSize.toNat + 1 → s[j]? ≠ some SP

/-- The only space of `s` is at index `i`. -/
def OnlySpaceAt (s : JSString) (i : Nat) : Prop :=
  s[i]? = some SP ∧ ∀ j, j < s.length → s[j]? = some SP → j = i

instance decidableOnlySpaceAt (s : JSString) (i : Nat) : Decidable (OnlySpaceAt s i) := by
  unfold OnlySpaceAt
  infer_instance

/-- A non-empty string without leading or trailing whitespace. -/
def Trimmed (s : JSString) : Prop :=
  s ≠ [] ∧ trim s = s

instance decidableTrimmed (s : JSString) : Decidable (Trimmed s) := by
  unfold Trimmed
  infer_instance

/-- The string `kept` is `text` with some whitespace code units deleted: nothing else
is deleted, nothing is added and the order is unchanged. -/
inductive DeletesWhiteSpace : JSString → JSString → Prop where
  | done : DeletesWhiteSpace [] []
  | keep (c : Nat) {text kept : JSString} :
      DeletesWhiteSpace text kept → DeletesWhiteSpace (c :: text) (c :: kept)
  | delete (c : Nat) {text kept : JSString} :
      isWhiteSpace c = true → DeletesWhiteSpace text kept → DeletesWhiteSpace (c :: text) kept

/-- The text is the chunks in order with a run of whitespace, which may be empty,
before the first chunk, between each two consecutive chunks and after the last one. -/
inductive SeparatedChunks : JSString → List JSString → Prop where
  | tail {gap : JSString} :
      (∀ c ∈ gap, isWhiteSpace c = true) → SeparatedChunks gap []
  | chunk (gap first : JSString) {rest : JSString} {chunks : List JSString} :
      (∀ c ∈ gap, isWhiteSpace c = true) → SeparatedChunks rest chunks →
      SeparatedChunks (gap ++ first ++ rest) (first :: chunks)

/-! ## Auxiliary facts about `trim`, `splitLines` and `joinLines` -/

theorem trim_length_le (s : JSString) : (trim s).length ≤ s.length := by
  unfold trim
  exact le_trans (List.IsPrefix.length_le ( List.rdropWhile_prefix _ _))
    (List.IsSuffix.length_le ( List.dropWhile_suffix _))

theorem trim_nil : trim [] = [] := by
  simp [trim]

theorem removeWhiteSpace_append (a b : JSString) :
    removeWhiteSpace (a ++ b) = removeWhiteSpace a ++ removeWhiteSpace b := by
  simp [removeWhiteSpace]

theorem removeWhiteSpace_dropWhile (s : JSString) :
    removeWhiteSpace (s.dropWhile isWhiteSpace) = removeWhiteSpace s := by
  induction s with
  | nil => rfl
  | cons c cs ih =>
    by_cases h : isWhiteSpace c = true
    · simp [List.dropWhile_cons, h, removeWhiteSpace] at ih ⊢
      exact ih
    · simp [List.dropWhile_cons, h]

theorem removeWhiteSpace_reverse (s : JSString) :
    removeWhiteSpace s.reverse = (removeWhiteSpace s).reverse := by
  simp [removeWhiteSpace, List.filter_reverse]

theorem removeWhiteSpace_trim (s : JSString) :
    removeWhiteSpace (trim s) = removeWhiteSpace s := by
  unfold trim List.rdropWhile
  rw [removeWhiteSpace_reverse, removeWhiteSpace_dropWhile, removeWhiteSpace_reverse,
    List.reverse_reverse, removeWhiteSpace_dropWhile]

theorem trim_cons_NL (s : JSString) : trim (NL :: s) = trim s := by
  simp [trim, List.dropWhile_cons, isWhiteSpace, NL]

theorem joinLines_cons (l : JSString) (ls : List JSString) :
    joinLines (l :: ls) = l ++ ls.flatMap (fun x => NL :: x) := by
  induction ls generalizing l with
  | nil => simp [joinLines]
  | cons m ms ih => simp [joinLines, ih]

theorem splitLines_ne_nil (s : JSString) : splitLines s ≠ [] := by
  cases s with
  | nil => simp [splitLines]
  | cons c cs =>
    unfold splitLines
    split
    · simp
    · split <;> simp

theorem joinLines_splitLines (s : JSString) : joinLines (splitLines s) = s := by
  induction s with
  | nil => rfl
  | cons c cs ih =>
    unfold splitLines
    by_cases h : c = NL
    · simp only [h, if_true]
      cases hs : splitLines cs with
      | nil => exact absurd hs (splitLines_ne_nil cs)
      | cons l ls =>
        rw [hs] at ih
        simp [joinLines, ih]
    · simp only [h, if_false]
      cases hs : splitLines cs with
      | nil => exact absurd hs (splitLines_ne_nil cs)
      | cons l ls =>
        rw [hs] at ih
        rw [joinLines_cons] at ih ⊢
        simp [← ih]

theorem removeWhiteSpace_joinLines (ls : List JSString) :
    removeWhiteSpace (joinLines ls) = (ls.map removeWhiteSpace).flatten := by
  induction ls with
  | nil => rfl
  | cons l ls ih =>
    cases ls with
    | nil => simp [joinLines]
    | cons m ms =>
      have h : removeWhiteSpace (NL :: joinLines (m :: ms)) =
          removeWhiteSpace (joinLines (m :: ms)) := by
        simp [removeWhiteSpace, isWhiteSpace, NL]
      simp only [joinLines, removeWhiteSpace_append, h, ih]
      simp


/-! ## `splitLongLine` -/

theorem lastIndexIn_lt (c : Nat) (s : JSString) : lastIndexIn c s < (s.length : Int) := by
  induction s with
  | nil => simp [lastIndexIn]
  | cons x xs ih =>
    unfold lastIndexIn
    split
    · simp only [List.length_cons]; push_cast; omega
    · split <;> simp only [List.length_cons] <;> push_cast <;> omega

theorem lastIndexOf_le (s : JSString) (c : Nat) (position : Int) (h : 0 ≤ position) :
    lastIndexOf s c position ≤ position := by
  unfold lastIndexOf
  have h1 := lastIndexIn_lt c (s.take (position.toNat + 1))
  have h2 : (s.take (position.toNat + 1)).length ≤ position.toNat + 1 :=
    List.length_take_le _ _
  omega

theorem times07_nonneg (maxSize : Int) (h : 0 ≤ maxSize) : 0 ≤ times07 maxSize := by
  unfold times07
  rw [if_pos h]
  exact Int.natCast_nonneg _

theorem splitPoint_pos (remaining : JSString) (maxSize : Int) (h : 0 < maxSize) :
    0 < splitPoint remaining maxSize := by
  unfold splitPoint
  split
  · rename_i ha
    simp only [aboveThreshold, decide_eq_true_eq] at ha
    have h0 := times07_nonneg maxSize (le_of_lt h)
    by_contra hneg
    have hle : lastIndexOf remaining SP maxSize ≤ 0 := not_lt.mp hneg
    have : lastIndexOf remaining SP maxSize * 2 ^ 53 ≤ 0 :=
      mul_nonpos_of_nonpos_of_nonneg hle (by positivity)
    omega
  · exact h

theorem splitPoint_le (remaining : JSString) (maxSize : Int) (h : 0 < maxSize) :
    splitPoint remaining maxSize ≤ maxSize := by
  unfold splitPoint
  split
  · exact lastIndexOf_le _ _ _ (le_of_lt h)
  · exact le_refl _

/-- With a positive ceiling and fuel beyond the length of `remaining`, the loop of
`splitLongLine` exits; the parts it adds are non-empty, at most `maxSize` long, there
is at least one when `remaining` is longer than `maxSize`, and together they hold the
non-whitespace code units of `remaining` in order. -/
theorem splitLongLineLoop_spec (maxSize : Int) (hM : 0 < maxSize) :
    ∀ (fuel : Nat) (remaining : JSString) (parts : List JSString),
      remaining.length < fuel →
      ∃ added, splitLongLineLoop maxSize fuel remaining parts = some (parts ++ added) ∧
        (∀ p ∈ added, (p.length : Int) ≤ maxSize) ∧
        (∀ p ∈ added, p ≠ []) ∧
        (maxSize < (remaining.length : Int) → added ≠ []) ∧
        removeWhiteSpace added.flatten = removeWhiteSpace remaining := by
  intro fuel
  induction fuel with
  | zero => intro remaining parts h; omega
  | succ fuel ih =>
    intro remaining parts hfuel
    unfold splitLongLineLoop
    by_cases hlong : maxSize < (remaining.length : Int)
    · rw [if_pos hlong]
      have hpos := splitPoint_pos remaining maxSize hM
      have hle := splitPoint_le remaining maxSize hM
      have hshort : (trim (substringFrom remaining (splitPoint remaining maxSize))).length
          < fuel := by
        have h1 := trim_length_le (substringFrom remaining (splitPoint remaining maxSize))
        have h2 : (substringFrom remaining (splitPoint remaining maxSize)).length
            = remaining.length - (splitPoint remaining maxSize).toNat := by
          simp [substringFrom]
        omega
      obtain ⟨added, hrun, hsize, hne, _, hws⟩ :=
        ih (trim (substringFrom remaining (splitPoint remaining maxSize)))
          (parts ++ [substringTo remaining (splitPoint remaining maxSize)]) hshort
      have hlen : (substringTo remaining (splitPoint remaining maxSize)).length
          = (splitPoint remaining maxSize).toNat := by
        simp only [substringTo, List.length_take]
        omega
      refine ⟨substringTo remaining (splitPoint remaining maxSize) :: added, ?_, ?_, ?_, ?_, ?_⟩
      · rw [hrun]; simp
      · intro p hp
        rcases List.mem_cons.mp hp with rfl | hp
        · rw [hlen]; omega
        · exact hsize p hp
      · intro p hp
        rcases List.mem_cons.mp hp with rfl | hp
        · intro hnil
          rw [hnil] at hlen
          simp only [List.length_nil] at hlen
          omega
        · exact hne p hp
      · intro _; simp
      · rw [List.flatten_cons, removeWhiteSpace_append, hws, removeWhiteSpace_trim,
          ← removeWhiteSpace_append]
        simp [substringTo, substringFrom]
    · rw [if_neg hlong]
      by_cases hnil : remaining = []
      · refine ⟨[], ?_, ?_, ?_, ?_, ?_⟩
        · simp [hnil]
        · simp
        · simp
        · intro h; exact absurd h hlong
        · simp [hnil]
      · refine ⟨[remaining], ?_, ?_, ?_, ?_, ?_⟩
        · simp [hnil]
        · intro p hp
          rw [List.mem_singleton.mp hp]
          omega
        · intro p hp
          rw [List.mem_singleton.mp hp]
          exact hnil
        · intro _; simp
        · simp

/-- For a positive ceiling `splitLongLine` returns; see `splitLongLineLoop_spec`. -/
theorem splitLongLine_spec (line : JSString) (maxSize : Int) (hM : 0 < maxSize) :
    ∃ parts, splitLongLine line maxSize = some parts ∧
      (∀ p ∈ parts, (p.length : Int) ≤ maxSize) ∧
      (∀ p ∈ parts, p ≠ []) ∧
      (maxSize < (line.length : Int) → parts ≠ []) ∧
      removeWhiteSpace parts.flatten = removeWhiteSpace line := by
  obtain ⟨added, hrun, h⟩ :=
    splitLongLineLoop_spec maxSize hM (line.length + 1) line [] (Nat.lt_succ_self _)
  exact ⟨added, by simpa [splitLongLine] using hrun, h⟩


/-! ## `splitContent` -/

/-- The chunk that a flush of `currentChunk` saves, if any. -/
theorem removeWhiteSpace_flush (currentChunk : JSString) :
    removeWhiteSpace (if trim currentChunk ≠ [] then [trim currentChunk] else []).flatten
      = removeWhiteSpace currentChunk := by
  by_cases h : trim currentChunk = []
  · have hws := removeWhiteSpace_trim currentChunk
    rw [h] at hws
    rw [← hws]
    simp [h]
  · simp [h, removeWhiteSpace_trim]

theorem flush_length_le (currentChunk : JSString) (maxSize : Int)
    (h : (currentChunk.length : Int) ≤ maxSize) :
    ∀ c ∈ (if trim currentChunk ≠ [] then [trim currentChunk] else []),
      (c.length : Int) ≤ maxSize := by
  intro c hc
  by_cases hnil : trim currentChunk = []
  · simp [hnil] at hc
  · simp only [hnil, ne_eq, not_false_eq_true, if_true, List.mem_singleton] at hc
    have := trim_length_le currentChunk
    rw [hc]
    omega

/-- With a positive ceiling the line loop of `splitContent` returns; the chunks it
adds and the `currentChunk` it leaves are at most `maxSize` long, and together they
hold the non-whitespace code units of the old `currentChunk` and of the lines, in
order. -/
theorem splitContentLoop_spec (maxSize : Int) (hM : 0 < maxSize) :
    ∀ (lines chunks : List JSString) (currentChunk : JSString),
      (currentChunk.length : Int) ≤ maxSize →
      ∃ added last,
        splitContentLoop maxSize lines chunks currentChunk = some (chunks ++ added, last) ∧
        (∀ c ∈ added, (c.length : Int) ≤ maxSize) ∧
        (last.length : Int) ≤ maxSize ∧
        removeWhiteSpace (added.flatten ++ last)
          = removeWhiteSpace currentChunk ++ (lines.map removeWhiteSpace).flatten := by
  intro lines
  induction lines with
  | nil =>
    intro chunks currentChunk hcur
    exact ⟨[], currentChunk, by simp [splitContentLoop], by simp, hcur, by simp⟩
  | cons line rest ih =>
    intro chunks currentChunk hcur
    unfold splitContentLoop
    by_cases hover : maxSize < (currentChunk.length : Int) + (line.length : Int) + 1
    · rw [if_pos hover]
      have hsaved : (if trim currentChunk ≠ [] then chunks ++ [trim currentChunk] else chunks)
          = chunks ++ (if trim currentChunk ≠ [] then [trim currentChunk] else []) := by
        by_cases hnil : trim currentChunk = [] <;> simp [hnil]
      simp only [hsaved]
      have hflushWS := removeWhiteSpace_flush currentChunk
      have hflushLen := flush_length_le currentChunk maxSize hcur
      by_cases hlong : maxSize < (line.length : Int)
      · rw [if_pos hlong]
        obtain ⟨parts, hparts, hsize, _, hne, hws⟩ := splitLongLine_spec line maxSize hM
        have hne := hne hlong
        rw [hparts]
        have hsplit := List.dropLast_append_getLast hne
        have hlast : parts.getLast? = some (parts.getLast hne) := List.getLast?_eq_getLast _ hne
        simp only [hlast]
        have hlastLen : ((parts.getLast hne).length : Int) ≤ maxSize :=
          hsize _ (List.getLast_mem hne)
        obtain ⟨added, last, hrun, haddedLen, hlastLen2, hws2⟩ :=
          ih (chunks ++ (if trim currentChunk ≠ [] then [trim currentChunk] else [])
            ++ parts.dropLast) (parts.getLast hne) hlastLen
        refine ⟨(if trim currentChunk ≠ [] then [trim currentChunk] else [])
          ++ parts.dropLast ++ added, last, ?_, ?_, hlastLen2, ?_⟩
        · rw [hrun]; simp
        · intro c hc
          rcases List.mem_append.mp hc with hc | hc
          · rcases List.mem_append.mp hc with hc | hc
            · exact hflushLen c hc
            · exact hsize c (List.dropLast_subset _ hc)
          · exact haddedLen c hc
        · have hpartsWS : removeWhiteSpace parts.dropLast.flatten
              ++ removeWhiteSpace (parts.getLast hne) = removeWhiteSpace line := by
            rw [← hws, ← removeWhiteSpace_append]
            conv_rhs => rw [← hsplit]
            simp
          simp only [List.flatten_append, removeWhiteSpace_append, List.map_cons,
            List.flatten_cons, List.append_assoc] at hws2 ⊢
          rw [hws2, hflushWS, ← hpartsWS]
          simp
      · rw [if_neg hlong]
        obtain ⟨added, last, hrun, haddedLen, hlastLen2, hws2⟩ :=
          ih (chunks ++ (if trim currentChunk ≠ [] then [trim currentChunk] else []))
            line (not_lt.mp hlong)
        refine ⟨(if trim currentChunk ≠ [] then [trim currentChunk] else []) ++ added,
          last, ?_, ?_, hlastLen2, ?_⟩
        · rw [hrun]; simp
        · intro c hc
          rcases List.mem_append.mp hc with hc | hc
          · exact hflushLen c hc
          · exact haddedLen c hc
        · simp only [List.flatten_append, removeWhiteSpace_append, List.map_cons,
            List.flatten_cons, List.append_assoc] at hws2 ⊢
          rw [hws2, hflushWS]
    · rw [if_neg hover]
      have hlen : ((currentChunk ++ (if currentChunk ≠ [] then [NL] else []) ++ line).length
          : Int) ≤ maxSize := by
        by_cases hnil : currentChunk = []
        · simp only [hnil, List.length_nil] at hover
          simp [hnil]
          omega
        · simp only [hnil, ne_eq, not_false_eq_true, if_true, List.length_append,
            List.length_singleton]
          push_cast
          omega
      obtain ⟨added, last, hrun, haddedLen, hlastLen2, hws2⟩ :=
        ih chunks (currentChunk ++ (if currentChunk ≠ [] then [NL] else []) ++ line) hlen
      refine ⟨added, last, hrun, haddedLen, hlastLen2, ?_⟩
      rw [hws2]
      have hsep : removeWhiteSpace (if currentChunk ≠ [] then [NL] else []) = [] := by
        by_cases hnil : currentChunk = [] <;> simp [hnil, removeWhiteSpace, isWhiteSpace, NL]
      rw [removeWhiteSpace_append, removeWhiteSpace_append, hsep]
      simp

/-- For a positive ceiling `splitContent` returns a chunk array; every chunk is at
most `maxSize` long, and the chunks hold the non-whitespace code units of the content
in order. -/
theorem splitContent_spec (content : JSString) (maxSize : Int) (hM : 0 < maxSize) :
    ∃ chunks, splitContent content maxSize = some chunks ∧
      (∀ c ∈ chunks, (c.length : Int) ≤ maxSize) ∧
      removeWhiteSpace chunks.flatten = removeWhiteSpace content := by
  obtain ⟨added, last, hrun, hlen, hlast, hws⟩ :=
    splitContentLoop_spec maxSize hM (splitLines content) [] [] (by simpa using le_of_lt hM)
  have hcontent : ((splitLines content).map removeWhiteSpace).flatten
      = removeWhiteSpace content := by
    rw [← removeWhiteSpace_joinLines, joinLines_splitLines]
  have hflushWS := removeWhiteSpace_flush last
  have hflushLen := flush_length_le last maxSize hlast
  refine ⟨added ++ (if trim last ≠ [] then [trim last] else []), ?_, ?_, ?_⟩
  · unfold splitContent
    rw [hrun]
    by_cases hnil : trim last = [] <;> simp [hnil]
  · intro c hc
    rcases List.mem_append.mp hc with hc | hc
    · exact hlen c hc
    · exact hflushLen c hc
  · rw [List.flatten_append, removeWhiteSpace_append, hflushWS, ← removeWhiteSpace_append,
      hws, hcontent]
    simp [removeWhiteSpace]


/-! ## Content that fits under the ceiling -/

theorem length_flatMap_NL_pos (l : JSString) (ls : List JSString) :
    0 < ((l :: ls).flatMap (fun x => NL :: x)).length := by
  simp [List.flatMap_cons]

/-- Lines that fit after a non-empty `currentChunk` are all appended to it. -/
theorem splitContentLoop_fits (maxSize : Int) :
    ∀ (lines chunks : List JSString) (currentChunk : JSString),
      currentChunk ≠ [] →
      ((currentChunk.length : Int) + ((lines.flatMap (fun x => NL :: x)).length : Int)
        ≤ maxSize) →
      splitContentLoop maxSize lines chunks currentChunk
        = some (chunks, currentChunk ++ lines.flatMap (fun x => NL :: x)) := by
  intro lines
  induction lines with
  | nil => intro chunks currentChunk _ _; simp [splitContentLoop]
  | cons line rest ih =>
    intro chunks currentChunk hne hfit
    simp only [List.flatMap_cons, List.length_append, List.length_cons] at hfit
    push_cast at hfit
    have hrest : (0 : Int) ≤ ((rest.flatMap (fun x => NL :: x)).length : Int) :=
      Int.natCast_nonneg _
    unfold splitContentLoop
    rw [if_neg (by omega)]
    rw [ih chunks _ (by simp [hne])]
    · simp [hne, List.flatMap_cons]
    · simp only [hne, ne_eq, not_false_eq_true, if_true, List.length_append,
        List.length_singleton]
      push_cast
      omega

/-- Lines that fit are all gathered in `currentChunk`, apart from empty lines at the
start, which leave no trace. -/
theorem splitContentLoop_fits_nil (maxSize : Int) :
    ∀ (lines chunks : List JSString),
      ((joinLines lines).length : Int) ≤ maxSize →
      ∃ last, splitContentLoop maxSize lines chunks [] = some (chunks, last) ∧
        trim last = trim (joinLines lines) := by
  intro lines
  induction lines with
  | nil => intro chunks _; exact ⟨[], by simp [splitContentLoop], by simp [joinLines]⟩
  | cons line rest ih =>
    intro chunks hfit
    have hjoin := joinLines_cons line rest
    rw [hjoin, List.length_append] at hfit
    push_cast at hfit
    have hrest : (0 : Int) ≤ ((rest.flatMap (fun x => NL :: x)).length : Int) :=
      Int.natCast_nonneg _
    unfold splitContentLoop
    by_cases hover : maxSize < (([] : JSString).length : Int) + (line.length : Int) + 1
    · rw [if_pos hover]
      simp only [List.length_nil, Nat.cast_zero, zero_add] at hover
      have hnil : rest = [] := by
        cases rest with
        | nil => rfl
        | cons m ms =>
          have := length_flatMap_NL_pos m ms
          omega
      subst hnil
      rw [if_neg (by omega)]
      exact ⟨line, by simp [trim_nil, splitContentLoop], by simp [joinLines]⟩
    · rw [if_neg hover]
      simp only [List.nil_append, ne_eq, not_true_eq_false, if_false]
      by_cases hline : line = []
      · subst hline
        have hfit2 : ((joinLines rest).length : Int) ≤ maxSize := by
          cases rest with
          | nil => simp only [joinLines, List.length_nil]; omega
          | cons m ms =>
            rw [joinLines_cons]
            simp only [List.flatMap_cons, List.length_append, List.length_cons,
              List.length_nil] at hfit ⊢
            push_cast at hfit ⊢
            omega
        obtain ⟨last, hrun, htrim⟩ := ih chunks hfit2
        refine ⟨last, hrun, ?_⟩
        rw [htrim]
        cases rest with
        | nil => simp [joinLines]
        | cons m ms => simp [joinLines, trim_cons_NL]
      · refine ⟨line ++ rest.flatMap (fun x => NL :: x), ?_, by rw [hjoin]⟩
        exact splitContentLoop_fits maxSize rest chunks line hline hfit

/-- Content no longer than the ceiling comes back as one chunk, trimmed, or as no
chunk at all when it holds only whitespace. -/
theorem splitContent_of_length_le (content : JSString) (maxSize : Int)
    (h : (content.length : Int) ≤ maxSize) :
    splitContent content maxSize
      = some (if trim content ≠ [] then [trim content] else []) := by
  obtain ⟨last, hrun, htrim⟩ := splitContentLoop_fits_nil maxSize (splitLines content) []
    (by rw [joinLines_splitLines]; exact h)
  rw [joinLines_splitLines] at htrim
  unfold splitContent
  rw [hrun]
  simp only [htrim]
  by_cases hnil : trim content = [] <;> simp [hnil]


/-! ## The upload loop -/

theorem writesOf_append (a b : List Event) : writesOf (a ++ b) = writesOf a ++ writesOf b := by
  induction a with
  | nil => rfl
  | cons x xs ih => cases x <;> simp [writesOf, ih]

theorem writesOf_pause (rest : List JSString) :
    writesOf (if rest ≠ [] then [Event.sleep 100] else []) = [] := by
  by_cases h : rest = [] <;> simp [h, writesOf]

theorem uploadPlan_length (docId pageId : JSString) (i : Nat) (chunks : List JSString) :
    (uploadPlan docId pageId i chunks).length = chunks.length := by
  induction chunks generalizing i with
  | nil => rfl
  | cons c cs ih => simp [uploadPlan, ih]

theorem uploadPlan_content (docId pageId : JSString) (i : Nat) (chunks : List JSString) :
    (uploadPlan docId pageId i chunks).map WriteCall.content = chunks := by
  induction chunks generalizing i with
  | nil => rfl
  | cons c cs ih => simp [uploadPlan, ih]

theorem uploadPlan_mode (docId pageId : JSString) (i : Nat) (chunks : List JSString) :
    (uploadPlan docId pageId i chunks).map WriteCall.insertionMode
      = (List.range' i chunks.length).map chunkMode := by
  induction chunks generalizing i with
  | nil => rfl
  | cons c cs ih => simp [uploadPlan, ih, List.range'_succ]

theorem uploadLoop_cons_error (write : WritePrimitive) (docId pageId c : JSString)
    (cs : List JSString) (i : Nat) (prior : List WriteCall) (e : JSError)
    (hw : write prior ⟨docId, pageId, c, chunkMode i, utf16 "markdown"⟩ = Except.error e) :
    writesOf (uploadLoop write docId pageId i (c :: cs) prior).1
        = [⟨docId, pageId, c, chunkMode i, utf16 "markdown"⟩] ∧
      (uploadLoop write docId pageId i (c :: cs) prior).2 = Outcome.thrown e := by
  rw [uploadLoop, hw]
  exact ⟨rfl, rfl⟩

theorem uploadLoop_cons_ok (write : WritePrimitive) (docId pageId c : JSString)
    (cs : List JSString) (i : Nat) (prior : List WriteCall) (u : Unit)
    (hw : write prior ⟨docId, pageId, c, chunkMode i, utf16 "markdown"⟩ = Except.ok u) :
    writesOf (uploadLoop write docId pageId i (c :: cs) prior).1
        = ⟨docId, pageId, c, chunkMode i, utf16 "markdown"⟩ ::
          writesOf (uploadLoop write docId pageId (i + 1) cs
            (prior ++ [⟨docId, pageId, c, chunkMode i, utf16 "markdown"⟩])).1 ∧
      (uploadLoop write docId pageId i (c :: cs) prior).2
        = (uploadLoop write docId pageId (i + 1) cs
            (prior ++ [⟨docId, pageId, c, chunkMode i, utf16 "markdown"⟩])).2 := by
  rw [uploadLoop, hw]
  refine ⟨?_, rfl⟩
  show writesOf ((Event.write _ :: (if cs ≠ [] then [Event.sleep 100] else [])) ++ _) = _
  rw [writesOf_append]
  show _ :: writesOf (if cs ≠ [] then [Event.sleep 100] else []) ++ _ = _
  rw [writesOf_pause]
  rfl

/-- Whatever the write primitive does, the loop issues a prefix of the plan. -/
theorem uploadLoop_issues_plan_start (write : WritePrimitive) (docId pageId : JSString) :
    ∀ (chunks : List JSString) (i : Nat) (prior : List WriteCall),
      writesOf (uploadLoop write docId pageId i chunks prior).1
        <+: uploadPlan docId pageId i chunks := by
  intro chunks
  induction chunks with
  | nil => intro i prior; simp [uploadLoop, uploadPlan, writesOf]
  | cons c cs ih =>
    intro i prior
    cases hw : write prior ⟨docId, pageId, c, chunkMode i, utf16 "markdown"⟩ with
    | error e =>
      rw [(uploadLoop_cons_error write docId pageId c cs i prior e hw).1, uploadPlan]
      simp
    | ok u =>
      rw [(uploadLoop_cons_ok write docId pageId c cs i prior u hw).1, uploadPlan]
      exact (List.prefix_cons_inj _).mpr (ih (i + 1) _)

theorem writesSucceed_cons (write : WritePrimitive) (prior : List WriteCall)
    (call : WriteCall) (rest : List WriteCall)
    (h : WritesSucceed write prior (call :: rest)) :
    write prior call = Except.ok () ∧ WritesSucceed write (prior ++ [call]) rest := by
  constructor
  · simpa using h 0 call (by simp)
  · intro i c hc
    have := h (i + 1) c (by simpa using hc)
    simpa using this

/-- When every write it issues resolves, the loop issues the whole plan and
returns. -/
theorem uploadLoop_of_succeed (write : WritePrimitive) (docId pageId : JSString) :
    ∀ (chunks : List JSString) (i : Nat) (prior : List WriteCall),
      WritesSucceed write prior (writesOf (uploadLoop write docId pageId i chunks prior).1) →
      writesOf (uploadLoop write docId pageId i chunks prior).1
          = uploadPlan docId pageId i chunks ∧
        (uploadLoop write docId pageId i chunks prior).2 = Outcome.returned () := by
  intro chunks
  induction chunks with
  | nil => intro i prior _; simp [uploadLoop, uploadPlan, writesOf]
  | cons c cs ih =>
    intro i prior
    cases hw : write prior ⟨docId, pageId, c, chunkMode i, utf16 "markdown"⟩ with
    | error e =>
      rw [(uploadLoop_cons_error write docId pageId c cs i prior e hw).1]
      intro hok
      have h0 := (writesSucceed_cons write prior _ _ hok).1
      rw [hw] at h0
      exact absurd h0 (by simp)
    | ok u =>
      obtain ⟨hev, hout⟩ := uploadLoop_cons_ok write docId pageId c cs i prior u hw
      rw [hev, hout, uploadPlan]
      intro hok
      obtain ⟨h1, h2⟩ := ih (i + 1) _ (writesSucceed_cons write prior _ _ hok).2
      exact ⟨by rw [h1], h2⟩

/-- When the `k`-th write that the loop issues is rejected, the loop has issued the
first `k` writes of the plan and no more, and throws the primitive's error. -/
theorem uploadLoop_of_writeFails (write : WritePrimitive) (docId pageId : JSString)
    (e : JSError) :
    ∀ (chunks : List JSString) (i : Nat) (prior : List WriteCall) (k : Nat),
      WriteFails write prior (writesOf (uploadLoop write docId pageId i chunks prior).1) k e →
      k ≤ chunks.length ∧
        writesOf (uploadLoop write docId pageId i chunks prior).1
          = (uploadPlan docId pageId i chunks).take k ∧
        (uploadLoop write docId pageId i chunks prior).2 = Outcome.thrown e := by
  intro chunks
  induction chunks with
  | nil =>
    intro i prior k hfail
    obtain ⟨_, call, hget, _⟩ := hfail
    simp [uploadLoop, writesOf] at hget
  | cons c cs ih =>
    intro i prior k hfail
    cases hw : write prior ⟨docId, pageId, c, chunkMode i, utf16 "markdown"⟩ with
    | error e2 =>
      obtain ⟨hev, hout⟩ := uploadLoop_cons_error write docId pageId c cs i prior e2 hw
      rw [hev] at hfail ⊢
      rw [hout]
      obtain ⟨hk, call, hget, hwr⟩ := hfail
      have hk1 : k - 1 = 0 := by
        by_contra hne
        have hlen : ([⟨docId, pageId, c, chunkMode i, utf16 "markdown"⟩] :
            List WriteCall).length ≤ k - 1 := by
          simp only [List.length_singleton]
          omega
        rw [List.getElem?_eq_none hlen] at hget
        exact absurd hget (by simp)
      rw [hk1] at hget hwr
      simp only [List.getElem?_cons_zero, Option.some.injEq] at hget
      rw [← hget, List.take_zero, List.append_nil, hw] at hwr
      have hk2 : k = 1 := by omega
      subst hk2
      refine ⟨by simp, by simp [uploadPlan], ?_⟩
      rw [Except.error.inj hwr]
    | ok u =>
      obtain ⟨hev, hout⟩ := uploadLoop_cons_ok write docId pageId c cs i prior u hw
      rw [hev] at hfail ⊢
      rw [hout]
      obtain ⟨hk, call, hget, hwr⟩ := hfail
      obtain ⟨j, rfl⟩ : ∃ j, k = j + 1 := ⟨k - 1, by omega⟩
      simp only [Nat.add_sub_cancel] at hget hwr
      cases j with
      | zero =>
        simp only [List.getElem?_cons_zero, Option.some.injEq] at hget
        rw [← hget, List.take_zero, List.append_nil, hw] at hwr
        exact absurd hwr (by simp)
      | succ j =>
        simp only [List.getElem?_cons_succ] at hget
        rw [List.take_succ_cons, ← List.singleton_append, ← List.append_assoc] at hwr
        obtain ⟨h1, h2, h3⟩ := ih (i + 1)
          (prior ++ [⟨docId, pageId, c, chunkMode i, utf16 "markdown"⟩]) (j + 1)
          ⟨by omega, call, by simpa using hget, by simpa using hwr⟩
        refine ⟨by simp only [List.length_cons]; omega, ?_, h3⟩
        rw [uploadPlan, List.take_succ_cons, h2]

/-- The stub that rejects the `k`-th call after `prior`: the loop issues the first
`k` writes of the plan and throws. -/
theorem uploadLoop_failOnCall (docId pageId : JSString) (e : JSError) :
    ∀ (chunks : List JSString) (i : Nat) (prior : List WriteCall) (k : Nat),
      1 ≤ k → k ≤ chunks.length →
      writesOf (uploadLoop (failOnCall (prior.length + k) e) docId pageId i chunks prior).1
          = (uploadPlan docId pageId i chunks).take k ∧
        (uploadLoop (failOnCall (prior.length + k) e) docId pageId i chunks prior).2
          = Outcome.thrown e := by
  intro chunks
  induction chunks with
  | nil => intro i prior k h1 h2; simp at h2; omega
  | cons c cs ih =>
    intro i prior k h1 h2
    obtain ⟨j, rfl⟩ : ∃ j, k = j + 1 := ⟨k - 1, by omega⟩
    cases j with
    | zero =>
      have hw : failOnCall (prior.length + (0 + 1)) e prior
          ⟨docId, pageId, c, chunkMode i, utf16 "markdown"⟩ = Except.error e := by
        simp [failOnCall]
      obtain ⟨hev, hout⟩ := uploadLoop_cons_error _ docId pageId c cs i prior e hw
      rw [hev, hout, uploadPlan]
      simp
    | succ j =>
      have hw : failOnCall (prior.length + (j + 1 + 1)) e prior
          ⟨docId, pageId, c, chunkMode i, utf16 "markdown"⟩ = Except.ok () := by
        simp only [failOnCall]
        rw [if_neg (by omega)]
      obtain ⟨hev, hout⟩ := uploadLoop_cons_ok _ docId pageId c cs i prior () hw
      rw [hev, hout, uploadPlan, List.take_succ_cons]
      have harith : prior.length + (j + 1 + 1)
          = (prior ++ [(⟨docId, pageId, c, chunkMode i, utf16 "markdown"⟩ : WriteCall)]).length
            + (j + 1) := by
        simp only [List.length_append, List.length_singleton]
        omega
      rw [harith]
      obtain ⟨h3, h4⟩ := ih (i + 1)
        (prior ++ [⟨docId, pageId, c, chunkMode i, utf16 "markdown"⟩]) (j + 1) (by omega)
        (by simpa using h2)
      exact ⟨by rw [h3], h4⟩

/-- With the stub that rejects its `k`-th call, the `k`-th write that the loop issues
is rejected. -/
theorem writeFails_failOnCall (docId pageId : JSString) (e : JSError)
    (chunks : List JSString) (k : Nat) (hk1 : 1 ≤ k) (hk : k ≤ chunks.length) :
    WriteFails (failOnCall k e) []
      (writesOf (uploadLoop (failOnCall k e) docId pageId 0 chunks []).1) k e := by
  have h := (uploadLoop_failOnCall docId pageId e chunks 0 [] k hk1 hk).1
  simp only [List.length_nil, Nat.zero_add] at h
  rw [h]
  have hlt : k - 1 < (uploadPlan docId pageId 0 chunks).length := by
    rw [uploadPlan_length]
    omega
  refine ⟨hk1, (uploadPlan docId pageId 0 chunks)[k - 1], ?_, ?_⟩
  · rw [List.getElem?_take_of_lt (by omega), List.getElem?_eq_getElem hlt]
  · simp only [failOnCall, List.nil_append, List.length_take, uploadPlan_length]
    rw [if_pos (by omega)]

theorem writesSucceed_succeedAlways (prior issued : List WriteCall) :
    WritesSucceed succeedAlways prior issued :=
  fun _ _ _ => rfl

/-! ## The two uploaders -/

theorem splitContent_chunkSize (content : JSString) :
    splitContent content CHUNK_SIZE = some (chunksOf content) := by
  obtain ⟨chunks, h, _⟩ := splitContent_spec content CHUNK_SIZE (by decide)
  simp [chunksOf, h]

theorem chunksOf_length_le (content : JSString) :
    ∀ c ∈ chunksOf content, (c.length : Int) ≤ CHUNK_SIZE := by
  obtain ⟨chunks, h, hlen, _⟩ := splitContent_spec content CHUNK_SIZE (by decide)
  have : chunksOf content = chunks := by simp [chunksOf, h]
  rw [this]
  exact hlen

theorem uploadChunked_eq (write : WritePrimitive) (docId pageId content : JSString)
    (prior : List WriteCall) :
    uploadChunked write docId pageId content prior
      = uploadLoop write docId pageId 0 (chunksOf content) prior := by
  unfold uploadChunked
  rw [splitContent_chunkSize]

theorem writeOnce_events (write : WritePrimitive) (call : WriteCall) (prior : List WriteCall) :
    (writeOnce write call prior).1 = [Event.write call] := by
  unfold writeOnce
  split <;> rfl

theorem updatePageContent_events (write : WritePrimitive)
    (docId pageId content mode : JSString) (prior : List WriteCall) :
    (updatePageContent write docId pageId content mode prior).1
      = (updatePageContentBody write docId pageId content mode prior).1 := by
  unfold updatePageContent
  split <;> rfl

theorem updatePageContent_thrown (write : WritePrimitive)
    (docId pageId content mode : JSString) (prior : List WriteCall) (e : JSError)
    (h : (updatePageContentBody write docId pageId content mode prior).2 = Outcome.thrown e) :
    (updatePageContent write docId pageId content mode prior).2
      = Outcome.thrown ⟨utf16 "Failed to update page content: " ++ e.message⟩ := by
  unfold updatePageContent
  rw [h]

theorem updatePageContent_returned (write : WritePrimitive)
    (docId pageId content mode : JSString) (prior : List WriteCall)
    (h : (updatePageContentBody write docId pageId content mode prior).2
      = Outcome.returned ()) :
    (updatePageContent write docId pageId content mode prior).2
      = Outcome.returned (updateSuccessText pageId content mode) := by
  unfold updatePageContent
  rw [h]

theorem replace_ne_append : utf16 "replace" ≠ utf16 "append" := by decide

/-- The direct path of `updatePageContent`. -/
theorem updatePageContentBody_direct (write : WritePrimitive)
    (docId pageId content mode : JSString) (prior : List WriteCall)
    (h : (content.length : Int) ≤ CHUNK_SIZE ∨ mode = utf16 "append") :
    updatePageContentBody write docId pageId content mode prior
      = writeOnce write ⟨docId, pageId, content, mode, utf16 "markdown"⟩ prior := by
  unfold updatePageContentBody
  rw [if_pos h]

/-- The chunked path of `updatePageContent`. -/
theorem updatePageContentBody_chunked (write : WritePrimitive)
    (docId pageId content mode : JSString) (prior : List WriteCall)
    (hlen : CHUNK_SIZE < (content.length : Int)) (hmode : mode ≠ utf16 "append") :
    updatePageContentBody write docId pageId content mode prior
      = uploadLoop write docId pageId 0 (chunksOf content) prior := by
  unfold updatePageContentBody
  rw [if_neg (by
    rintro (h | h)
    · omega
    · exact hmode h), uploadChunked_eq]

/-- The chunked path of `uploadContentInChunks`. -/
theorem uploadContentInChunks_chunked (write : WritePrimitive)
    (docId pageId content : JSString) (prior : List WriteCall)
    (hlen : CHUNK_SIZE < (content.length : Int)) :
    uploadContentInChunks write docId pageId content prior
      = uploadLoop write docId pageId 0 (chunksOf content) prior := by
  unfold uploadContentInChunks
  rw [if_neg (by omega), uploadChunked_eq]

theorem flatten_length_le (m : Nat) (chunks : List JSString)
    (h : ∀ c ∈ chunks, c.length ≤ m) : chunks.flatten.length ≤ m * chunks.length := by
  induction chunks with
  | nil => simp
  | cons c cs ih =>
    have hc := h c (List.mem_cons_self _ _)
    have hcs := ih (fun x hx => h x (List.mem_cons_of_mem _ hx))
    simp only [List.flatten_cons, List.length_append, List.length_cons]
    rw [Nat.mul_succ]
    omega

/-- A chunked upload has at least as many chunks as its non-whitespace code units
need at `CHUNK_SIZE` each. -/
theorem chunksOf_count (content : JSString) :
    (removeWhiteSpace content).length ≤ 4000 * (chunksOf content).length := by
  obtain ⟨chunks, h, hlen, hws⟩ := splitContent_spec content CHUNK_SIZE (by decide)
  have hc : chunksOf content = chunks := by simp [chunksOf, h]
  rw [hc, ← hws]
  refine le_trans (List.length_filter_le _ _) (flatten_length_le 4000 chunks ?_)
  intro c hcmem
  have := hlen c hcmem
  simp only [CHUNK_SIZE] at this
  omega

/-- 4001 letters `a` make at least two chunks. -/
theorem two_le_chunksOf_letters : 2 ≤ (chunksOf (List.replicate 4001 97)).length := by
  have h := chunksOf_count (List.replicate 4001 97)
  have hws : removeWhiteSpace (List.replicate 4001 97) = List.replicate 4001 97 := by
    unfold removeWhiteSpace
    rw [List.filter_eq_self]
    intro a ha
    rw [List.eq_of_mem_replicate ha]
    decide
  rw [hws, List.length_replicate] at h
  omega


theorem removeWhiteSpace_flatten (chunks : List JSString) :
    removeWhiteSpace chunks.flatten = (chunks.map removeWhiteSpace).flatten := by
  induction chunks with
  | nil => rfl
  | cons c cs ih => simp [removeWhiteSpace_append, ih]

/-! ## The claims about `splitContent` -/

/-- Claim C1, counterexample: with ceiling 3 the text `ab \ncdef` is split into `ab`,
`cde`, `f`; joined with the line separator and trimmed these give `ab\ncde\nf`, which
is not the trimmed text: the space before the line break is lost and a line break
appears inside `cdef`. -/
theorem round_trip_counterexample :
    splitContent (utf16 "ab \ncdef") 3 = some [utf16 "ab", utf16 "cde", utf16 "f"] ∧
      trim (joinLines [utf16 "ab", utf16 "cde", utf16 "f"]) ≠ trim (utf16 "ab \ncdef") := by
  decide

/-- Claim C2: for every text and every ceiling above zero such that no maximal run
of non-space code units of the text is longer than the ceiling, `splitContent`
returns chunks that are each at most the ceiling long. (`splitContent_spec` shows
the bound without the condition on runs.) -/
theorem chunk_size_bound (content : JSString) (maxSize : Int) (hM : 0 < maxSize)
    (_hword : (longestWord content : Int) ≤ maxSize) :
    ∃ chunks, splitContent content maxSize = some chunks ∧
      ∀ c ∈ chunks, (c.length : Int) ≤ maxSize := by
  obtain ⟨chunks, hsplit, hlen, _⟩ := splitContent_spec content maxSize hM
  exact ⟨chunks, hsplit, hlen⟩

/-- Claim C2 at the text `ab cde f` and ceiling 3. -/
theorem chunk_size_bound_witness :
    ((0 : Int) < 3 ∧ (longestWord (utf16 "ab cde f") : Int) ≤ 3) ∧
      ∃ chunks, splitContent (utf16 "ab cde f") 3 = some chunks ∧
        ∀ c ∈ chunks, (c.length : Int) ≤ 3 :=
  ⟨by decide, chunk_size_bound (utf16 "ab cde f") 3 (by decide) (by decide)⟩

/-- Claim C4, counterexample: the text ` a` is shorter than the ceiling 5, yet
`splitContent` returns it trimmed, as `a`, not unchanged. -/
theorem fast_path_counterexample :
    ((utf16 " a").length : Int) ≤ 5 ∧
      splitContent (utf16 " a") 5 = some [utf16 "a"] ∧
      splitContent (utf16 " a") 5 ≠ some [utf16 " a"] := by
  decide

/-- Claim C4, amended: for every text no longer than the ceiling, `splitContent`
returns the one-element sequence holding the trimmed text, or the empty sequence
when the text holds only whitespace. -/
theorem fast_path_trimmed (content : JSString) (maxSize : Int)
    (h : (content.length : Int) ≤ maxSize) :
    splitContent content maxSize
      = some (if trim content ≠ [] then [trim content] else []) :=
  splitContent_of_length_le content maxSize h

/-- Claim C4, amended, at the text ` a` and ceiling 5. -/
theorem fast_path_trimmed_witness :
    ((utf16 " a").length : Int) ≤ 5 ∧
      splitContent (utf16 " a") 5
        = some (if trim (utf16 " a") ≠ [] then [trim (utf16 " a")] else []) :=
  ⟨by decide, fast_path_trimmed (utf16 " a") 5 (by decide)⟩


/-! ## The claims about the uploaders -/

theorem letters_length : CHUNK_SIZE < ((List.replicate 4001 97).length : Int) := by
  rw [List.length_replicate]
  decide

/-- Claim C3, counterexample: asked to append 4001 letters, `updatePageContent`
issues a write whose content is longer than `CHUNK_SIZE`. -/
theorem append_write_exceeds_chunk_size :
    ∃ call ∈ writesOf (updatePageContent succeedAlways (utf16 "doc") (utf16 "page")
        (List.replicate 4001 97) (utf16 "append") []).1,
      CHUNK_SIZE < (call.content.length : Int) := by
  rw [updatePageContent_events, updatePageContentBody_direct _ _ _ _ _ _ (Or.inr rfl),
    writeOnce_events]
  exact ⟨_, List.mem_singleton.mpr rfl, letters_length⟩

/-- Claim C3, amended: for every content and every mode, every write that
`updatePageContent` issues carries at most `CHUNK_SIZE` = 4000 code units when the
mode is not `append` or the content is at most 4000 code units long, so in mode
`replace` always and in mode `append` for a content within the ceiling; and in mode
`append` the whole content goes out in one write, whatever its length. -/
theorem writes_within_chunk_size (write : WritePrimitive)
    (docId pageId content mode : JSString) (prior : List WriteCall) :
    ((mode ≠ utf16 "append" ∨ (content.length : Int) ≤ CHUNK_SIZE) →
      ∀ call ∈ writesOf (updatePageContent write docId pageId content mode prior).1,
        (call.content.length : Int) ≤ CHUNK_SIZE) ∧
    (mode = utf16 "append" →
      writesOf (updatePageContent write docId pageId content mode prior).1
        = [⟨docId, pageId, content, mode, utf16 "markdown"⟩]) := by
  constructor
  · intro hcond call hcall
    rw [updatePageContent_events] at hcall
    by_cases hlen : (content.length : Int) ≤ CHUNK_SIZE
    · rw [updatePageContentBody_direct _ _ _ _ _ _ (Or.inl hlen), writeOnce_events] at hcall
      simp only [writesOf, List.mem_singleton] at hcall
      rw [hcall]
      exact hlen
    · have hmode : mode ≠ utf16 "append" := by
        rcases hcond with h | h
        · exact h
        · exact absurd h hlen
      rw [updatePageContentBody_chunked _ _ _ _ _ _ (not_le.mp hlen) hmode] at hcall
      have hplan := (uploadLoop_issues_plan_start write docId pageId (chunksOf content) 0
        prior).subset hcall
      have hmem : call.content ∈ (uploadPlan docId pageId 0 (chunksOf content)).map
          WriteCall.content := List.mem_map_of_mem _ hplan
      rw [uploadPlan_content] at hmem
      exact chunksOf_length_le content _ hmem
  · intro hmode
    rw [updatePageContent_events, updatePageContentBody_direct _ _ _ _ _ _ (Or.inr hmode),
      writeOnce_events]
    rfl

/-- Claim C3, amended, at 4001 letters in the mode `replace`, which are split into at
least two chunks and written chunk by chunk, and at the append of `hi`. -/
theorem writes_within_chunk_size_witness :
    ((utf16 "replace" ≠ utf16 "append" ∨
        ((List.replicate 4001 97).length : Int) ≤ CHUNK_SIZE) ∧
      (utf16 "append" ≠ utf16 "append" ∨ ((utf16 "hi").length : Int) ≤ CHUNK_SIZE) ∧
      utf16 "append" = utf16 "append") ∧
    (2 ≤ (writesOf (updatePageContent succeedAlways (utf16 "doc") (utf16 "page")
        (List.replicate 4001 97) (utf16 "replace") []).1).length ∧
      ∀ call ∈ writesOf (updatePageContent succeedAlways (utf16 "doc") (utf16 "page")
          (List.replicate 4001 97) (utf16 "replace") []).1,
        (call.content.length : Int) ≤ CHUNK_SIZE) ∧
    (∀ call ∈ writesOf (updatePageContent succeedAlways (utf16 "doc") (utf16 "page")
        (utf16 "hi") (utf16 "append") []).1,
      (call.content.length : Int) ≤ CHUNK_SIZE) ∧
    writesOf (updatePageContent succeedAlways (utf16 "doc") (utf16 "page")
        (utf16 "hi") (utf16 "append") []).1
      = [⟨utf16 "doc", utf16 "page", utf16 "hi", utf16 "append", utf16 "markdown"⟩] :=
  ⟨⟨Or.inl replace_ne_append, Or.inr (by decide), rfl⟩,
    ⟨by
      rw [updatePageContent_events,
        updatePageContentBody_chunked _ _ _ _ _ _ letters_length replace_ne_append,
        (uploadLoop_of_succeed succeedAlways _ _ _ 0 []
          (writesSucceed_succeedAlways _ _)).1, uploadPlan_length]
      exact two_le_chunksOf_letters,
      (writes_within_chunk_size succeedAlways (utf16 "doc") (utf16 "page")
        (List.replicate 4001 97) (utf16 "replace") []).1 (Or.inl replace_ne_append)⟩,
    (writes_within_chunk_size succeedAlways (utf16 "doc") (utf16 "page")
      (utf16 "hi") (utf16 "append") []).1 (Or.inr (by decide)),
    (writes_within_chunk_size succeedAlways (utf16 "doc") (utf16 "page")
      (utf16 "hi") (utf16 "append") []).2 rfl⟩

/-- Claim C5: for every content longer than 4000 code units, when all the writes of
the upload succeed, the modes passed to the write primitive are `replace` for the
first write and `append` for every later one, one per chunk of
`splitContent(content, 4000)`; so for `updatePageContent` in mode `replace` and
likewise for `uploadContentInChunks`. -/
theorem chunked_upload_modes (write : WritePrimitive) (docId pageId content : JSString)
    (prior : List WriteCall) (hlen : CHUNK_SIZE < (content.length : Int)) :
    ∃ chunks, splitContent content CHUNK_SIZE = some chunks ∧
      (WritesSucceed write prior
          (writesOf (updatePageContent write docId pageId content (utf16 "replace") prior).1) →
        (writesOf (updatePageContent write docId pageId content (utf16 "replace") prior).1).map
            WriteCall.insertionMode
          = (List.range chunks.length).map
            (fun i => if i = 0 then utf16 "replace" else utf16 "append")) ∧
      (WritesSucceed write prior
          (writesOf (uploadContentInChunks write docId pageId content prior).1) →
        (writesOf (uploadContentInChunks write docId pageId content prior).1).map
            WriteCall.insertionMode
          = (List.range chunks.length).map
            (fun i => if i = 0 then utf16 "replace" else utf16 "append")) := by
  refine ⟨chunksOf content, splitContent_chunkSize content, ?_, ?_⟩
  · rw [updatePageContent_events,
      updatePageContentBody_chunked _ _ _ _ _ _ hlen replace_ne_append]
    intro hok
    rw [(uploadLoop_of_succeed write docId pageId _ 0 prior hok).1, uploadPlan_mode,
      List.range_eq_range']
    rfl
  · rw [uploadContentInChunks_chunked _ _ _ _ _ hlen]
    intro hok
    rw [(uploadLoop_of_succeed write docId pageId _ 0 prior hok).1, uploadPlan_mode,
      List.range_eq_range']
    rfl

/-- Claim C5 at 4001 letters and a write primitive that always resolves. -/
theorem chunked_upload_modes_witness :
    (CHUNK_SIZE < ((List.replicate 4001 97).length : Int) ∧
      WritesSucceed succeedAlways []
        (writesOf (updatePageContent succeedAlways (utf16 "doc") (utf16 "page")
          (List.replicate 4001 97) (utf16 "replace") []).1) ∧
      WritesSucceed succeedAlways []
        (writesOf (uploadContentInChunks succeedAlways (utf16 "doc") (utf16 "page")
          (List.replicate 4001 97) []).1)) ∧
    ∃ chunks, splitContent (List.replicate 4001 97) CHUNK_SIZE = some chunks ∧
      (writesOf (updatePageContent succeedAlways (utf16 "doc") (utf16 "page")
          (List.replicate 4001 97) (utf16 "replace") []).1).map WriteCall.insertionMode
        = (List.range chunks.length).map
          (fun i => if i = 0 then utf16 "replace" else utf16 "append") ∧
      (writesOf (uploadContentInChunks succeedAlways (utf16 "doc") (utf16 "page")
          (List.replicate 4001 97) []).1).map WriteCall.insertionMode
        = (List.range chunks.length).map
          (fun i => if i = 0 then utf16 "replace" else utf16 "append") :=
  ⟨⟨letters_length, writesSucceed_succeedAlways _ _, writesSucceed_succeedAlways _ _⟩,
    (chunked_upload_modes succeedAlways (utf16 "doc") (utf16 "page") (List.replicate 4001 97)
      [] letters_length).imp fun _ h =>
        ⟨h.1, h.2.1 (writesSucceed_succeedAlways _ _), h.2.2 (writesSucceed_succeedAlways _ _)⟩⟩

/-- Claim C6: for every content longer than 4000 code units uploaded by
`updatePageContent` in mode `replace`, when all its writes succeed, the number of
writes is the number of chunks of `splitContent(content, 4000)` and the writes carry
exactly those chunks, in order. -/
theorem chunked_upload_order (write : WritePrimitive) (docId pageId content : JSString)
    (prior : List WriteCall) (hlen : CHUNK_SIZE < (content.length : Int))
    (hok : WritesSucceed write prior
      (writesOf (updatePageContent write docId pageId content (utf16 "replace") prior).1)) :
    ∃ chunks, splitContent content CHUNK_SIZE = some chunks ∧
      (writesOf (updatePageContent write docId pageId content (utf16 "replace")
        prior).1).length = chunks.length ∧
      (writesOf (updatePageContent write docId pageId content (utf16 "replace")
        prior).1).map WriteCall.content = chunks := by
  refine ⟨chunksOf content, splitContent_chunkSize content, ?_⟩
  rw [updatePageContent_events,
    updatePageContentBody_chunked _ _ _ _ _ _ hlen replace_ne_append] at hok ⊢
  rw [(uploadLoop_of_succeed write docId pageId _ 0 prior hok).1]
  exact ⟨uploadPlan_length _ _ _ _, uploadPlan_content _ _ _ _⟩

/-- Claim C6 at 4001 letters and a write primitive that always resolves. -/
theorem chunked_upload_order_witness :
    (CHUNK_SIZE < ((List.replicate 4001 97).length : Int) ∧
      WritesSucceed succeedAlways []
        (writesOf (updatePageContent succeedAlways (utf16 "doc") (utf16 "page")
          (List.replicate 4001 97) (utf16 "replace") []).1)) ∧
    ∃ chunks, splitContent (List.replicate 4001 97) CHUNK_SIZE = some chunks ∧
      (writesOf (updatePageContent succeedAlways (utf16 "doc") (utf16 "page")
        (List.replicate 4001 97) (utf16 "replace") []).1).length = chunks.length ∧
      (writesOf (updatePageContent succeedAlways (utf16 "doc") (utf16 "page")
        (List.replicate 4001 97) (utf16 "replace") []).1).map WriteCall.content = chunks :=
  ⟨⟨letters_length, writesSucceed_succeedAlways _ _⟩,
    chunked_upload_order succeedAlways (utf16 "doc") (utf16 "page") (List.replicate 4001 97)
      [] letters_length (writesSucceed_succeedAlways _ _)⟩

/-- Claim C7: for every content and mode, when the content is at most 4000 code units
long or the mode is `append`, all that `updatePageContent` does is one write, of the
whole content unchanged, with the requested mode and the format `markdown`; the
content is not split, however long it is. -/
theorem direct_upload_single_write (write : WritePrimitive)
    (docId pageId content mode : JSString) (prior : List WriteCall)
    (h : (content.length : Int) ≤ CHUNK_SIZE ∨ mode = utf16 "append") :
    (updatePageContent write docId pageId content mode prior).1
      = [Event.write ⟨docId, pageId, content, mode, utf16 "markdown"⟩] := by
  rw [updatePageContent_events, updatePageContentBody_direct _ _ _ _ _ _ h, writeOnce_events]

/-- Claim C7 at 4001 letters to append. -/
theorem direct_upload_single_write_witness :
    (((List.replicate 4001 97).length : Int) ≤ CHUNK_SIZE ∨ utf16 "append" = utf16 "append") ∧
      (updatePageContent succeedAlways (utf16 "doc") (utf16 "page") (List.replicate 4001 97)
          (utf16 "append") []).1
        = [Event.write ⟨utf16 "doc", utf16 "page", List.replicate 4001 97, utf16 "append",
            utf16 "markdown"⟩] :=
  ⟨Or.inr rfl, direct_upload_single_write succeedAlways (utf16 "doc") (utf16 "page")
    (List.replicate 4001 97) (utf16 "append") [] (Or.inr rfl)⟩


/-- A chunked upload by `updatePageContent` in which the `k`-th write issued is
rejected: the writes issued and the outcome. -/
theorem updatePageContent_of_writeFails (write : WritePrimitive)
    (docId pageId content mode : JSString) (prior : List WriteCall) (k : Nat) (e : JSError)
    (hlen : CHUNK_SIZE < (content.length : Int)) (hmode : mode ≠ utf16 "append")
    (hfail : WriteFails write prior
      (writesOf (updatePageContent write docId pageId content mode prior).1) k e) :
    k ≤ (chunksOf content).length ∧
      writesOf (updatePageContent write docId pageId content mode prior).1
        = (uploadPlan docId pageId 0 (chunksOf content)).take k ∧
      (updatePageContent write docId pageId content mode prior).2
        = Outcome.thrown ⟨utf16 "Failed to update page content: " ++ e.message⟩ := by
  have hbody := updatePageContentBody_chunked write docId pageId content mode prior hlen hmode
  rw [updatePageContent_events, hbody] at hfail ⊢
  obtain ⟨h1, h2, h3⟩ := uploadLoop_of_writeFails write docId pageId e (chunksOf content) 0
    prior k hfail
  exact ⟨h1, h2, updatePageContent_thrown write docId pageId content mode prior e
    (by rw [hbody, h3])⟩

/-- With the stub that rejects its `k`-th call, the `k`-th write of a chunked upload
by `updatePageContent` is rejected. -/
theorem writeFails_failOnCall_update (docId pageId content mode : JSString) (e : JSError)
    (k : Nat) (hlen : CHUNK_SIZE < (content.length : Int)) (hmode : mode ≠ utf16 "append")
    (hk1 : 1 ≤ k) (hk : k ≤ (chunksOf content).length) :
    WriteFails (failOnCall k e) []
      (writesOf (updatePageContent (failOnCall k e) docId pageId content mode []).1) k e := by
  rw [updatePageContent_events, updatePageContentBody_chunked _ _ _ _ _ _ hlen hmode]
  exact writeFails_failOnCall docId pageId e (chunksOf content) k hk1 hk

/-- With the stub that rejects its `k`-th call, the `k`-th write of a chunked upload
by `uploadContentInChunks` is rejected. -/
theorem writeFails_failOnCall_upload (docId pageId content : JSString) (e : JSError)
    (k : Nat) (hlen : CHUNK_SIZE < (content.length : Int))
    (hk1 : 1 ≤ k) (hk : k ≤ (chunksOf content).length) :
    WriteFails (failOnCall k e) []
      (writesOf (uploadContentInChunks (failOnCall k e) docId pageId content []).1) k e := by
  rw [uploadContentInChunks_chunked _ _ _ _ _ hlen]
  exact writeFails_failOnCall docId pageId e (chunksOf content) k hk1 hk

/-- With the stub that rejects every `'append'` call, the second write that the loop
issues is rejected: the first one is in the mode `'replace'`. -/
theorem writeFails_rejectAppend (docId pageId : JSString) (e : JSError)
    (chunks : List JSString) (prior : List WriteCall) (hk : 2 ≤ chunks.length) :
    WriteFails (rejectAppend e) prior
      (writesOf (uploadLoop (rejectAppend e) docId pageId 0 chunks prior).1) 2 e := by
  obtain ⟨c0, rest, rfl⟩ := List.exists_cons_of_ne_nil
    (List.ne_nil_of_length_pos (by omega : 0 < chunks.length))
  obtain ⟨c1, rest, rfl⟩ := List.exists_cons_of_ne_nil
    (List.ne_nil_of_length_pos (by simp only [List.length_cons] at hk; omega :
      0 < rest.length))
  have hw0 : rejectAppend e prior ⟨docId, pageId, c0, chunkMode 0, utf16 "markdown"⟩
      = Except.ok () := by
    simp only [rejectAppend, chunkMode]
    rw [if_neg (by simp only [if_true]; exact replace_ne_append)]
  have hw1 : ∀ earlier, rejectAppend e earlier
      ⟨docId, pageId, c1, chunkMode (0 + 1), utf16 "markdown"⟩ = Except.error e := by
    intro earlier
    simp [rejectAppend, chunkMode]
  rw [(uploadLoop_cons_ok _ docId pageId c0 (c1 :: rest) 0 prior () hw0).1,
    (uploadLoop_cons_error _ docId pageId c1 rest (0 + 1) _ e (hw1 _)).1]
  exact ⟨by omega, _, rfl, hw1 _⟩

/-- With the stub that rejects every `'append'` call, the second write of a chunked
upload by `updatePageContent` is rejected. -/
theorem writeFails_rejectAppend_update (docId pageId content mode : JSString) (e : JSError)
    (prior : List WriteCall) (hlen : CHUNK_SIZE < (content.length : Int))
    (hmode : mode ≠ utf16 "append") (hk : 2 ≤ (chunksOf content).length) :
    WriteFails (rejectAppend e) prior
      (writesOf (updatePageContent (rejectAppend e) docId pageId content mode prior).1) 2 e := by
  rw [updatePageContent_events, updatePageContentBody_chunked _ _ _ _ _ _ hlen hmode]
  exact writeFails_rejectAppend docId pageId e (chunksOf content) prior hk

/-- With the stub that rejects every `'append'` call, the second write of a chunked
upload by `uploadContentInChunks` is rejected. -/
theorem writeFails_rejectAppend_upload (docId pageId content : JSString) (e : JSError)
    (prior : List WriteCall) (hlen : CHUNK_SIZE < (content.length : Int))
    (hk : 2 ≤ (chunksOf content).length) :
    WriteFails (rejectAppend e) prior
      (writesOf (uploadContentInChunks (rejectAppend e) docId pageId content prior).1) 2 e := by
  rw [uploadContentInChunks_chunked _ _ _ _ _ hlen]
  exact writeFails_rejectAppend docId pageId e (chunksOf content) prior hk

theorem take_uploadPlan_length (docId pageId : JSString) (chunks : List JSString) (k : Nat)
    (hk : k ≤ chunks.length) : ((uploadPlan docId pageId 0 chunks).take k).length = k := by
  rw [List.length_take, uploadPlan_length]
  omega

theorem take_uploadPlan_content (docId pageId : JSString) (chunks : List JSString) (k : Nat) :
    ((uploadPlan docId pageId 0 chunks).take k).map WriteCall.content = chunks.take k := by
  rw [List.map_take, uploadPlan_content]

/-- Claim C8, counterexample: on 4001 letters, a primitive that rejects its first
call and one that rejects its second call, after one chunk was committed, make
`updatePageContent` surface the same failure, an error holding only a message: the
failure does not report the number of chunks committed. -/
theorem failure_hides_committed_count :
    (writesOf (updatePageContent (failOnCall 1 ⟨utf16 "boom"⟩) (utf16 "doc") (utf16 "page")
        (List.replicate 4001 97) (utf16 "replace") []).1).length = 1 ∧
      (writesOf (updatePageContent (failOnCall 2 ⟨utf16 "boom"⟩) (utf16 "doc") (utf16 "page")
        (List.replicate 4001 97) (utf16 "replace") []).1).length = 2 ∧
      (updatePageContent (failOnCall 1 ⟨utf16 "boom"⟩) (utf16 "doc") (utf16 "page")
        (List.replicate 4001 97) (utf16 "replace") []).2
        = Outcome.thrown ⟨utf16 "Failed to update page content: " ++ utf16 "boom"⟩ ∧
      (updatePageContent (failOnCall 2 ⟨utf16 "boom"⟩) (utf16 "doc") (utf16 "page")
        (List.replicate 4001 97) (utf16 "replace") []).2
        = Outcome.thrown ⟨utf16 "Failed to update page content: " ++ utf16 "boom"⟩ := by
  have h2 := two_le_chunksOf_letters
  obtain ⟨_, a1, b1⟩ := updatePageContent_of_writeFails (failOnCall 1 ⟨utf16 "boom"⟩)
    (utf16 "doc") (utf16 "page") (List.replicate 4001 97) (utf16 "replace") [] 1
    ⟨utf16 "boom"⟩ letters_length replace_ne_append
    (writeFails_failOnCall_update _ _ _ _ _ 1 letters_length replace_ne_append (le_refl 1)
      (by omega))
  obtain ⟨_, a2, b2⟩ := updatePageContent_of_writeFails (failOnCall 2 ⟨utf16 "boom"⟩)
    (utf16 "doc") (utf16 "page") (List.replicate 4001 97) (utf16 "replace") [] 2
    ⟨utf16 "boom"⟩ letters_length replace_ne_append
    (writeFails_failOnCall_update _ _ _ _ _ 2 letters_length replace_ne_append (by omega) h2)
  refine ⟨?_, ?_, b1, b2⟩
  · rw [a1]
    exact take_uploadPlan_length _ _ _ 1 (by omega)
  · rw [a2]
    exact take_uploadPlan_length _ _ _ 2 h2

/-- Claim C8, amended: for every chunked upload by `updatePageContent` (content
longer than 4000 code units, mode other than `append`) in which the `k`-th write
issued is rejected with an error, whatever the reason, `updatePageContent` throws an
error whose message is `Failed to update page content: ` followed by the message of
that error, after issuing `k` writes; the failure carries nothing else, so the number
`k - 1` of chunks committed is not part of it. -/
theorem partial_failure_surfaces_message (write : WritePrimitive)
    (docId pageId content mode : JSString) (prior : List WriteCall) (k : Nat) (e : JSError)
    (hlen : CHUNK_SIZE < (content.length : Int)) (hmode : mode ≠ utf16 "append")
    (hfail : WriteFails write prior
      (writesOf (updatePageContent write docId pageId content mode prior).1) k e) :
    (updatePageContent write docId pageId content mode prior).2
        = Outcome.thrown ⟨utf16 "Failed to update page content: " ++ e.message⟩ ∧
      (writesOf (updatePageContent write docId pageId content mode prior).1).length = k := by
  obtain ⟨hk, h1, h2⟩ :=
    updatePageContent_of_writeFails write docId pageId content mode prior k e hlen hmode hfail
  rw [h1]
  exact ⟨h2, take_uploadPlan_length _ _ _ k hk⟩

/-- Claim C8, amended, at 4001 letters and a primitive that rejects every write in
the mode `append`, so that the second write fails because of what is written. -/
theorem partial_failure_surfaces_message_witness :
    (CHUNK_SIZE < ((List.replicate 4001 97).length : Int) ∧
      utf16 "replace" ≠ utf16 "append" ∧
      WriteFails (rejectAppend ⟨utf16 "boom"⟩) []
        (writesOf (updatePageContent (rejectAppend ⟨utf16 "boom"⟩) (utf16 "doc")
          (utf16 "page") (List.replicate 4001 97) (utf16 "replace") []).1) 2
        ⟨utf16 "boom"⟩) ∧
    ((updatePageContent (rejectAppend ⟨utf16 "boom"⟩) (utf16 "doc") (utf16 "page")
        (List.replicate 4001 97) (utf16 "replace") []).2
        = Outcome.thrown ⟨utf16 "Failed to update page content: " ++ utf16 "boom"⟩ ∧
      (writesOf (updatePageContent (rejectAppend ⟨utf16 "boom"⟩) (utf16 "doc")
        (utf16 "page") (List.replicate 4001 97) (utf16 "replace") []).1).length = 2) :=
  ⟨⟨letters_length, replace_ne_append,
      writeFails_rejectAppend_update _ _ _ _ _ [] letters_length replace_ne_append
        two_le_chunksOf_letters⟩,
    partial_failure_surfaces_message (rejectAppend ⟨utf16 "boom"⟩) (utf16 "doc")
      (utf16 "page") (List.replicate 4001 97) (utf16 "replace") [] 2 ⟨utf16 "boom"⟩
      letters_length replace_ne_append
      (writeFails_rejectAppend_update _ _ _ _ _ [] letters_length replace_ne_append
        two_le_chunksOf_letters)⟩

/-- Claim C9: for every chunked upload (content longer than 4000 code units;
`updatePageContent` in a mode other than `append`, and `uploadContentInChunks`) in
which the `k`-th write issued is rejected, whatever the reason, exactly `k` writes
are issued, and they carry the first `k` chunks of `splitContent(content, 4000)` once
each, in order: the failed chunk is not written again and no later chunk is
written. -/
theorem upload_aborts_at_failed_write (write : WritePrimitive)
    (docId pageId content mode : JSString) (prior : List WriteCall) (k : Nat) (e : JSError)
    (hlen : CHUNK_SIZE < (content.length : Int)) (hmode : mode ≠ utf16 "append") :
    splitContent content CHUNK_SIZE = some (chunksOf content) ∧
      (WriteFails write prior
          (writesOf (updatePageContent write docId pageId content mode prior).1) k e →
        k ≤ (chunksOf content).length ∧
        (writesOf (updatePageContent write docId pageId content mode prior).1).length = k ∧
        (writesOf (updatePageContent write docId pageId content mode prior).1).map
          WriteCall.content = (chunksOf content).take k) ∧
      (WriteFails write prior
          (writesOf (uploadContentInChunks write docId pageId content prior).1) k e →
        k ≤ (chunksOf content).length ∧
        (writesOf (uploadContentInChunks write docId pageId content prior).1).length = k ∧
        (writesOf (uploadContentInChunks write docId pageId content prior).1).map
          WriteCall.content = (chunksOf content).take k) := by
  refine ⟨splitContent_chunkSize content, ?_, ?_⟩
  · intro hfail
    obtain ⟨hk, h1, _⟩ :=
      updatePageContent_of_writeFails write docId pageId content mode prior k e hlen hmode
        hfail
    rw [h1]
    exact ⟨hk, take_uploadPlan_length _ _ _ k hk, take_uploadPlan_content _ _ _ k⟩
  · intro hfail
    rw [uploadContentInChunks_chunked write docId pageId content prior hlen] at hfail ⊢
    obtain ⟨hk, h1, _⟩ :=
      uploadLoop_of_writeFails write docId pageId e (chunksOf content) 0 prior k hfail
    rw [h1]
    exact ⟨hk, take_uploadPlan_length _ _ _ k hk, take_uploadPlan_content _ _ _ k⟩

/-- Claim C9 at 4001 letters and a primitive that rejects every write in the mode
`append`: two writes are issued by either uploader. -/
theorem upload_aborts_at_failed_write_witness :
    (CHUNK_SIZE < ((List.replicate 4001 97).length : Int) ∧
      utf16 "replace" ≠ utf16 "append" ∧
      WriteFails (rejectAppend ⟨utf16 "boom"⟩) []
        (writesOf (updatePageContent (rejectAppend ⟨utf16 "boom"⟩) (utf16 "doc")
          (utf16 "page") (List.replicate 4001 97) (utf16 "replace") []).1) 2
        ⟨utf16 "boom"⟩ ∧
      WriteFails (rejectAppend ⟨utf16 "boom"⟩) []
        (writesOf (uploadContentInChunks (rejectAppend ⟨utf16 "boom"⟩) (utf16 "doc")
          (utf16 "page") (List.replicate 4001 97) []).1) 2 ⟨utf16 "boom"⟩) ∧
    ((writesOf (updatePageContent (rejectAppend ⟨utf16 "boom"⟩) (utf16 "doc")
        (utf16 "page") (List.replicate 4001 97) (utf16 "replace") []).1).length = 2 ∧
      (writesOf (updatePageContent (rejectAppend ⟨utf16 "boom"⟩) (utf16 "doc")
        (utf16 "page") (List.replicate 4001 97) (utf16 "replace") []).1).map
        WriteCall.content = (chunksOf (List.replicate 4001 97)).take 2) ∧
    ((writesOf (uploadContentInChunks (rejectAppend ⟨utf16 "boom"⟩) (utf16 "doc")
        (utf16 "page") (List.replicate 4001 97) []).1).length = 2 ∧
      (writesOf (uploadContentInChunks (rejectAppend ⟨utf16 "boom"⟩) (utf16 "doc")
        (utf16 "page") (List.replicate 4001 97) []).1).map
        WriteCall.content = (chunksOf (List.replicate 4001 97)).take 2) :=
  ⟨⟨letters_length, replace_ne_append,
      writeFails_rejectAppend_update _ _ _ _ _ [] letters_length replace_ne_append
        two_le_chunksOf_letters,
      writeFails_rejectAppend_upload _ _ _ _ [] letters_length two_le_chunksOf_letters⟩,
    ((upload_aborts_at_failed_write (rejectAppend ⟨utf16 "boom"⟩) (utf16 "doc")
      (utf16 "page") (List.replicate 4001 97) (utf16 "replace") [] 2 ⟨utf16 "boom"⟩
      letters_length replace_ne_append).2.1
      (writeFails_rejectAppend_update _ _ _ _ _ [] letters_length replace_ne_append
        two_le_chunksOf_letters)).2,
    ((upload_aborts_at_failed_write (rejectAppend ⟨utf16 "boom"⟩) (utf16 "doc")
      (utf16 "page") (List.replicate 4001 97) (utf16 "replace") [] 2 ⟨utf16 "boom"⟩
      letters_length replace_ne_append).2.2
      (writeFails_rejectAppend_upload _ _ _ _ [] letters_length two_le_chunksOf_letters)).2⟩

/-- Claim C10: for every call of `createPage` with non-empty content in which
`codaClient.createPage` resolves with the id `P` and the content upload then fails
with the message `E`, `createPage` does not throw: it returns a text that begins
with the line reporting that the page was created and that contains both `P` and
`E`. -/
theorem createPage_survives_content_failure (create : CreatePrimitive)
    (write : WritePrimitive) (docId name content subtitle P E : JSString)
    (prior : List WriteCall) (hcontent : content ≠ [])
    (hcreate : create docId ⟨name, if subtitle ≠ [] then some subtitle else none⟩
      = Except.ok P)
    (hupload : (uploadContentInChunks write docId P content prior).2 = Outcome.thrown ⟨E⟩) :
    ∃ text, (createPage create write docId name content subtitle prior).2
        = Outcome.returned text ∧
      utf16 "✅ **Page created successfully!**\n\n" <+: text ∧ P <:+: text ∧ E <:+: text := by
  refine ⟨createdContentFailedText name P subtitle E, ?_, ?_, ?_, ?_⟩
  · unfold createPage
    simp only [hcreate, hcontent, ne_eq, not_false_eq_true, if_true, hupload]
  · exact ⟨_, by simp only [createdContentFailedText, createdHeader, List.append_assoc]; rfl⟩
  · exact ⟨createdHeader name P subtitle ++ utf16
      "• **Content**: Failed to upload - try using coda_update_page_content with pageId: ",
      utf16 "\n" ++ utf16 "• **Error**: " ++ E,
      by simp only [createdContentFailedText, List.append_assoc]⟩
  · exact ⟨_, [], by simp only [createdContentFailedText, List.append_nil]; rfl⟩

/-- Claim C10 at a page `P1` whose two-letter content the primitive rejects. -/
theorem createPage_survives_content_failure_witness :
    (utf16 "hi" ≠ [] ∧
      createWithId (utf16 "P1") (utf16 "doc")
        ⟨utf16 "Notes", if utf16 "" ≠ [] then some (utf16 "") else none⟩
        = Except.ok (utf16 "P1") ∧
      (uploadContentInChunks (failOnCall 1 ⟨utf16 "boom"⟩) (utf16 "doc") (utf16 "P1")
        (utf16 "hi") []).2 = Outcome.thrown ⟨utf16 "boom"⟩) ∧
    ∃ text, (createPage (createWithId (utf16 "P1")) (failOnCall 1 ⟨utf16 "boom"⟩)
          (utf16 "doc") (utf16 "Notes") (utf16 "hi") (utf16 "") []).2
        = Outcome.returned text ∧
      utf16 "✅ **Page created successfully!**\n\n" <+: text ∧ utf16 "P1" <:+: text ∧
        utf16 "boom" <:+: text :=
  ⟨⟨by decide, rfl, by decide⟩,
    createPage_survives_content_failure (createWithId (utf16 "P1"))
      (failOnCall 1 ⟨utf16 "boom"⟩) (utf16 "doc") (utf16 "Notes") (utf16 "hi") (utf16 "")
      (utf16 "P1") (utf16 "boom") [] (by decide) rfl (by decide)⟩


/-! ## Every chunk is non-empty -/

/-- A property of chunks that trimmed flushes and the parts of long lines have is kept
by the line loop of `splitContent`. -/
theorem splitContentLoop_forall (maxSize : Int) (Q : JSString → Prop)
    (hflush : ∀ s, trim s ≠ [] → Q (trim s))
    (hparts : ∀ line parts, splitLongLine line maxSize = some parts → ∀ p ∈ parts, Q p) :
    ∀ (lines chunks : List JSString) (currentChunk : JSString)
      (result : List JSString × JSString),
      splitContentLoop maxSize lines chunks currentChunk = some result →
      (∀ c ∈ chunks, Q c) → ∀ c ∈ result.1, Q c := by
  intro lines
  induction lines with
  | nil =>
    intro chunks currentChunk result hrun hchunks
    simp only [splitContentLoop, Option.some.injEq] at hrun
    rw [← hrun]
    exact hchunks
  | cons line rest ih =>
    intro chunks currentChunk result hrun hchunks
    unfold splitContentLoop at hrun
    have hsaved : ∀ c ∈ (if trim currentChunk ≠ [] then chunks ++ [trim currentChunk]
        else chunks), Q c := by
      intro c hc
      by_cases hnil : trim currentChunk = []
      · simp only [hnil, ne_eq, not_true_eq_false, if_false] at hc
        exact hchunks c hc
      · simp only [hnil, ne_eq, not_false_eq_true, if_true, List.mem_append,
          List.mem_singleton] at hc
        rcases hc with hc | hc
        · exact hchunks c hc
        · rw [hc]; exact hflush _ hnil
    by_cases hover : maxSize < (currentChunk.length : Int) + (line.length : Int) + 1
    · rw [if_pos hover] at hrun
      by_cases hlong : maxSize < (line.length : Int)
      · simp only [hlong, if_true] at hrun
        cases hsplit : splitLongLine line maxSize with
        | none => simp [hsplit] at hrun
        | some parts =>
          simp only [hsplit] at hrun
          cases hlast : parts.getLast? with
          | none => simp [hlast] at hrun
          | some last =>
            simp only [hlast] at hrun
            refine ih _ _ result hrun ?_
            intro c hc
            rcases List.mem_append.mp hc with hc | hc
            · exact hsaved c hc
            · exact hparts line parts hsplit c (List.dropLast_subset _ hc)
      · simp only [hlong, if_false] at hrun
        exact ih _ _ result hrun hsaved
    · rw [if_neg hover] at hrun
      exact ih _ _ result hrun hchunks

/-- A property of chunks that trimmed flushes and the parts of long lines have holds
of every chunk that `splitContent` returns. -/
theorem splitContent_forall (maxSize : Int) (Q : JSString → Prop)
    (hflush : ∀ s, trim s ≠ [] → Q (trim s))
    (hparts : ∀ line parts, splitLongLine line maxSize = some parts → ∀ p ∈ parts, Q p)
    (content : JSString) (chunks : List JSString)
    (hsplit : splitContent content maxSize = some chunks) : ∀ c ∈ chunks, Q c := by
  unfold splitContent at hsplit
  cases hrun : splitContentLoop maxSize (splitLines content) [] [] with
  | none => simp [hrun] at hsplit
  | some result =>
    obtain ⟨saved, last⟩ := result
    simp only [hrun] at hsplit
    have hsaved := splitContentLoop_forall maxSize Q hflush hparts _ _ _ _ hrun
      (by simp)
    by_cases hnil : trim last = []
    · simp only [hnil, ne_eq, not_true_eq_false, if_false, Option.some.injEq] at hsplit
      rw [← hsplit]
      exact hsaved
    · simp only [hnil, ne_eq, not_false_eq_true, if_true, Option.some.injEq] at hsplit
      rw [← hsplit]
      intro c hc
      rcases List.mem_append.mp hc with hc | hc
      · exact hsaved c hc
      · rw [List.mem_singleton.mp hc]
        exact hflush _ hnil

/-- For a positive ceiling no chunk of `splitContent` is the empty string. -/
theorem splitContent_ne_nil (content : JSString) (maxSize : Int) (hM : 0 < maxSize)
    (chunks : List JSString) (hsplit : splitContent content maxSize = some chunks) :
    ∀ c ∈ chunks, c ≠ [] := by
  refine splitContent_forall maxSize (fun c => c ≠ []) (fun s h => h) ?_ content chunks hsplit
  intro line parts hparts
  obtain ⟨parts2, h2, _, hne, _⟩ := splitLongLine_spec line maxSize hM
  rw [hparts] at h2
  rw [Option.some.inj h2]
  exact hne


/-! ## More about `trim` -/

theorem trim_piece (s : JSString) : trim s <:+: s := by
  unfold trim
  exact ( List.rdropWhile_prefix isWhiteSpace (s.dropWhile isWhiteSpace)).isInfix.trans
    ( List.dropWhile_suffix isWhiteSpace).isInfix

theorem trim_eq_nil_iff (s : JSString) : trim s = [] ↔ ∀ c ∈ s, isWhiteSpace c = true := by
  unfold trim
  rw [List.rdropWhile_eq_nil_iff]
  constructor
  · intro h
    have hd : s.dropWhile isWhiteSpace = [] := by
      have hhead := List.head?_dropWhile_not isWhiteSpace s
      cases hdw : s.dropWhile isWhiteSpace with
      | nil => rfl
      | cons x xs =>
        rw [hdw] at hhead h
        simp only [List.head?_cons] at hhead
        have := h x (List.mem_cons_self _ _)
        rw [hhead] at this
        exact absurd this (by simp)
    exact List.dropWhile_eq_nil_iff.mp hd
  · intro h x hx
    exact h x (( List.dropWhile_suffix isWhiteSpace).subset hx)

theorem trim_head (s : JSString) (c : Nat) (h : (trim s).head? = some c) :
    isWhiteSpace c = false := by
  unfold trim at h
  have hpre := List.rdropWhile_prefix isWhiteSpace (s.dropWhile isWhiteSpace)
  have hhead := List.head?_dropWhile_not isWhiteSpace s
  obtain ⟨ys, hys⟩ := List.head?_eq_some_iff.mp h
  rw [hys] at hpre
  obtain ⟨t, ht⟩ := hpre
  rw [← ht] at hhead
  simpa using hhead

theorem endsInWhiteSpace_concat (ys : JSString) (a : Nat) :
    endsInWhiteSpace (ys ++ [a]) = isWhiteSpace a := by
  simp [endsInWhiteSpace]

theorem endsInWhiteSpace_of_suffix (s t : JSString) (hsuf : t <:+ s) (hne : t ≠ []) :
    endsInWhiteSpace t = endsInWhiteSpace s := by
  obtain ⟨pre, rfl⟩ := hsuf
  unfold endsInWhiteSpace
  rw [List.getLast?_append_of_ne_nil _ hne]

/-- A string that does not end in whitespace is trimmed at its start only. -/
theorem trim_of_endsClean (s : JSString) (h : endsInWhiteSpace s = false) :
    trim s = s.dropWhile isWhiteSpace := by
  unfold trim
  rw [List.rdropWhile_eq_self_iff]
  intro hne
  have hsuf := List.dropWhile_suffix (l := s) isWhiteSpace
  have hends := endsInWhiteSpace_of_suffix s _ hsuf hne
  rw [h] at hends
  unfold endsInWhiteSpace at hends
  rw [List.getLast?_eq_getLast _ hne] at hends
  simpa using hends

theorem trim_suffix_of_endsClean (s : JSString) (h : endsInWhiteSpace s = false) :
    trim s <:+ s := by
  rw [trim_of_endsClean s h]
  exact List.dropWhile_suffix isWhiteSpace

theorem trim_ne_nil_of_endsClean (s : JSString) (hne : s ≠ [])
    (h : endsInWhiteSpace s = false) : trim s ≠ [] := by
  intro hnil
  have hall := (trim_eq_nil_iff s).mp hnil
  have hlast := hall _ (List.getLast_mem hne)
  unfold endsInWhiteSpace at h
  rw [List.getLast?_eq_getLast _ hne] at h
  simp only at h
  rw [h] at hlast
  exact absurd hlast (by simp)

theorem trim_of_no_whiteSpace (s : JSString) (h : ∀ c ∈ s, isWhiteSpace c = false) :
    trim s = s := by
  unfold trim
  have hd : s.dropWhile isWhiteSpace = s := by
    cases s with
    | nil => rfl
    | cons x xs => simp [List.dropWhile_cons, h x (List.mem_cons_self _ _)]
  rw [hd, List.rdropWhile_eq_self_iff]
  intro hne
  simp [h _ (List.getLast_mem hne)]


/-! ## The parts of a long line -/

theorem splitLongLineLoop_step (maxSize : Int) (fuel : Nat) (remaining : JSString)
    (parts : List JSString) (hfuel : 0 < fuel) (hlong : maxSize < (remaining.length : Int)) :
    splitLongLineLoop maxSize fuel remaining parts
      = splitLongLineLoop maxSize (fuel - 1)
          (trim (substringFrom remaining (splitPoint remaining maxSize)))
          (parts ++ [substringTo remaining (splitPoint remaining maxSize)]) := by
  obtain ⟨f, rfl⟩ : ∃ f, fuel = f + 1 := ⟨fuel - 1, by omega⟩
  rw [splitLongLineLoop, if_pos hlong]
  rfl

theorem splitLongLineLoop_exit (maxSize : Int) (fuel : Nat) (remaining : JSString)
    (parts : List JSString) (hfuel : 0 < fuel) (hshort : ¬ maxSize < (remaining.length : Int)) :
    splitLongLineLoop maxSize fuel remaining parts
      = some (if remaining ≠ [] then parts ++ [remaining] else parts) := by
  obtain ⟨f, rfl⟩ : ∃ f, fuel = f + 1 := ⟨fuel - 1, by omega⟩
  rw [splitLongLineLoop, if_neg hshort]
  split <;> rfl

theorem substringFrom_length_lt (remaining : JSString) (maxSize : Int) (hM : 0 < maxSize)
    (hlong : maxSize < (remaining.length : Int)) :
    (trim (substringFrom remaining (splitPoint remaining maxSize))).length
      < remaining.length := by
  have hpos := splitPoint_pos remaining maxSize hM
  have h1 := trim_length_le (substringFrom remaining (splitPoint remaining maxSize))
  have h2 : (substringFrom remaining (splitPoint remaining maxSize)).length
      = remaining.length - (splitPoint remaining maxSize).toNat := by
    simp [substringFrom]
  omega

/-- The first part of a line longer than a positive ceiling is the line up to the cut
position. -/
theorem splitLongLine_first (line : JSString) (maxSize : Int) (hM : 0 < maxSize)
    (hlong : maxSize < (line.length : Int)) :
    ∃ rest, splitLongLine line maxSize
      = some (substringTo line (splitPoint line maxSize) :: rest) := by
  unfold splitLongLine
  rw [splitLongLineLoop_step maxSize _ line [] (Nat.succ_pos _) hlong]
  obtain ⟨added, hrun, _⟩ := splitLongLineLoop_spec maxSize hM (line.length + 1 - 1)
    (trim (substringFrom line (splitPoint line maxSize)))
    ([] ++ [substringTo line (splitPoint line maxSize)])
    (by have := substringFrom_length_lt line maxSize hM hlong; omega)
  exact ⟨added, by rw [hrun]; rfl⟩

/-- With a positive ceiling every part that the loop of `splitLongLine` adds is a
contiguous piece of `remaining`; when `remaining` is not empty and does not end in
whitespace, the last part is its end. -/
theorem splitLongLineLoop_pieces (maxSize : Int) (hM : 0 < maxSize) :
    ∀ (fuel : Nat) (remaining : JSString) (parts result : List JSString),
      splitLongLineLoop maxSize fuel remaining parts = some result →
      ∃ added, result = parts ++ added ∧
        (∀ p ∈ added, p <:+: remaining) ∧
        (remaining ≠ [] → endsInWhiteSpace remaining = false →
          ∃ last, added.getLast? = some last ∧ last <:+ remaining) := by
  intro fuel
  induction fuel with
  | zero => intro remaining parts result h; simp [splitLongLineLoop] at h
  | succ fuel ih =>
    intro remaining parts result hrun
    by_cases hlong : maxSize < (remaining.length : Int)
    · rw [splitLongLineLoop_step maxSize _ remaining parts (Nat.succ_pos _) hlong] at hrun
      have hpos := splitPoint_pos remaining maxSize hM
      have hle := splitPoint_le remaining maxSize hM
      obtain ⟨added, hres, hpieces, hlast⟩ := ih _ _ result hrun
      have hdropSuffix : substringFrom remaining (splitPoint remaining maxSize) <:+ remaining :=
        List.drop_suffix _ _
      have htrimInfix : trim (substringFrom remaining (splitPoint remaining maxSize))
          <:+: remaining := (trim_piece _).trans hdropSuffix.isInfix
      refine ⟨substringTo remaining (splitPoint remaining maxSize) :: added, ?_, ?_, ?_⟩
      · rw [hres]; simp
      · intro p hp
        rcases List.mem_cons.mp hp with rfl | hp
        · exact ( List.take_prefix _ _).isInfix
        · exact (hpieces p hp).trans htrimInfix
      · intro _ hclean
        have hdropNe : substringFrom remaining (splitPoint remaining maxSize) ≠ [] := by
          intro hnil
          have hlen : (substringFrom remaining (splitPoint remaining maxSize)).length
              = remaining.length - (splitPoint remaining maxSize).toNat := by
            simp [substringFrom]
          rw [hnil] at hlen
          simp only [List.length_nil] at hlen
          omega
        have hdropClean := endsInWhiteSpace_of_suffix remaining _ hdropSuffix hdropNe
        rw [hclean] at hdropClean
        have htrimNe := trim_ne_nil_of_endsClean _ hdropNe hdropClean
        have htrimSuffix := trim_suffix_of_endsClean _ hdropClean
        have htrimClean := endsInWhiteSpace_of_suffix _ _ htrimSuffix htrimNe
        rw [hdropClean] at htrimClean
        obtain ⟨last, hl1, hl2⟩ := hlast htrimNe htrimClean
        refine ⟨last, ?_, hl2.trans (htrimSuffix.trans hdropSuffix)⟩
        have haddedNe : added ≠ [] := by
          intro hnil
          rw [hnil] at hl1
          simp at hl1
        rw [← hl1]
        exact List.getLast?_append_of_ne_nil [_] haddedNe
    · rw [splitLongLineLoop_exit maxSize _ remaining parts (Nat.succ_pos _) hlong] at hrun
      by_cases hnil : remaining = []
      · refine ⟨[], ?_, by simp, fun h => absurd hnil h⟩
        rw [if_neg (not_not.mpr hnil)] at hrun
        simp [← Option.some.inj hrun]
      · refine ⟨[remaining], ?_, ?_, ?_⟩
        · rw [if_pos hnil] at hrun
          exact (Option.some.inj hrun).symm
        · intro p hp
          rw [List.mem_singleton.mp hp]
        · intro _ _
          exact ⟨remaining, rfl, List.suffix_refl _⟩


/-! ## Chunks as contiguous pieces of the content -/

theorem splitLines_no_NL (s : JSString) : ∀ l ∈ splitLines s, NL ∉ l := by
  induction s with
  | nil => simp [splitLines]
  | cons c cs ih =>
    unfold splitLines
    by_cases h : c = NL
    · simp only [h, if_true]
      intro l hl
      rcases List.mem_cons.mp hl with rfl | hl
      · simp
      · exact ih l hl
    · simp only [h, if_false]
      cases hs : splitLines cs with
      | nil => exact absurd hs (splitLines_ne_nil cs)
      | cons m ms =>
        rw [hs] at ih
        intro l hl
        rcases List.mem_cons.mp hl with rfl | hl
        · intro hmem
          rcases List.mem_cons.mp hmem with hc | hm
          · exact h hc.symm
          · exact ih m (List.mem_cons_self _ _) hm
        · exact ih l (List.mem_cons_of_mem _ hl)

theorem flatMap_NL_splitLines (s : JSString) :
    (splitLines s).flatMap (fun x => NL :: x) = NL :: s := by
  have hjoin := joinLines_splitLines s
  cases hs : splitLines s with
  | nil => exact absurd hs (splitLines_ne_nil s)
  | cons l ls =>
    rw [hs, joinLines_cons] at hjoin
    rw [List.flatMap_cons, List.cons_append, hjoin]

theorem head?_ne_NL_of_trim (s : JSString) : (trim s).head? ≠ some NL := by
  intro h
  have := trim_head s NL h
  simp [isWhiteSpace, NL] at this

theorem head?_ne_NL_of_piece (p line : JSString) (hp : p <:+: line) (hline : NL ∉ line) :
    p.head? ≠ some NL := by
  intro h
  obtain ⟨ys, hys⟩ := List.head?_eq_some_iff.mp h
  exact hline (hp.subset (by rw [hys]; exact List.mem_cons_self _ _))

/-- With a positive ceiling, lines free of line breaks and long lines that do not end
in whitespace, the line loop of `splitContent` adds only chunks that are contiguous
pieces of the text read so far, and `currentChunk` stays an end of that text. -/
theorem splitContentLoop_pieces (maxSize : Int) (hM : 0 < maxSize) :
    ∀ (lines chunks : List JSString) (currentChunk before : JSString)
      (result : List JSString × JSString),
      (∀ l ∈ lines, NL ∉ l) →
      (∀ l ∈ lines, maxSize < (l.length : Int) → endsInWhiteSpace l = false) →
      currentChunk <:+ before →
      splitContentLoop maxSize lines chunks currentChunk = some result →
      ∃ added, result.1 = chunks ++ added ∧
        (∀ c ∈ added, c <:+: before ++ lines.flatMap (fun x => NL :: x) ∧
          c.head? ≠ some NL) ∧
        result.2 <:+ before ++ lines.flatMap (fun x => NL :: x) := by
  intro lines
  induction lines with
  | nil =>
    intro chunks currentChunk before result _ _ hsuf hrun
    simp only [splitContentLoop, Option.some.injEq] at hrun
    refine ⟨[], by simp [← hrun], by simp, ?_⟩
    simpa [← hrun] using hsuf
  | cons line rest ih =>
    intro chunks currentChunk before result hNL hclean hsuf hrun
    have hNLrest : ∀ l ∈ rest, NL ∉ l := fun l hl => hNL l (List.mem_cons_of_mem _ hl)
    have hcleanRest : ∀ l ∈ rest, maxSize < (l.length : Int) → endsInWhiteSpace l = false :=
      fun l hl => hclean l (List.mem_cons_of_mem _ hl)
    have hfull : before ++ (line :: rest).flatMap (fun x => NL :: x)
        = (before ++ NL :: line) ++ rest.flatMap (fun x => NL :: x) := by
      simp [List.flatMap_cons]
    rw [hfull]
    have hlineSuffix : line <:+ before ++ NL :: line := ⟨before ++ [NL], by simp⟩
    have hflush : ∀ c ∈ (if trim currentChunk ≠ [] then [trim currentChunk] else []),
        c <:+: (before ++ NL :: line) ++ rest.flatMap (fun x => NL :: x) ∧
          c.head? ≠ some NL := by
      intro c hc
      by_cases hnil : trim currentChunk = []
      · simp [hnil] at hc
      · simp only [hnil, ne_eq, not_false_eq_true, if_true, List.mem_singleton] at hc
        rw [hc]
        refine ⟨?_, head?_ne_NL_of_trim _⟩
        have h1 : trim currentChunk <:+: before := (trim_piece _).trans hsuf.isInfix
        obtain ⟨a, b, hab⟩ := h1
        exact ⟨a, b ++ (NL :: line) ++ rest.flatMap (fun x => NL :: x), by simp [← hab]⟩
    have hsaved : (if trim currentChunk ≠ [] then chunks ++ [trim currentChunk] else chunks)
        = chunks ++ (if trim currentChunk ≠ [] then [trim currentChunk] else []) := by
      by_cases hnil : trim currentChunk = [] <;> simp [hnil]
    unfold splitContentLoop at hrun
    simp only [hsaved] at hrun
    by_cases hover : maxSize < (currentChunk.length : Int) + (line.length : Int) + 1
    · rw [if_pos hover] at hrun
      by_cases hlong : maxSize < (line.length : Int)
      · simp only [hlong, if_true] at hrun
        cases hsplit : splitLongLine line maxSize with
        | none => simp [hsplit] at hrun
        | some parts =>
          simp only [hsplit] at hrun
          cases hlast : parts.getLast? with
          | none => simp [hlast] at hrun
          | some last =>
            simp only [hlast] at hrun
            obtain ⟨padded, hpadded, hparts2, hplast⟩ :=
              splitLongLineLoop_pieces maxSize hM _ line [] parts hsplit
            rw [List.nil_append] at hpadded
            subst hpadded
            have hlineNe : line ≠ [] := by
              intro hnil
              rw [hnil] at hlong
              simp only [List.length_nil, Nat.cast_zero] at hlong
              omega
            obtain ⟨last2, hl1, hl2⟩ :=
              hplast hlineNe (hclean line (List.mem_cons_self _ _) hlong)
            rw [hlast] at hl1
            have hlastEq : last = last2 := Option.some.inj hl1
            subst hlastEq
            obtain ⟨added, hres, hadded, hcur⟩ := ih _ last (before ++ NL :: line) result
              hNLrest hcleanRest (hl2.trans hlineSuffix) hrun
            refine ⟨(if trim currentChunk ≠ [] then [trim currentChunk] else [])
              ++ parts.dropLast ++ added, ?_, ?_, hcur⟩
            · rw [hres]; simp
            · intro c hc
              rcases List.mem_append.mp hc with hc | hc
              · rcases List.mem_append.mp hc with hc | hc
                · exact hflush c hc
                · have hcline : c <:+: line := hparts2 c (List.dropLast_subset _ hc)
                  refine ⟨?_, head?_ne_NL_of_piece c line hcline
                    (hNL line (List.mem_cons_self _ _))⟩
                  exact hcline.trans (hlineSuffix.isInfix.trans
                    (List.prefix_append _ _).isInfix)
              · exact hadded c hc
      · simp only [hlong, if_false] at hrun
        obtain ⟨added, hres, hadded, hcur⟩ := ih _ line (before ++ NL :: line) result
          hNLrest hcleanRest hlineSuffix hrun
        refine ⟨(if trim currentChunk ≠ [] then [trim currentChunk] else []) ++ added,
          ?_, ?_, hcur⟩
        · rw [hres]; simp
        · intro c hc
          rcases List.mem_append.mp hc with hc | hc
          · exact hflush c hc
          · exact hadded c hc
    · rw [if_neg hover] at hrun
      have hnext : (currentChunk ++ (if currentChunk ≠ [] then [NL] else []) ++ line)
          <:+ before ++ NL :: line := by
        by_cases hnil : currentChunk = []
        · simpa [hnil] using hlineSuffix
        · obtain ⟨t, ht⟩ := hsuf
          exact ⟨t, by simp [hnil, ← ht]⟩
      exact ih _ _ (before ++ NL :: line) result hNLrest hcleanRest hnext hrun

/-- For a positive ceiling and a content whose lines longer than the ceiling do not
end in whitespace, every chunk of `splitContent` is a contiguous piece of the
content. -/
theorem splitContent_pieces (content : JSString) (maxSize : Int) (hM : 0 < maxSize)
    (hclean : ∀ l ∈ splitLines content, maxSize < (l.length : Int) →
      endsInWhiteSpace l = false)
    (chunks : List JSString) (hsplit : splitContent content maxSize = some chunks) :
    ∀ c ∈ chunks, c <:+: content := by
  unfold splitContent at hsplit
  cases hrun : splitContentLoop maxSize (splitLines content) [] [] with
  | none => simp [hrun] at hsplit
  | some result =>
    obtain ⟨saved, last⟩ := result
    simp only [hrun] at hsplit
    obtain ⟨added, hres, hadded, hcur⟩ := splitContentLoop_pieces maxSize hM _ [] [] []
      (saved, last) (splitLines_no_NL content) hclean (List.suffix_refl _) hrun
    simp only [List.nil_append, flatMap_NL_splitLines] at hres hadded hcur
    have hstrip : ∀ c : JSString, c <:+: NL :: content → c.head? ≠ some NL →
        c <:+: content := by
      intro c hc hhead
      rcases List.infix_cons_iff.mp hc with hpre | hin
      · cases c with
        | nil => exact List.nil_infix
        | cons x xs =>
          obtain ⟨t, ht⟩ := hpre
          simp only [List.cons_append, List.cons.injEq] at ht
          exact absurd (by simp [ht.1]) hhead
      · exact hin
    have hsavedInfix : ∀ c ∈ saved, c <:+: content := by
      intro c hc
      rw [hres] at hc
      exact hstrip c (hadded c hc).1 (hadded c hc).2
    by_cases hnil : trim last = []
    · simp only [hnil, ne_eq, not_true_eq_false, if_false, Option.some.injEq] at hsplit
      rw [← hsplit]
      exact hsavedInfix
    · simp only [hnil, ne_eq, not_false_eq_true, if_true, Option.some.injEq] at hsplit
      rw [← hsplit]
      intro c hc
      rcases List.mem_append.mp hc with hc | hc
      · exact hsavedInfix c hc
      · rw [List.mem_singleton.mp hc]
        exact hstrip _ ((trim_piece _).trans hcur.isInfix) (head?_ne_NL_of_trim _)


/-! ## The cut position -/

theorem lastIndexIn_of_absent (c : Nat) (s : JSString) (h : ∀ j : Nat, s[j]? ≠ some c) :
    lastIndexIn c s = -1 := by
  induction s with
  | nil => rfl
  | cons x xs ih =>
    have hxs : ∀ j : Nat, xs[j]? ≠ some c := fun j => by simpa using h (j + 1)
    have hx : x ≠ c := by simpa using h 0
    unfold lastIndexIn
    rw [ih hxs]
    simp [hx]

theorem lastIndexIn_of_last (c : Nat) (s : JSString) (i : Nat) (hi : s[i]? = some c)
    (hafter : ∀ j : Nat, i < j → s[j]? ≠ some c) : lastIndexIn c s = (i : Int) := by
  induction s generalizing i with
  | nil => simp at hi
  | cons x xs ih =>
    unfold lastIndexIn
    cases i with
    | zero =>
      have hxs : ∀ j : Nat, xs[j]? ≠ some c := fun j => by simpa using hafter (j + 1) (by omega)
      have hx : x = c := by simpa using hi
      rw [lastIndexIn_of_absent c xs hxs]
      simp [hx]
    | succ i =>
      have hxs : xs[i]? = some c := by simpa using hi
      have hafter2 : ∀ j : Nat, i < j → xs[j]? ≠ some c :=
        fun j hj => by simpa using hafter (j + 1) (by omega)
      rw [ih i hxs hafter2]
      have : (0 : Int) ≤ (i : Int) := Int.natCast_nonneg _
      simp only [this, if_true]
      push_cast
      ring

theorem lastIndexOf_of_noSpaceUpTo (line : JSString) (maxSize : Int)
    (h : NoSpaceUpTo line maxSize) : lastIndexOf line SP maxSize = -1 := by
  unfold lastIndexOf
  apply lastIndexIn_of_absent
  intro j
  rw [List.getElem?_take]
  split
  · rename_i hj; exact h j hj
  · simp

theorem lastIndexOf_of_lastSpaceAt (line : JSString) (maxSize : Int) (s : Nat)
    (h : LastSpaceAt line maxSize s) : lastIndexOf line SP maxSize = (s : Int) := by
  obtain ⟨hle, hat, hafter⟩ := h
  unfold lastIndexOf
  apply lastIndexIn_of_last
  · rw [List.getElem?_take, if_pos (by omega)]
    exact hat
  · intro j hj
    rw [List.getElem?_take]
    split
    · rename_i hjn; exact hafter j hjn hj
    · simp

/-! ## The double `maxSize * 0.7` -/

theorem bitLengthAux_spec : ∀ (fuel n : Nat), n ≤ fuel →
    n < 2 ^ bitLengthAux fuel n ∧ (0 < n → 2 ^ (bitLengthAux fuel n - 1) ≤ n) := by
  intro fuel
  induction fuel with
  | zero =>
    intro n hn
    have : n = 0 := by omega
    subst this
    simp [bitLengthAux]
  | succ fuel ih =>
    intro n hn
    unfold bitLengthAux
    by_cases h0 : n = 0
    · simp [h0]
    · rw [if_neg h0]
      obtain ⟨hlt, hge⟩ := ih (n / 2) (by omega)
      constructor
      · rw [pow_succ]
        omega
      · intro _
        simp only [Nat.add_sub_cancel]
        by_cases hhalf : n / 2 = 0
        · have hb : bitLengthAux fuel (n / 2) = 0 := by
            rw [hhalf]
            cases fuel <;> simp [bitLengthAux]
          rw [hb]
          simp only [pow_zero]
          omega
        · have hpos : 0 < n / 2 := Nat.pos_of_ne_zero hhalf
          have h2 := hge hpos
          have hb : 1 ≤ bitLengthAux fuel (n / 2) := by
            by_contra hcon
            have : bitLengthAux fuel (n / 2) = 0 := by omega
            rw [this] at hlt
            simp only [pow_zero] at hlt
            omega
          have hpow : 2 ^ bitLengthAux fuel (n / 2)
              = 2 * 2 ^ (bitLengthAux fuel (n / 2) - 1) := by
            rw [← pow_succ']
            congr 1
            omega
          rw [hpow]
          omega

/-- Rounding to a double moves `n` by at most `n / 2^53`. -/
theorem roundDouble_close (n : Nat) :
    roundDouble n * 2 ^ 53 ≤ n * 2 ^ 53 + n ∧ n * 2 ^ 53 ≤ roundDouble n * 2 ^ 53 + n := by
  unfold roundDouble
  by_cases hsmall : bitLength n ≤ 53
  · rw [if_pos hsmall]
    omega
  · rw [if_neg hsmall]
    have hnpos : 0 < n := by
      by_contra h0
      have : n = 0 := by omega
      subst this
      simp [bitLength, bitLengthAux] at hsmall
    have hge : 2 ^ (bitLength n - 1) ≤ n := (bitLengthAux_spec n n (le_refl n)).2 hnpos
    have hsh : bitLength n - 1 = (bitLength n - 53) + 52 := by omega
    rw [hsh, pow_add] at hge
    have hdecomp := Nat.div_add_mod n (2 ^ (bitLength n - 53))
    have hmod := Nat.mod_lt n (Nat.pos_pow_of_pos (bitLength n - 53) (by norm_num : 0 < 2))
    have h52 : (2 : Nat) ^ 52 = 4503599627370496 := by norm_num
    have h53 : (2 : Nat) ^ 53 = 9007199254740992 := by norm_num
    rw [h52] at hge
    rw [h53]
    simp only []
    generalize hP : 2 ^ (bitLength n - 53) = P at *
    generalize hq : n / P = q at *
    generalize hr : n % P = r at *
    have hqP : P * q = q * P := Nat.mul_comm _ _
    rw [hqP] at hdecomp
    split
    · rename_i hup
      have hbig : P ≤ 2 * r := by omega
      have hq1 : (q + 1) * P = q * P + P := by ring
      rw [hq1]
      generalize q * P = qP at *
      constructor <;> omega
    · rename_i hdown
      have hsmallr : 2 * r ≤ P := by
        by_contra hcon
        exact hdown (Or.inl (by omega))
      generalize q * P = qP at *
      constructor <;> omega


theorem times07_close (maxSize : Int) (h0 : 0 ≤ maxSize) :
    times07 maxSize * 9007199254740992
        ≤ maxSize * 6305039478318694 * 9007199254740992 + maxSize * 6305039478318694 ∧
      maxSize * 6305039478318694 * 9007199254740992
        ≤ times07 maxSize * 9007199254740992 + maxSize * 6305039478318694 := by
  unfold times07
  rw [if_pos h0]
  obtain ⟨h1, h2⟩ := roundDouble_close (maxSize.toNat * mantissa07)
  have hm : (maxSize.toNat : Int) = maxSize := Int.toNat_of_nonneg h0
  have h53 : (2 : Nat) ^ 53 = 9007199254740992 := by norm_num
  rw [h53] at h1 h2
  simp only [mantissa07] at h1 h2 ⊢
  have h1i : ((roundDouble (maxSize.toNat * 6305039478318694) * 9007199254740992 : Nat) : Int)
      ≤ ((maxSize.toNat * 6305039478318694 * 9007199254740992
        + maxSize.toNat * 6305039478318694 : Nat) : Int) := by exact_mod_cast h1
  have h2i : ((maxSize.toNat * 6305039478318694 * 9007199254740992 : Nat) : Int)
      ≤ ((roundDouble (maxSize.toNat * 6305039478318694) * 9007199254740992
        + maxSize.toNat * 6305039478318694 : Nat) : Int) := by exact_mod_cast h2
  push_cast at h1i h2i
  rw [hm] at h1i h2i
  exact ⟨h1i, h2i⟩

/-- Above seven tenths of the ceiling the test `spaceIndex > maxSize * 0.7` holds. -/
theorem aboveThreshold_of_gt (spaceIndex maxSize : Int) (h0 : 0 ≤ maxSize)
    (hbound : maxSize < 2 ^ 49) (h : 7 * maxSize < 10 * spaceIndex) :
    aboveThreshold spaceIndex maxSize = true := by
  unfold aboveThreshold
  rw [decide_eq_true_eq]
  obtain ⟨h1, _⟩ := times07_close maxSize h0
  have h49 : (2 : Int) ^ 49 = 562949953421312 := by norm_num
  have h53 : (2 : Int) ^ 53 = 9007199254740992 := by norm_num
  rw [h49] at hbound
  rw [h53]
  omega

/-- Below seven tenths of the ceiling the test `spaceIndex > maxSize * 0.7` fails. -/
theorem aboveThreshold_of_lt (spaceIndex maxSize : Int) (h0 : 0 ≤ maxSize)
    (hbound : maxSize < 2 ^ 49) (h : 10 * spaceIndex < 7 * maxSize) :
    aboveThreshold spaceIndex maxSize = false := by
  unfold aboveThreshold
  rw [decide_eq_false_iff_not]
  obtain ⟨_, h2⟩ := times07_close maxSize h0
  have h49 : (2 : Int) ^ 49 = 562949953421312 := by norm_num
  have h53 : (2 : Int) ^ 53 = 9007199254740992 := by norm_num
  rw [h49] at hbound
  rw [h53]
  omega

theorem aboveThreshold_neg_one (maxSize : Int) (h0 : 0 ≤ maxSize) :
    aboveThreshold (-1) maxSize = false := by
  unfold aboveThreshold
  rw [decide_eq_false_iff_not]
  have := times07_nonneg maxSize h0
  have h53 : (2 : Int) ^ 53 = 9007199254740992 := by norm_num
  rw [h53]
  omega

theorem splitPoint_of_noSpaceUpTo (line : JSString) (maxSize : Int) (h0 : 0 ≤ maxSize)
    (h : NoSpaceUpTo line maxSize) : splitPoint line maxSize = maxSize := by
  unfold splitPoint
  rw [lastIndexOf_of_noSpaceUpTo line maxSize h, aboveThreshold_neg_one maxSize h0]
  simp

theorem splitPoint_of_lastSpaceAt (line : JSString) (maxSize : Int) (s : Nat)
    (h : LastSpaceAt line maxSize s) :
    splitPoint line maxSize = if aboveThreshold s maxSize then (s : Int) else maxSize := by
  unfold splitPoint
  rw [lastIndexOf_of_lastSpaceAt line maxSize s h]
/-- At exactly seven tenths of the ceiling the outcome follows the rounding of the
double product: `10 * 0.7` is `7`, `170 * 0.7` is just below `119`. -/
theorem aboveThreshold_at_seven_tenths :
    aboveThreshold 7 10 = false ∧ aboveThreshold 119 170 = true := by
  decide


/-! ## The claims about the chunks -/

/-- Claim C11: for every text and every ceiling above zero, `splitContent` returns
chunks that each have at least one code unit. -/
theorem no_empty_chunk (content : JSString) (maxSize : Int) (hM : 0 < maxSize) :
    ∃ chunks, splitContent content maxSize = some chunks ∧ ∀ c ∈ chunks, 1 ≤ c.length := by
  obtain ⟨chunks, hsplit, _⟩ := splitContent_spec content maxSize hM
  refine ⟨chunks, hsplit, ?_⟩
  intro c hc
  have hne := splitContent_ne_nil content maxSize hM chunks hsplit c hc
  exact Nat.succ_le_of_lt (List.length_pos.mpr hne)

/-- Claim C11 at the text `   a` and ceiling 2. -/
theorem no_empty_chunk_witness :
    (0 : Int) < 2 ∧
      ∃ chunks, splitContent (utf16 "   a") 2 = some chunks ∧ ∀ c ∈ chunks, 1 ≤ c.length :=
  ⟨by decide, no_empty_chunk (utf16 "   a") 2 (by decide)⟩

/-- Claim C13, counterexample: with ceiling 5 the text `abcdef \ng` is split into
`abcde` and `f\ng`; the second chunk is not a contiguous piece of the text, which
has a space between `f` and the line break. -/
theorem chunk_not_contiguous :
    splitContent (utf16 "abcdef \ng") 5 = some [utf16 "abcde", utf16 "f\ng"] ∧
      ¬ (utf16 "f\ng" <:+: utf16 "abcdef \ng") := by
  decide

/-- Claim C13, amended: for every ceiling above zero and every text in which no line
longer than the ceiling ends in whitespace, `splitContent` returns chunks that are
each a contiguous substring of the text. -/
theorem chunks_contiguous (content : JSString) (maxSize : Int) (hM : 0 < maxSize)
    (hclean : ∀ l ∈ splitLines content, maxSize < (l.length : Int) →
      endsInWhiteSpace l = false) :
    ∃ chunks, splitContent content maxSize = some chunks ∧ ∀ c ∈ chunks, c <:+: content := by
  obtain ⟨chunks, hsplit, _⟩ := splitContent_spec content maxSize hM
  exact ⟨chunks, hsplit, splitContent_pieces content maxSize hM hclean chunks hsplit⟩

/-- Claim C13, amended, at the text `abcdef\ng` and ceiling 5. -/
theorem chunks_contiguous_witness :
    ((0 : Int) < 5 ∧ ∀ l ∈ splitLines (utf16 "abcdef\ng"), (5 : Int) < (l.length : Int) →
      endsInWhiteSpace l = false) ∧
    ∃ chunks, splitContent (utf16 "abcdef\ng") 5 = some chunks ∧
      ∀ c ∈ chunks, c <:+: utf16 "abcdef\ng" :=
  ⟨by decide, chunks_contiguous (utf16 "abcdef\ng") 5 (by decide) (by decide)⟩

/-! ## The claims about `splitLongLine` -/

/-- Claim C14, counterexample: the line `abcdef h` has length 2 * 4 and its only space
at index 4 + 4 / 2, yet with ceiling 4 it is cut at index 4, into `abcd` and `ef h`,
not at the space. -/
theorem word_boundary_counterexample :
    ((utf16 "abcdef h").length = 2 * 4 ∧ OnlySpaceAt (utf16 "abcdef h") (4 + 4 / 2)) ∧
      splitLongLine (utf16 "abcdef h") 4 = some [utf16 "abcd", utf16 "ef h"] := by
  decide

/-- Claim C14, amended: for every even ceiling above zero and every line of twice
that length whose only space is at index `M + M / 2`, `splitLongLine` cuts the line
at exactly index `M`: it returns the first `M` code units and then, unless it is
empty, the rest trimmed. -/
theorem word_boundary_beyond_window (M : Nat) (line : JSString) (heven : Even M)
    (hM : 0 < M) (hlen : line.length = 2 * M) (honly : OnlySpaceAt line (M + M / 2)) :
    splitLongLine line (M : Int)
      = some (line.take M :: (if trim (line.drop M) ≠ [] then [trim (line.drop M)] else [])) := by
  obtain ⟨half, hhalf⟩ := heven
  have hnospace : NoSpaceUpTo line (M : Int) := by
    intro j hj hsp
    have hjlen : j < line.length := by
      simp only [Int.toNat_ofNat] at hj
      omega
    have := honly.2 j hjlen hsp
    simp only [Int.toNat_ofNat] at hj
    omega
  have hsp := splitPoint_of_noSpaceUpTo line (M : Int) (Int.natCast_nonneg _) hnospace
  have hlong : (M : Int) < (line.length : Int) := by
    rw [hlen]; push_cast; omega
  unfold splitLongLine
  rw [splitLongLineLoop_step _ _ line [] (Nat.succ_pos _) hlong, hsp]
  simp only [substringFrom, substringTo, Int.toNat_ofNat, List.nil_append]
  have hshort : ¬ (M : Int) < ((trim (line.drop M)).length : Int) := by
    have h1 := trim_length_le (line.drop M)
    have h2 : (line.drop M).length = M := by rw [List.length_drop, hlen]; omega
    omega
  rw [splitLongLineLoop_exit _ _ _ _ (by omega) hshort]
  by_cases hnil : trim (line.drop M) = [] <;> simp [hnil]

/-- Claim C14, amended, at the line `abcdef h` and ceiling 4. -/
theorem word_boundary_beyond_window_witness :
    (Even 4 ∧ 0 < 4 ∧ (utf16 "abcdef h").length = 2 * 4 ∧
      OnlySpaceAt (utf16 "abcdef h") (4 + 4 / 2)) ∧
    splitLongLine (utf16 "abcdef h") ((4 : Nat) : Int)
      = some ((utf16 "abcdef h").take 4 ::
        (if trim ((utf16 "abcdef h").drop 4) ≠ [] then [trim ((utf16 "abcdef h").drop 4)]
          else [])) :=
  ⟨by decide, word_boundary_beyond_window 4 (utf16 "abcdef h") (by decide) (by decide)
    (by decide) (by decide)⟩

/-- Claim C15, counterexample: in the line `abcdefg hijklm` the last space at or
before index 10 is at index 7, which is 0.7 * 10, yet with ceiling 10 the first part
is the first 10 code units, not the first 7. -/
theorem threshold_counterexample :
    (LastSpaceAt (utf16 "abcdefg hijklm") 10 7 ∧ (7 : Int) * 10 ≤ 10 * 7) ∧
      splitLongLine (utf16 "abcdefg hijklm") 10 = some [utf16 "abcdefg hi", utf16 "jklm"] := by
  decide

/-- Claim C15, amended: for every ceiling `M` above zero (and below 2^49) and every
line longer than `M`: when the last space at or before index `M` is at an index `s`
with `s > 0.7 * M`, the first part that `splitLongLine` returns is the first `s` code
units; when `s < 0.7 * M`, or no space lies at or before index `M`, it is the first
`M` code units; when `s = 0.7 * M` exactly, it is the one or the other according to
the test `s > M * 0.7` on doubles (see `aboveThreshold_at_seven_tenths`). -/
theorem cut_point_threshold (line : JSString) (maxSize : Int) (hM : 0 < maxSize)
    (hbound : maxSize < 2 ^ 49) (hlong : maxSize < (line.length : Int)) :
    (∀ s : Nat, LastSpaceAt line maxSize s → 7 * maxSize < 10 * (s : Int) →
      ∃ rest, splitLongLine line maxSize = some (line.take s :: rest)) ∧
    (∀ s : Nat, LastSpaceAt line maxSize s → 10 * (s : Int) < 7 * maxSize →
      ∃ rest, splitLongLine line maxSize = some (line.take maxSize.toNat :: rest)) ∧
    (∀ s : Nat, LastSpaceAt line maxSize s → 10 * (s : Int) = 7 * maxSize →
      ∃ rest, splitLongLine line maxSize
        = some ((if aboveThreshold s maxSize then line.take s else line.take maxSize.toNat)
          :: rest)) ∧
    (NoSpaceUpTo line maxSize →
      ∃ rest, splitLongLine line maxSize = some (line.take maxSize.toNat :: rest)) := by
  obtain ⟨rest, hfirst⟩ := splitLongLine_first line maxSize hM hlong
  refine ⟨?_, ?_, ?_, ?_⟩
  · intro s hs hgt
    refine ⟨rest, ?_⟩
    rw [hfirst, splitPoint_of_lastSpaceAt line maxSize s hs,
      aboveThreshold_of_gt s maxSize (le_of_lt hM) hbound hgt]
    simp [substringTo]
  · intro s hs hlt
    refine ⟨rest, ?_⟩
    rw [hfirst, splitPoint_of_lastSpaceAt line maxSize s hs,
      aboveThreshold_of_lt s maxSize (le_of_lt hM) hbound hlt]
    simp [substringTo]
  · intro s hs _
    refine ⟨rest, ?_⟩
    rw [hfirst, splitPoint_of_lastSpaceAt line maxSize s hs]
    by_cases ha : aboveThreshold s maxSize = true <;> simp [ha, substringTo]
  · intro hno
    refine ⟨rest, ?_⟩
    rw [hfirst, splitPoint_of_noSpaceUpTo line maxSize (le_of_lt hM) hno]
    simp [substringTo]

/-- Claim C15, amended, at the line `abcdefgh ijklm` and ceiling 10, where the last
space is at index 8. -/
theorem cut_point_threshold_witness :
    ((0 : Int) < 10 ∧ (10 : Int) < 2 ^ 49 ∧
      (10 : Int) < ((utf16 "abcdefgh ijklm").length : Int) ∧
      LastSpaceAt (utf16 "abcdefgh ijklm") 10 8 ∧ (7 : Int) * 10 < 10 * ((8 : Nat) : Int)) ∧
    ∃ rest, splitLongLine (utf16 "abcdefgh ijklm") 10
      = some ((utf16 "abcdefgh ijklm").take 8 :: rest) :=
  ⟨by decide, (cut_point_threshold (utf16 "abcdefgh ijklm") 10 (by decide) (by decide)
    (by decide)).1 8 (by decide) (by decide)⟩


/-! ## Content without whitespace, content of line breaks only -/

theorem splitLines_of_no_NL (s : JSString) (h : NL ∉ s) : splitLines s = [s] := by
  induction s with
  | nil => rfl
  | cons c cs ih =>
    have hc : c ≠ NL := fun hc => h (by rw [hc]; exact List.mem_cons_self _ _)
    have hcs : NL ∉ cs := fun hm => h (List.mem_cons_of_mem _ hm)
    unfold splitLines
    rw [if_neg hc, ih hcs]

theorem noSpaceUpTo_of_no_whiteSpace (s : JSString) (maxSize : Int)
    (h : ∀ c ∈ s, isWhiteSpace c = false) : NoSpaceUpTo s maxSize := by
  intro j _ hj
  have hmem : SP ∈ s := List.getElem?_mem hj
  have := h SP hmem
  simp [isWhiteSpace, SP] at this

/-- A string without whitespace that is longer than the ceiling loses its first
`maxSize` code units to a new part. -/
theorem splitLongLineLoop_hard_cut (m fuel : Nat) (remaining : JSString)
    (parts : List JSString) (hfuel : 0 < fuel) (hlong : m < remaining.length)
    (hws : ∀ c ∈ remaining, isWhiteSpace c = false) :
    splitLongLineLoop (m : Int) fuel remaining parts
      = splitLongLineLoop (m : Int) (fuel - 1) (remaining.drop m)
          (parts ++ [remaining.take m]) := by
  rw [splitLongLineLoop_step _ _ remaining parts hfuel (by exact_mod_cast hlong),
    splitPoint_of_noSpaceUpTo remaining _ (Int.natCast_nonneg _)
      (noSpaceUpTo_of_no_whiteSpace remaining _ hws)]
  simp only [substringFrom, substringTo, Int.toNat_ofNat]
  rw [trim_of_no_whiteSpace _ (fun c hc => hws c (List.mem_of_mem_drop hc))]

/-- The four parts of a line of 14,000 code units without whitespace. -/
theorem splitLongLine_fourteen_thousand (content : JSString) (hlen : content.length = 14000)
    (hws : ∀ c ∈ content, isWhiteSpace c = false) :
    splitLongLine content 4000
      = some [content.take 4000, (content.drop 4000).take 4000,
          (content.drop 8000).take 4000, content.drop 12000] := by
  have hws1 : ∀ c ∈ content.drop 4000, isWhiteSpace c = false :=
    fun c hc => hws c (List.mem_of_mem_drop hc)
  have hws2 : ∀ c ∈ content.drop 8000, isWhiteSpace c = false :=
    fun c hc => hws c (List.mem_of_mem_drop hc)
  have h4000 : ((4000 : Nat) : Int) = 4000 := rfl
  unfold splitLongLine
  rw [← h4000,
    splitLongLineLoop_hard_cut 4000 _ content [] (Nat.succ_pos _) (by omega) hws,
    splitLongLineLoop_hard_cut 4000 _ (content.drop 4000) _ (by omega)
      (by rw [List.length_drop]; omega) hws1,
    List.drop_drop,
    splitLongLineLoop_hard_cut 4000 _ (content.drop (4000 + 4000)) _ (by omega)
      (by rw [List.length_drop]; omega) hws2,
    List.drop_drop,
    splitLongLineLoop_exit _ _ _ _ (by omega)
      (by rw [List.length_drop]; push_cast; omega)]
  have hne : content.drop (4000 + (4000 + 4000)) ≠ [] := by
    intro hnil
    have := congrArg List.length hnil
    rw [List.length_drop] at this
    simp only [List.length_nil] at this
    omega
  rw [if_pos hne]
  rfl

/-- The four chunks of a content of 14,000 code units without whitespace. -/
theorem splitContent_fourteen_thousand (content : JSString) (hlen : content.length = 14000)
    (hws : ∀ c ∈ content, isWhiteSpace c = false) :
    splitContent content CHUNK_SIZE
      = some [content.take 4000, (content.drop 4000).take 4000,
          (content.drop 8000).take 4000, content.drop 12000] := by
  have hNL : NL ∉ content := by
    intro hm
    have := hws NL hm
    simp [isWhiteSpace, NL] at this
  have hlast : ∀ c ∈ content.drop 12000, isWhiteSpace c = false :=
    fun c hc => hws c (List.mem_of_mem_drop hc)
  have hne : content.drop 12000 ≠ [] := by
    intro hnil
    have := congrArg List.length hnil
    rw [List.length_drop] at this
    simp only [List.length_nil] at this
    omega
  unfold splitContent
  rw [splitLines_of_no_NL content hNL]
  unfold splitContentLoop
  rw [if_pos (by rw [hlen]; decide)]
  simp only []
  rw [if_pos (by rw [hlen]; decide)]
  have hsplit := splitLongLine_fourteen_thousand content hlen hws
  simp only [CHUNK_SIZE] at hsplit ⊢
  rw [hsplit]
  simp only [trim_nil, ne_eq, not_true_eq_false, if_false, List.getLast?_cons_cons,
    List.getLast?_singleton, List.dropLast, List.nil_append, splitContentLoop,
    trim_of_no_whiteSpace _ hlast, hne, not_false_eq_true, if_true]
  rfl

theorem splitLines_replicate_NL (n : Nat) :
    splitLines (List.replicate n NL) = List.replicate (n + 1) [] := by
  induction n with
  | zero => rfl
  | succ n ih =>
    rw [List.replicate_succ, splitLines, if_pos rfl, ih]
    rfl

theorem splitContentLoop_empty_lines (maxSize : Int) (hM : 0 < maxSize) (k : Nat)
    (chunks : List JSString) :
    splitContentLoop maxSize (List.replicate k []) chunks [] = some (chunks, []) := by
  induction k with
  | zero => rfl
  | succ k ih =>
    rw [List.replicate_succ, splitContentLoop, if_neg (by simp; omega)]
    simpa using ih

/-- A content of line breaks only has no chunk. -/
theorem splitContent_replicate_NL (n : Nat) (maxSize : Int) (hM : 0 < maxSize) :
    splitContent (List.replicate n NL) maxSize = some [] := by
  unfold splitContent
  rw [splitLines_replicate_NL, splitContentLoop_empty_lines maxSize hM]
  simp [trim_nil]


/-! ## A ceiling that is not positive -/

theorem splitLongLineLoop_of_neg (maxSize : Int) (hM : maxSize < 0) :
    ∀ (fuel : Nat) (remaining : JSString) (parts : List JSString),
      splitLongLineLoop maxSize fuel remaining parts = none := by
  intro fuel
  induction fuel with
  | zero => intro remaining parts; rfl
  | succ fuel ih =>
    intro remaining parts
    have hlong : maxSize < (remaining.length : Int) := by
      have : (0 : Int) ≤ (remaining.length : Int) := Int.natCast_nonneg _
      omega
    rw [splitLongLineLoop, if_pos hlong]
    exact ih _ _

theorem splitPoint_zero_toNat (remaining : JSString) :
    (splitPoint remaining 0).toNat = 0 := by
  have hle : splitPoint remaining 0 ≤ 0 := by
    unfold splitPoint
    split
    · exact lastIndexOf_le _ _ _ (le_refl 0)
    · exact le_refl 0
  omega

theorem removeWhiteSpace_eq_nil_iff (s : JSString) :
    removeWhiteSpace s = [] ↔ trim s = [] := by
  rw [trim_eq_nil_iff]
  unfold removeWhiteSpace
  rw [List.filter_eq_nil_iff]
  simp

/-- With ceiling 0 the condition of the loop of `splitLongLine` never fails on a
string that holds a code unit other than whitespace, whatever the number of tests. -/
theorem splitLongLineLoop_zero_of_content :
    ∀ (fuel : Nat) (remaining : JSString) (parts : List JSString),
      trim remaining ≠ [] → splitLongLineLoop 0 fuel remaining parts = none := by
  intro fuel
  induction fuel with
  | zero => intro remaining parts _; rfl
  | succ fuel ih =>
    intro remaining parts hcontent
    have hne : remaining ≠ [] := by
      intro hnil
      rw [hnil] at hcontent
      exact hcontent trim_nil
    have hlong : (0 : Int) < (remaining.length : Int) := by
      have := List.length_pos.mpr hne
      omega
    rw [splitLongLineLoop, if_pos hlong]
    apply ih
    simp only [substringFrom, splitPoint_zero_toNat, List.drop_zero]
    intro hnil
    have h1 := (removeWhiteSpace_eq_nil_iff _).mpr hnil
    rw [removeWhiteSpace_trim] at h1
    exact hcontent ((removeWhiteSpace_eq_nil_iff _).mp h1)

/-- With ceiling 0 a non-empty line of whitespace has the single part `''`. -/
theorem splitLongLine_zero_of_blank (line : JSString) (hne : line ≠ [])
    (hblank : trim line = []) : splitLongLine line 0 = some [[]] := by
  have hlong : (0 : Int) < (line.length : Int) := by
    have := List.length_pos.mpr hne
    omega
  unfold splitLongLine
  rw [splitLongLineLoop_step 0 _ line [] (Nat.succ_pos _) hlong]
  simp only [substringFrom, substringTo, splitPoint_zero_toNat, List.drop_zero,
    List.take_zero, hblank, List.nil_append]
  rw [splitLongLineLoop_exit 0 _ [] _ (by have := List.length_pos.mpr hne; omega)
    (by simp)]
  simp

/-- With ceiling 0 the line loop of `splitContent`, entered with an empty
`currentChunk`, returns without a new chunk when every line is blank and does not
return otherwise. -/
theorem splitContentLoop_zero :
    ∀ (lines chunks : List JSString),
      splitContentLoop 0 lines chunks []
        = if ∀ l ∈ lines, trim l = [] then some (chunks, []) else none := by
  intro lines
  induction lines with
  | nil => intro chunks; simp [splitContentLoop]
  | cons line rest ih =>
    intro chunks
    have hover : (0 : Int) < (([] : JSString).length : Int) + (line.length : Int) + 1 := by
      have : (0 : Int) ≤ (line.length : Int) := Int.natCast_nonneg _
      simp only [List.length_nil, Nat.cast_zero]
      omega
    rw [splitContentLoop, if_pos hover]
    simp only [trim_nil, ne_eq, not_true_eq_false, if_false]
    by_cases hline : line = []
    · subst hline
      rw [if_neg (by simp), ih chunks]
      simp [trim_nil]
    · have hlong : (0 : Int) < (line.length : Int) := by
        have := List.length_pos.mpr hline
        omega
      rw [if_pos hlong]
      by_cases hblank : trim line = []
      · rw [splitLongLine_zero_of_blank line hline hblank]
        simp only [List.getLast?_singleton, List.dropLast_single, List.append_nil]
        rw [ih chunks]
        simp [hblank]
      · have hnone : splitLongLine line 0 = none :=
          splitLongLineLoop_zero_of_content _ line [] hblank
        rw [hnone]
        simp [hblank]

theorem blank_lines_iff (content : JSString) :
    (∀ l ∈ splitLines content, trim l = []) ↔ removeWhiteSpace content = [] := by
  have h : removeWhiteSpace content = ((splitLines content).map removeWhiteSpace).flatten := by
    rw [← removeWhiteSpace_joinLines, joinLines_splitLines]
  rw [h, List.flatten_eq_nil_iff]
  constructor
  · intro hall l hl
    obtain ⟨x, hx, rfl⟩ := List.mem_map.mp hl
    exact (removeWhiteSpace_eq_nil_iff x).mpr (hall x hx)
  · intro hall l hl
    exact (removeWhiteSpace_eq_nil_iff l).mp (hall _ (List.mem_map_of_mem _ hl))

/-- With ceiling 0, `splitContent` returns no chunk for a content of whitespace
only. -/
theorem splitContent_zero_of_blank (content : JSString)
    (hblank : removeWhiteSpace content = []) : splitContent content 0 = some [] := by
  unfold splitContent
  rw [splitContentLoop_zero, if_pos ((blank_lines_iff content).mpr hblank)]
  simp [trim_nil]

/-! ## Pacing and first-write failure -/

theorem uploadLoop_events_ok (write : WritePrimitive) (docId pageId c : JSString)
    (cs : List JSString) (i : Nat) (prior : List WriteCall) (u : Unit)
    (hw : write prior ⟨docId, pageId, c, chunkMode i, utf16 "markdown"⟩ = Except.ok u) :
    (uploadLoop write docId pageId i (c :: cs) prior).1
      = (Event.write ⟨docId, pageId, c, chunkMode i, utf16 "markdown"⟩ ::
          (if cs ≠ [] then [Event.sleep 100] else [])) ++
        (uploadLoop write docId pageId (i + 1) cs
          (prior ++ [⟨docId, pageId, c, chunkMode i, utf16 "markdown"⟩])).1 := by
  rw [uploadLoop, hw]

/-- When every write it issues resolves, the events of the loop are the writes of the
plan with one pause of 100 ms between each two. -/
theorem uploadLoop_events_of_succeed (write : WritePrimitive) (docId pageId : JSString) :
    ∀ (chunks : List JSString) (i : Nat) (prior : List WriteCall),
      WritesSucceed write prior (writesOf (uploadLoop write docId pageId i chunks prior).1) →
      (uploadLoop write docId pageId i chunks prior).1
        = ((uploadPlan docId pageId i chunks).map Event.write).intersperse
            (Event.sleep 100) := by
  intro chunks
  induction chunks with
  | nil => intro i prior _; simp [uploadLoop, uploadPlan]
  | cons c cs ih =>
    intro i prior
    cases hw : write prior ⟨docId, pageId, c, chunkMode i, utf16 "markdown"⟩ with
    | error e =>
      rw [(uploadLoop_cons_error write docId pageId c cs i prior e hw).1]
      intro hok
      have h0 := (writesSucceed_cons write prior _ _ hok).1
      rw [hw] at h0
      exact absurd h0 (by simp)
    | ok u =>
      rw [(uploadLoop_cons_ok write docId pageId c cs i prior u hw).1,
        uploadLoop_events_ok write docId pageId c cs i prior u hw]
      intro hok
      rw [ih (i + 1) _ (writesSucceed_cons write prior _ _ hok).2]
      cases cs with
      | nil => simp [uploadPlan]
      | cons c2 cs2 => simp [uploadPlan]

theorem sleepsOf_intersperse (calls : List WriteCall) :
    sleepsOf ((calls.map Event.write).intersperse (Event.sleep 100))
      = List.replicate (calls.length - 1) 100 := by
  induction calls with
  | nil => rfl
  | cons c cs ih =>
    cases cs with
    | nil => rfl
    | cons c2 cs2 =>
      simp only [List.map_cons, List.intersperse_cons₂, sleepsOf, List.length_cons,
        Nat.add_sub_cancel] at ih ⊢
      rw [ih, ← List.replicate_succ]

theorem updatePageContent_first_write_fails (write : WritePrimitive)
    (docId pageId content mode : JSString) (prior : List WriteCall) (e : JSError)
    (hfail : WriteFails write prior
      (writesOf (updatePageContent write docId pageId content mode prior).1) 1 e) :
    (updatePageContentBody write docId pageId content mode prior).2 = Outcome.thrown e := by
  rw [updatePageContent_events] at hfail
  by_cases hdirect : (content.length : Int) ≤ CHUNK_SIZE ∨ mode = utf16 "append"
  · rw [updatePageContentBody_direct _ _ _ _ _ _ hdirect] at hfail ⊢
    rw [writeOnce_events] at hfail
    obtain ⟨_, call, hget, hw⟩ := hfail
    simp only [writesOf, Nat.sub_self, List.getElem?_cons_zero, Option.some.injEq] at hget
    rw [← hget] at hw
    simp only [writesOf, Nat.sub_self, List.take_zero, List.append_nil] at hw
    unfold writeOnce
    rw [hw]
  · have hlen : CHUNK_SIZE < (content.length : Int) := by
      by_contra hcon
      exact hdirect (Or.inl (not_lt.mp hcon))
    have hmode : mode ≠ utf16 "append" := fun h => hdirect (Or.inr h)
    rw [updatePageContentBody_chunked _ _ _ _ _ _ hlen hmode] at hfail ⊢
    exact (uploadLoop_of_writeFails write docId pageId e (chunksOf content) 0 prior 1
      hfail).2.2

theorem wrapped_ne (e : JSError) :
    (⟨utf16 "Failed to update page content: " ++ e.message⟩ : JSError) ≠ e := by
  intro h
  have hlen := congrArg (fun x : JSError => x.message.length) h
  simp only [List.length_append] at hlen
  have hpos : 0 < (utf16 "Failed to update page content: ").length := by decide
  omega


/-! ## The claims about the concrete scenario, invalid ceilings, failures and pacing -/

theorem fourteen_thousand_length : CHUNK_SIZE < ((List.replicate 14000 NL).length : Int) := by
  rw [List.length_replicate]
  decide

/-- Claim C16, counterexample: a content of 14,000 line breaks has 14,000 code units,
`splitContent(content, 4000)` returns no chunk for it, and its `replace` upload issues
no write at all. -/
theorem scenario_counterexample :
    (List.replicate 14000 NL).length = 14000 ∧
      splitContent (List.replicate 14000 NL) CHUNK_SIZE = some [] ∧
      writesOf (updatePageContent succeedAlways (utf16 "doc") (utf16 "page")
        (List.replicate 14000 NL) (utf16 "replace") []).1 = [] := by
  have hsplit := splitContent_replicate_NL 14000 CHUNK_SIZE (by decide)
  refine ⟨List.length_replicate _ _, hsplit, ?_⟩
  rw [updatePageContent_events,
    updatePageContentBody_chunked _ _ _ _ _ _ fourteen_thousand_length replace_ne_append]
  have hchunks : chunksOf (List.replicate 14000 NL) = [] := by
    unfold chunksOf
    rw [hsplit]
    rfl
  rw [hchunks]
  rfl

/-- Claim C16, amended: for every content of exactly 14,000 code units none of which
is whitespace, `splitContent(content, 4000)` returns exactly 4 chunks, the code units
0 to 3999, 4000 to 7999, 8000 to 11999 and 12000 to 13999, so that a `replace`
upload whose writes succeed issues one `replace` write followed by exactly three
`append` writes. -/
theorem scenario_without_whitespace (write : WritePrimitive)
    (docId pageId content : JSString) (prior : List WriteCall)
    (hlen : content.length = 14000) (hws : ∀ c ∈ content, isWhiteSpace c = false)
    (hok : WritesSucceed write prior
      (writesOf (updatePageContent write docId pageId content (utf16 "replace") prior).1)) :
    splitContent content CHUNK_SIZE
        = some [content.take 4000, (content.drop 4000).take 4000,
            (content.drop 8000).take 4000, content.drop 12000] ∧
      (writesOf (updatePageContent write docId pageId content (utf16 "replace")
          prior).1).map WriteCall.insertionMode
        = [utf16 "replace", utf16 "append", utf16 "append", utf16 "append"] := by
  have hsplit := splitContent_fourteen_thousand content hlen hws
  refine ⟨hsplit, ?_⟩
  have hbig : CHUNK_SIZE < (content.length : Int) := by rw [hlen]; decide
  have hchunks : chunksOf content = [content.take 4000, (content.drop 4000).take 4000,
      (content.drop 8000).take 4000, content.drop 12000] := by
    unfold chunksOf
    rw [hsplit]
    rfl
  rw [updatePageContent_events,
    updatePageContentBody_chunked _ _ _ _ _ _ hbig replace_ne_append] at hok ⊢
  rw [(uploadLoop_of_succeed write docId pageId _ 0 prior hok).1, uploadPlan_mode, hchunks]
  rfl

theorem letters_no_whiteSpace (n : Nat) : ∀ c ∈ List.replicate n 97, isWhiteSpace c = false := by
  intro c hc
  rw [List.eq_of_mem_replicate hc]
  decide

/-- Claim C16, amended, at 14,000 letters and a write primitive that always
resolves. -/
theorem scenario_without_whitespace_witness :
    ((List.replicate 14000 97).length = 14000 ∧
      (∀ c ∈ List.replicate 14000 97, isWhiteSpace c = false) ∧
      WritesSucceed succeedAlways []
        (writesOf (updatePageContent succeedAlways (utf16 "doc") (utf16 "page")
          (List.replicate 14000 97) (utf16 "replace") []).1)) ∧
    (splitContent (List.replicate 14000 97) CHUNK_SIZE
        = some [(List.replicate 14000 97).take 4000,
            ((List.replicate 14000 97).drop 4000).take 4000,
            ((List.replicate 14000 97).drop 8000).take 4000,
            (List.replicate 14000 97).drop 12000] ∧
      (writesOf (updatePageContent succeedAlways (utf16 "doc") (utf16 "page")
          (List.replicate 14000 97) (utf16 "replace") []).1).map WriteCall.insertionMode
        = [utf16 "replace", utf16 "append", utf16 "append", utf16 "append"]) :=
  ⟨⟨List.length_replicate _ _, letters_no_whiteSpace 14000, writesSucceed_succeedAlways _ _⟩,
    scenario_without_whitespace succeedAlways (utf16 "doc") (utf16 "page")
      (List.replicate 14000 97) [] (List.length_replicate _ _) (letters_no_whiteSpace 14000)
      (writesSucceed_succeedAlways _ _)⟩

/-- Claim C17, counterexample: with ceiling 0 the text of two blank lines ` \n ` is
accepted and `splitContent` returns a chunk sequence, the empty one. -/
theorem zero_ceiling_returns : splitContent (utf16 " \n ") 0 = some [] := by
  decide

/-- Claim C18, counterexample: when the single direct write of `hi` fails with the
error `boom`, `updatePageContent` throws an error with the message
`Failed to update page content: boom`, which is not the error `boom`. -/
theorem first_failure_counterexample :
    (updatePageContent (failOnCall 1 ⟨utf16 "boom"⟩) (utf16 "doc") (utf16 "page")
        (utf16 "hi") (utf16 "replace") []).2
      = Outcome.thrown ⟨utf16 "Failed to update page content: " ++ utf16 "boom"⟩ ∧
    (updatePageContent (failOnCall 1 ⟨utf16 "boom"⟩) (utf16 "doc") (utf16 "page")
        (utf16 "hi") (utf16 "replace") []).2
      ≠ Outcome.thrown ⟨utf16 "boom"⟩ := by
  decide

/-- Claim C18, amended: for every upload by `updatePageContent`, whatever the content
and the mode, in which the first write issued (chunk 0, or the single direct write)
is rejected with an error, whatever the reason, `updatePageContent` throws a new
error whose message is `Failed to update page content: ` followed by the message of
that error; the error thrown is never that error itself. -/
theorem first_failure_wrapped (write : WritePrimitive)
    (docId pageId content mode : JSString) (prior : List WriteCall) (e : JSError)
    (hfail : WriteFails write prior
      (writesOf (updatePageContent write docId pageId content mode prior).1) 1 e) :
    (updatePageContent write docId pageId content mode prior).2
        = Outcome.thrown ⟨utf16 "Failed to update page content: " ++ e.message⟩ ∧
      (updatePageContent write docId pageId content mode prior).2 ≠ Outcome.thrown e := by
  have hthrown := updatePageContent_thrown write docId pageId content mode prior e
    (updatePageContent_first_write_fails write docId pageId content mode prior e hfail)
  refine ⟨hthrown, ?_⟩
  rw [hthrown]
  intro h
  exact wrapped_ne e (Outcome.thrown.inj h)

/-- Claim C18, amended, at the direct write of `hi` in the mode `append`, rejected
with `boom` because of its mode. -/
theorem first_failure_wrapped_witness :
    WriteFails (rejectAppend ⟨utf16 "boom"⟩) []
      (writesOf (updatePageContent (rejectAppend ⟨utf16 "boom"⟩) (utf16 "doc")
        (utf16 "page") (utf16 "hi") (utf16 "append") []).1) 1 ⟨utf16 "boom"⟩ ∧
    ((updatePageContent (rejectAppend ⟨utf16 "boom"⟩) (utf16 "doc") (utf16 "page")
        (utf16 "hi") (utf16 "append") []).2
        = Outcome.thrown ⟨utf16 "Failed to update page content: " ++
          (⟨utf16 "boom"⟩ : JSError).message⟩ ∧
      (updatePageContent (rejectAppend ⟨utf16 "boom"⟩) (utf16 "doc") (utf16 "page")
        (utf16 "hi") (utf16 "append") []).2 ≠ Outcome.thrown ⟨utf16 "boom"⟩) :=
  ⟨⟨le_refl 1, ⟨utf16 "doc", utf16 "page", utf16 "hi", utf16 "append", utf16 "markdown"⟩,
      by decide, by simp [rejectAppend]⟩,
    first_failure_wrapped (rejectAppend ⟨utf16 "boom"⟩) (utf16 "doc") (utf16 "page")
      (utf16 "hi") (utf16 "append") [] ⟨utf16 "boom"⟩
      ⟨le_refl 1, ⟨utf16 "doc", utf16 "page", utf16 "hi", utf16 "append", utf16 "markdown"⟩,
        by decide, by simp [rejectAppend]⟩⟩

/-- Claim C19: for every chunked upload (content longer than 4000 code units;
`updatePageContent` in mode `replace`, and `uploadContentInChunks`) whose writes all
succeed, the events are the writes of the chunks in order with one pause of 100 ms
between each two consecutive writes and nothing before the first write or after the
last one, so that `n` chunks make `n - 1` pauses. -/
theorem pacing_between_writes (write : WritePrimitive) (docId pageId content : JSString)
    (prior : List WriteCall) (hlen : CHUNK_SIZE < (content.length : Int)) :
    ∃ chunks, splitContent content CHUNK_SIZE = some chunks ∧
      (WritesSucceed write prior
          (writesOf (updatePageContent write docId pageId content (utf16 "replace") prior).1) →
        (updatePageContent write docId pageId content (utf16 "replace") prior).1
            = ((uploadPlan docId pageId 0 chunks).map Event.write).intersperse
                (Event.sleep 100) ∧
          sleepsOf (updatePageContent write docId pageId content (utf16 "replace") prior).1
            = List.replicate (chunks.length - 1) 100) ∧
      (WritesSucceed write prior
          (writesOf (uploadContentInChunks write docId pageId content prior).1) →
        (uploadContentInChunks write docId pageId content prior).1
            = ((uploadPlan docId pageId 0 chunks).map Event.write).intersperse
                (Event.sleep 100) ∧
          sleepsOf (uploadContentInChunks write docId pageId content prior).1
            = List.replicate (chunks.length - 1) 100) := by
  refine ⟨chunksOf content, splitContent_chunkSize content, ?_, ?_⟩
  · rw [updatePageContent_events,
      updatePageContentBody_chunked _ _ _ _ _ _ hlen replace_ne_append]
    intro hok
    rw [uploadLoop_events_of_succeed write docId pageId _ 0 prior hok, sleepsOf_intersperse,
      uploadPlan_length]
    exact ⟨rfl, rfl⟩
  · rw [uploadContentInChunks_chunked _ _ _ _ _ hlen]
    intro hok
    rw [uploadLoop_events_of_succeed write docId pageId _ 0 prior hok, sleepsOf_intersperse,
      uploadPlan_length]
    exact ⟨rfl, rfl⟩

/-- Claim C19 at 4001 letters and a write primitive that always resolves. -/
theorem pacing_between_writes_witness :
    (CHUNK_SIZE < ((List.replicate 4001 97).length : Int) ∧
      WritesSucceed succeedAlways []
        (writesOf (updatePageContent succeedAlways (utf16 "doc") (utf16 "page")
          (List.replicate 4001 97) (utf16 "replace") []).1) ∧
      WritesSucceed succeedAlways []
        (writesOf (uploadContentInChunks succeedAlways (utf16 "doc") (utf16 "page")
          (List.replicate 4001 97) []).1)) ∧
    ∃ chunks, splitContent (List.replicate 4001 97) CHUNK_SIZE = some chunks ∧
      ((updatePageContent succeedAlways (utf16 "doc") (utf16 "page")
            (List.replicate 4001 97) (utf16 "replace") []).1
          = ((uploadPlan (utf16 "doc") (utf16 "page") 0 chunks).map Event.write).intersperse
              (Event.sleep 100) ∧
        sleepsOf (updatePageContent succeedAlways (utf16 "doc") (utf16 "page")
            (List.replicate 4001 97) (utf16 "replace") []).1
          = List.replicate (chunks.length - 1) 100) ∧
      ((uploadContentInChunks succeedAlways (utf16 "doc") (utf16 "page")
            (List.replicate 4001 97) []).1
          = ((uploadPlan (utf16 "doc") (utf16 "page") 0 chunks).map Event.write).intersperse
              (Event.sleep 100) ∧
        sleepsOf (uploadContentInChunks succeedAlways (utf16 "doc") (utf16 "page")
            (List.replicate 4001 97) []).1
          = List.replicate (chunks.length - 1) 100) :=
  ⟨⟨letters_length, writesSucceed_succeedAlways _ _, writesSucceed_succeedAlways _ _⟩,
    (pacing_between_writes succeedAlways (utf16 "doc") (utf16 "page") (List.replicate 4001 97)
      [] letters_length).imp fun _ h =>
        ⟨h.1, h.2.1 (writesSucceed_succeedAlways _ _), h.2.2 (writesSucceed_succeedAlways _ _)⟩⟩

/-! ## The claim about `findDocByName` -/

/-- The lookup returns the first document in list order whose lower-cased name
contains the lower-cased query, and `undefined` when there is none. -/
theorem findDocByName_eq_find (toLowerCase : JSString → JSString) (docs : List Doc)
    (name : JSString) :
    findDocByName toLowerCase docs name
      = match docs.find? (fun doc => includes (toLowerCase doc.name) (toLowerCase name)) with
        | some doc => Lookup.element doc
        | none => Lookup.undefined := by
  unfold findDocByName
  induction docs with
  | nil => rfl
  | cons d ds ih =>
    by_cases h : includes (toLowerCase d.name) (toLowerCase name) = true
    · simp [arrayFind, List.find?, h]
    · simp only [arrayFind, List.find?, h]
      exact ih

/-- Claim C20, the code at a failing input: when `listDocs` resolves with no document,
`findDocByName('budget')` evaluates to `undefined`, which is not `null`. -/
theorem findDocByName_no_match (toLowerCase : JSString → JSString) :
    findDocByName toLowerCase [] (utf16 "budget") = Lookup.undefined ∧
      findDocByName toLowerCase [] (utf16 "budget") ≠ Lookup.null := by
  constructor
  · rfl
  · intro h
    cases h


/-! ## An untrimmed chunk at the ceiling of the uploaders -/

theorem indented_letters_lastSpaceAt :
    LastSpaceAt (SP :: List.replicate 4001 97) 4000 0 := by
  refine ⟨by decide, List.getElem?_cons_zero, ?_⟩
  intro j hj1 hj2
  obtain ⟨k, rfl⟩ : ∃ k, j = k + 1 := ⟨j - 1, by omega⟩
  have hk : k < 4001 := by
    have : (4000 : Int).toNat = 4000 := rfl
    omega
  rw [List.getElem?_cons_succ, List.getElem?_replicate, if_pos hk]
  decide

/-- A line of one space and 4001 letters is cut after 4000 code units, and the first
part keeps the space. -/
theorem splitLongLine_indented_letters :
    splitLongLine (SP :: List.replicate 4001 97) 4000
      = some [SP :: List.replicate 3999 97, List.replicate 2 97] := by
  have hlen : (SP :: List.replicate 4001 97).length = 4002 := by
    rw [List.length_cons, List.length_replicate]
  have hsp : splitPoint (SP :: List.replicate 4001 97) 4000 = 4000 := by
    rw [splitPoint_of_lastSpaceAt _ _ 0 indented_letters_lastSpaceAt,
      aboveThreshold_of_lt _ _ (by decide) (by decide) (by decide)]
    rfl
  have htake : List.take 4000 (SP :: List.replicate 4001 97) = SP :: List.replicate 3999 97 := by
    show List.take (3999 + 1) (SP :: List.replicate 4001 97) = _
    rw [List.take_succ_cons, List.take_replicate]
    rfl
  have hdrop : List.drop 4000 (SP :: List.replicate 4001 97) = List.replicate 2 97 := by
    show List.drop (3999 + 1) (SP :: List.replicate 4001 97) = _
    rw [List.drop_succ_cons, List.drop_replicate]
  rw [splitLongLine, splitLongLineLoop_step _ _ _ [] (Nat.succ_pos _) (by rw [hlen]; decide), hsp]
  have h4000 : (4000 : Int).toNat = 4000 := rfl
  simp only [substringFrom, substringTo, h4000, htake, hdrop, List.nil_append]
  rw [trim_of_no_whiteSpace _ (letters_no_whiteSpace 2),
    splitLongLineLoop_exit _ _ _ _ (by rw [hlen]; decide) (by decide)]
  rfl

theorem letters_ne_nil (n : Nat) : ¬ List.replicate (n + 1) 97 = [] := by
  rw [List.replicate_succ]
  exact List.cons_ne_nil _ _

/-- The chunks of a content that is one line longer than the ceiling: the parts of
the line, the last one trimmed. -/
theorem splitContent_single_long_line (content : JSString) (maxSize : Int)
    (parts : List JSString) (last : JSString) (hNL : NL ∉ content)
    (hlong : maxSize < (content.length : Int))
    (hsplit : splitLongLine content maxSize = some parts)
    (hlast : parts.getLast? = some last) :
    splitContent content maxSize
      = some (if trim last ≠ [] then parts.dropLast ++ [trim last] else parts.dropLast) := by
  have hover : maxSize < (([] : JSString).length : Int) + (content.length : Int) + 1 := by
    simp only [List.length_nil, Nat.cast_zero]
    omega
  unfold splitContent
  rw [splitLines_of_no_NL content hNL]
  unfold splitContentLoop
  rw [if_pos hover]
  simp only [hlong, if_true, hsplit, hlast, trim_nil, ne_eq, not_true_eq_false, if_false,
    splitContentLoop, List.nil_append]
  split <;> rfl

/-- The chunks of one space followed by 4001 letters. -/
theorem splitContent_indented_letters :
    splitContent (SP :: List.replicate 4001 97) CHUNK_SIZE
      = some [SP :: List.replicate 3999 97, List.replicate 2 97] := by
  have hNL : NL ∉ SP :: List.replicate 4001 97 := by
    intro hm
    rcases List.mem_cons.mp hm with h | h
    · exact absurd h (by decide)
    · exact absurd (List.eq_of_mem_replicate h) (by decide)
  have hlen : CHUNK_SIZE < ((SP :: List.replicate 4001 97).length : Int) := by
    rw [List.length_cons, List.length_replicate]
    decide
  rw [splitContent_single_long_line (SP :: List.replicate 4001 97) CHUNK_SIZE
    [SP :: List.replicate 3999 97, List.replicate 2 97] (List.replicate 2 97) hNL hlen
    splitLongLine_indented_letters rfl,
    trim_of_no_whiteSpace _ (letters_no_whiteSpace 2), if_pos (letters_ne_nil 1)]
  rfl

theorem trim_ne_of_leading_space (s : JSString) : trim (SP :: s) ≠ SP :: s := by
  intro h
  have := trim_head (SP :: s) SP (by rw [h]; rfl)
  simp [isWhiteSpace, SP] at this

/-- Claim C12, the code at two failing inputs: with ceiling 2 the text `   a` is split
into a chunk of two spaces and the chunk `a`; with the ceiling 4000 of the uploaders,
one space followed by 4001 letters is split into a chunk that starts with the space
and the chunk `aa`. In both, the first chunk is a part of a long line, which goes
into the result untrimmed, and it differs from its trimmed form. -/
theorem untrimmed_chunk :
    (splitContent (utf16 "   a") 2 = some [utf16 "  ", utf16 "a"] ∧
      trim (utf16 "  ") ≠ utf16 "  ") ∧
    (splitContent (SP :: List.replicate 4001 97) CHUNK_SIZE
        = some [SP :: List.replicate 3999 97, List.replicate 2 97] ∧
      trim (SP :: List.replicate 3999 97) ≠ SP :: List.replicate 3999 97) :=
  ⟨by decide, splitContent_indented_letters, trim_ne_of_leading_space _⟩


/-! ## The write of the example server -/

/-- With content and a created page, the example server makes one write call, whose
first argument is the page id and whose second argument is the document id. -/
theorem createPageForMCP_writes (create : CreatePrimitive) (write : WritePrimitive)
    (docId name content subtitle id : JSString) (prior : List WriteCall)
    (hcontent : content ≠ [])
    (hcreate : create docId ⟨name, if subtitle ≠ [] then some subtitle else none⟩
      = Except.ok id) :
    writesOf (createPageForMCP create write docId name content subtitle prior).1
      = [⟨id, docId, content, utf16 "replace", utf16 "markdown"⟩] := by
  unfold createPageForMCP
  simp only [hcreate, hcontent, ne_eq, not_false_eq_true, if_true]
  split <;> rfl

/-- Claim C21, the code at a failing input: for the document `D1`, on which
`createPage` resolves with the page id `P1`, and the content `hi`,
`createPageForMCP` calls `updatePageContent` with `P1` in the place of the document
id and `D1` in the place of the page id, so the request goes to `/docs/P1/pages/D1`
and not to `/docs/D1/pages/P1`. -/
theorem example_server_swaps_ids :
    writesOf (createPageForMCP (createWithId (utf16 "P1")) succeedAlways (utf16 "D1")
        (utf16 "Notes") (utf16 "hi") (utf16 "") []).1
      = [⟨utf16 "P1", utf16 "D1", utf16 "hi", utf16 "replace", utf16 "markdown"⟩] ∧
    updatePageContentEndpoint
        ⟨utf16 "P1", utf16 "D1", utf16 "hi", utf16 "replace", utf16 "markdown"⟩
      = utf16 "/docs/P1/pages/D1" ∧
    utf16 "/docs/P1/pages/D1" ≠ utf16 "/docs/D1/pages/P1" := by
  decide

/-! ## More claims about `splitContent` -/

/-- Claim C22: for every text and every ceiling above zero, `splitContent` returns
chunks whose concatenation in order, with every whitespace code unit deleted, is the
text with every whitespace code unit deleted. -/
theorem only_whitespace_lost (content : JSString) (maxSize : Int) (hM : 0 < maxSize) :
    ∃ chunks, splitContent content maxSize = some chunks ∧
      removeWhiteSpace chunks.flatten = removeWhiteSpace content := by
  obtain ⟨chunks, hsplit, _, hws⟩ := splitContent_spec content maxSize hM
  exact ⟨chunks, hsplit, hws⟩

/-- Claim C22 at the text ` ab \n\n cd ef` and ceiling 4. -/
theorem only_whitespace_lost_witness :
    (0 : Int) < 4 ∧
      ∃ chunks, splitContent (utf16 " ab \n\n cd ef") 4 = some chunks ∧
        removeWhiteSpace chunks.flatten = removeWhiteSpace (utf16 " ab \n\n cd ef") :=
  ⟨by decide, only_whitespace_lost (utf16 " ab \n\n cd ef") 4 (by decide)⟩

/-- Claim C24: for every ceiling above zero and every non-empty text without leading
or trailing whitespace that is no longer than the ceiling, `splitContent` returns
the text as its only chunk; in particular every chunk of any split that equals its
trimmed form and is no longer than the ceiling is returned as the only chunk when
split again. -/
theorem fast_path_on_trimmed (content : JSString) (maxSize : Int) (_hM : 0 < maxSize)
    (htrimmed : Trimmed content) (hlen : (content.length : Int) ≤ maxSize) :
    splitContent content maxSize = some [content] ∧
      ∀ (source : JSString) (ceiling : Int) (chunks : List JSString), 0 < ceiling →
        splitContent source ceiling = some chunks →
        ∀ c ∈ chunks, trim c = c → (c.length : Int) ≤ maxSize →
          splitContent c maxSize = some [c] := by
  have hfast : ∀ t : JSString, Trimmed t → (t.length : Int) ≤ maxSize →
      splitContent t maxSize = some [t] := by
    intro t ht hl
    rw [splitContent_of_length_le t maxSize hl, ht.2, if_pos ht.1]
  refine ⟨hfast content htrimmed hlen, ?_⟩
  intro source ceiling chunks hc hsplit c hmem htrim hl
  exact hfast c ⟨splitContent_ne_nil source ceiling hc chunks hsplit c hmem, htrim⟩ hl

/-- Claim C24 at the text `ab\ncd` and ceiling 5. -/
theorem fast_path_on_trimmed_witness :
    ((0 : Int) < 5 ∧ Trimmed (utf16 "ab\ncd") ∧ ((utf16 "ab\ncd").length : Int) ≤ 5) ∧
      (splitContent (utf16 "ab\ncd") 5 = some [utf16 "ab\ncd"] ∧
        ∀ (source : JSString) (ceiling : Int) (chunks : List JSString), 0 < ceiling →
          splitContent source ceiling = some chunks →
          ∀ c ∈ chunks, trim c = c → (c.length : Int) ≤ 5 →
            splitContent c 5 = some [c]) :=
  ⟨by decide, fast_path_on_trimmed (utf16 "ab\ncd") 5 (by decide) (by decide) (by decide)⟩


/-! ## The two uploaders side by side -/

/-- In mode `'replace'` the `try` block of `updatePageContent` does what
`uploadContentInChunks` does. -/
theorem updatePageContentBody_replace (write : WritePrimitive)
    (docId pageId content : JSString) (prior : List WriteCall) :
    updatePageContentBody write docId pageId content (utf16 "replace") prior
      = uploadContentInChunks write docId pageId content prior := by
  unfold updatePageContentBody uploadContentInChunks
  by_cases h : (content.length : Int) ≤ CHUNK_SIZE
  · rw [if_pos (Or.inl h), if_pos h]
  · rw [if_neg (by
      rintro (h1 | h1)
      · exact h h1
      · exact replace_ne_append h1), if_neg h]

/-- How `updatePageContent` ends, from how its `try` block ends. -/
theorem updatePageContent_thrown_iff (write : WritePrimitive)
    (docId pageId content mode : JSString) (prior : List WriteCall) :
    (∃ e, (updatePageContent write docId pageId content mode prior).2 = Outcome.thrown e) ↔
      ∃ e, (updatePageContentBody write docId pageId content mode prior).2
        = Outcome.thrown e := by
  unfold updatePageContent
  cases h : (updatePageContentBody write docId pageId content mode prior).2 with
  | returned v => simp
  | thrown e => simp
  | hangs => simp

/-- Claim C27: for every document id, page id and content and every behaviour of the
write primitive, `uploadContentInChunks` and `updatePageContent` in mode `'replace'`
cause the same events in the same order, hence the same writes (chunk, mode and
format at each position) and the same pauses, and one rejects if and only if the
other rejects. -/
theorem uploaders_equivalent (write : WritePrimitive) (docId pageId content : JSString)
    (prior : List WriteCall) :
    (uploadContentInChunks write docId pageId content prior).1
        = (updatePageContent write docId pageId content (utf16 "replace") prior).1 ∧
      writesOf (uploadContentInChunks write docId pageId content prior).1
        = writesOf (updatePageContent write docId pageId content (utf16 "replace") prior).1 ∧
      sleepsOf (uploadContentInChunks write docId pageId content prior).1
        = sleepsOf (updatePageContent write docId pageId content (utf16 "replace") prior).1 ∧
      ((∃ e, (uploadContentInChunks write docId pageId content prior).2 = Outcome.thrown e) ↔
        ∃ e, (updatePageContent write docId pageId content (utf16 "replace") prior).2
          = Outcome.thrown e) := by
  have hev : (uploadContentInChunks write docId pageId content prior).1
      = (updatePageContent write docId pageId content (utf16 "replace") prior).1 := by
    rw [updatePageContent_events, updatePageContentBody_replace]
  refine ⟨hev, by rw [hev], by rw [hev], ?_⟩
  rw [updatePageContent_thrown_iff, updatePageContentBody_replace]


/-! ## Whitespace-only content -/

/-- On a long line of whitespace only, `splitLongLine` returns one part. -/
theorem splitLongLine_of_blank (s : JSString) (maxSize : Int) (hM : 0 < maxSize)
    (hlong : maxSize < (s.length : Int)) (hblank : trim s = []) :
    splitLongLine s maxSize = some [substringTo s (splitPoint s maxSize)] := by
  have hrest : trim (substringFrom s (splitPoint s maxSize)) = [] := by
    rw [trim_eq_nil_iff] at hblank ⊢
    intro c hc
    exact hblank c (List.mem_of_mem_drop hc)
  unfold splitLongLine
  rw [splitLongLineLoop_step maxSize _ s [] (Nat.succ_pos _) hlong, hrest]
  rw [splitLongLineLoop_exit maxSize _ [] _ (by omega) (by
    simp only [List.length_nil, Nat.cast_zero]
    omega)]
  simp

/-- On lines of whitespace only, the loop of `splitContent` saves no chunk and ends
with a current chunk of whitespace only. -/
theorem splitContentLoop_blank (maxSize : Int) (hM : 0 < maxSize) :
    ∀ (lines chunks : List JSString) (currentChunk : JSString),
      (∀ l ∈ lines, trim l = []) → trim currentChunk = [] →
      ∃ last, splitContentLoop maxSize lines chunks currentChunk = some (chunks, last) ∧
        trim last = [] := by
  intro lines
  induction lines with
  | nil =>
    intro chunks currentChunk _ hcur
    exact ⟨currentChunk, rfl, hcur⟩
  | cons line rest ih =>
    intro chunks currentChunk hlines hcur
    have hline : trim line = [] := hlines line (List.mem_cons_self _ _)
    have hrest : ∀ l ∈ rest, trim l = [] := fun l hl => hlines l (List.mem_cons_of_mem _ hl)
    rw [splitContentLoop]
    by_cases hover : maxSize < (currentChunk.length : Int) + (line.length : Int) + 1
    · rw [if_pos hover]
      simp only [hcur, ne_eq, not_true_eq_false, if_false]
      by_cases hlong : maxSize < (line.length : Int)
      · rw [if_pos hlong, splitLongLine_of_blank line maxSize hM hlong hline]
        simp only [List.getLast?_singleton, List.dropLast_single, List.append_nil]
        refine ih chunks _ hrest ?_
        rw [trim_eq_nil_iff] at hline ⊢
        intro c hc
        exact hline c (List.mem_of_mem_take hc)
      · rw [if_neg hlong]
        exact ih chunks line hrest hline
    · rw [if_neg hover]
      refine ih chunks _ hrest ?_
      rw [trim_eq_nil_iff] at hcur hline ⊢
      intro c hc
      rcases List.mem_append.mp hc with hc | hc
      · rcases List.mem_append.mp hc with hc | hc
        · exact hcur c hc
        · split at hc
          · rw [List.mem_singleton.mp hc]
            rfl
          · simp at hc
      · exact hline c hc

/-- A content of whitespace only makes no chunk. -/
theorem splitContent_of_blank (content : JSString) (maxSize : Int) (hM : 0 < maxSize)
    (hblank : ∀ c ∈ content, isWhiteSpace c = true) :
    splitContent content maxSize = some [] := by
  have hlines : ∀ l ∈ splitLines content, trim l = [] := by
    rw [blank_lines_iff, removeWhiteSpace_eq_nil_iff, trim_eq_nil_iff]
    exact hblank
  obtain ⟨last, hloop, hlast⟩ :=
    splitContentLoop_blank maxSize hM (splitLines content) [] [] hlines trim_nil
  unfold splitContent
  rw [hloop]
  simp [hlast]

/-- Claim C25: for every text and every ceiling above zero, `splitContent` returns,
and what it returns is the empty sequence if and only if every code unit of the text
is whitespace (which holds of the empty text). -/
theorem empty_result_iff_blank (content : JSString) (maxSize : Int) (hM : 0 < maxSize) :
    ∃ chunks, splitContent content maxSize = some chunks ∧
      (chunks = [] ↔ ∀ c ∈ content, isWhiteSpace c = true) := by
  obtain ⟨chunks, hsplit, _, hws⟩ := splitContent_spec content maxSize hM
  refine ⟨chunks, hsplit, ?_, ?_⟩
  · intro hnil
    rw [hnil] at hws
    rw [← trim_eq_nil_iff, ← removeWhiteSpace_eq_nil_iff, ← hws]
    rfl
  · intro hblank
    have h := splitContent_of_blank content maxSize hM hblank
    rw [hsplit] at h
    exact Option.some.inj h

/-- Claim C25 at the text of a space, a line break and a tab, with ceiling 2. -/
theorem empty_result_iff_blank_witness :
    (0 : Int) < 2 ∧
      ∃ chunks, splitContent (utf16 " \n\t") 2 = some chunks ∧
        (chunks = [] ↔ ∀ c ∈ utf16 " \n\t", isWhiteSpace c = true) :=
  ⟨by decide, empty_result_iff_blank (utf16 " \n\t") 2 (by decide)⟩


/-! ## The method named in the success text of `updatePageContent` -/

/-- The success text names the method `Chunked upload` when the content is longer
than `CHUNK_SIZE` and the mode is `'replace'`. -/
theorem updateSuccessText_chunked (pageId content : JSString)
    (hlen : CHUNK_SIZE < (content.length : Int)) :
    utf16 "• **Method**: Chunked upload\n" <:+:
      updateSuccessText pageId content (utf16 "replace") := by
  have hcat : utf16 "• **Method**: Chunked upload\n"
      = utf16 "• **Method**: " ++ utf16 "Chunked upload" ++ utf16 "\n" := by decide
  unfold updateSuccessText
  rw [if_pos ⟨hlen, rfl⟩, hcat]
  refine ⟨utf16 "✅ **Page content updated successfully!**\n\n" ++
    utf16 "• **Page ID**: " ++ pageId ++ utf16 "\n" ++
    utf16 "• **Mode**: " ++ utf16 "replace" ++ utf16 "\n" ++
    utf16 "• **Content Length**: " ++ numberToString content.length ++
    utf16 " characters\n", utf16 "• **Status**: Content updated successfully", ?_⟩
  simp only [List.append_assoc]

/-- The success text names the method `Direct upload` otherwise. -/
theorem updateSuccessText_direct (pageId content mode : JSString)
    (h : ¬ (CHUNK_SIZE < (content.length : Int) ∧ mode = utf16 "replace")) :
    utf16 "• **Method**: Direct upload\n" <:+: updateSuccessText pageId content mode := by
  have hcat : utf16 "• **Method**: Direct upload\n"
      = utf16 "• **Method**: " ++ utf16 "Direct upload" ++ utf16 "\n" := by decide
  unfold updateSuccessText
  rw [if_neg h, hcat]
  refine ⟨utf16 "✅ **Page content updated successfully!**\n\n" ++
    utf16 "• **Page ID**: " ++ pageId ++ utf16 "\n" ++
    utf16 "• **Mode**: " ++ mode ++ utf16 "\n" ++
    utf16 "• **Content Length**: " ++ numberToString content.length ++
    utf16 " characters\n", utf16 "• **Status**: Content updated successfully", ?_⟩
  simp only [List.append_assoc]

/-- The success text ends with the status line. -/
theorem updateSuccessText_status (pageId content mode : JSString) :
    utf16 "Content updated successfully" <:+: updateSuccessText pageId content mode := by
  have hcat : utf16 "• **Status**: Content updated successfully"
      = utf16 "• **Status**: " ++ utf16 "Content updated successfully" := by decide
  unfold updateSuccessText
  rw [hcat]
  refine ⟨utf16 "✅ **Page content updated successfully!**\n\n" ++
    utf16 "• **Page ID**: " ++ pageId ++ utf16 "\n" ++
    utf16 "• **Mode**: " ++ mode ++ utf16 "\n" ++
    utf16 "• **Content Length**: " ++ numberToString content.length ++
    utf16 " characters\n" ++
    utf16 "• **Method**: " ++
      (if CHUNK_SIZE < (content.length : Int) ∧ mode = utf16 "replace"
        then utf16 "Chunked upload" else utf16 "Direct upload") ++ utf16 "\n" ++
    utf16 "• **Status**: ", [], ?_⟩
  simp only [List.append_assoc, List.append_nil]

/-- The success text depends on the content through its length only. -/
theorem updateSuccessText_of_length (pageId content mode : JSString) (n : Nat)
    (hn : content.length = n) :
    updateSuccessText pageId content mode
      = utf16 "✅ **Page content updated successfully!**\n\n" ++
        utf16 "• **Page ID**: " ++ pageId ++ utf16 "\n" ++
        utf16 "• **Mode**: " ++ mode ++ utf16 "\n" ++
        utf16 "• **Content Length**: " ++ numberToString n ++ utf16 " characters\n" ++
        utf16 "• **Method**: " ++
          (if CHUNK_SIZE < (n : Int) ∧ mode = utf16 "replace"
            then utf16 "Chunked upload" else utf16 "Direct upload") ++ utf16 "\n" ++
        utf16 "• **Status**: Content updated successfully" := by
  subst hn
  rfl

/-- Claim C26: for every content longer than 4000 code units that consists of
whitespace only, whatever the write primitive does, `updatePageContent` in mode
`'replace'` causes no event at all, so no write, and resolves with its success text,
which names the method `Chunked upload` and the status
`Content updated successfully`. -/
theorem blank_oversized_replace_writes_nothing (write : WritePrimitive)
    (docId pageId content : JSString) (prior : List WriteCall)
    (hlen : CHUNK_SIZE < (content.length : Int))
    (hblank : ∀ c ∈ content, isWhiteSpace c = true) :
    (updatePageContent write docId pageId content (utf16 "replace") prior).1 = [] ∧
      writesOf (updatePageContent write docId pageId content (utf16 "replace") prior).1
        = [] ∧
      (updatePageContent write docId pageId content (utf16 "replace") prior).2
        = Outcome.returned (updateSuccessText pageId content (utf16 "replace")) ∧
      utf16 "• **Method**: Chunked upload\n" <:+:
        updateSuccessText pageId content (utf16 "replace") ∧
      utf16 "Content updated successfully" <:+:
        updateSuccessText pageId content (utf16 "replace") := by
  have hchunks : chunksOf content = [] := by
    unfold chunksOf
    rw [splitContent_of_blank content CHUNK_SIZE (by decide) hblank]
    rfl
  have hbody : updatePageContentBody write docId pageId content (utf16 "replace") prior
      = ([], Outcome.returned ()) := by
    rw [updatePageContentBody_chunked write docId pageId content _ prior hlen
      replace_ne_append, hchunks]
    rfl
  have hev : (updatePageContent write docId pageId content (utf16 "replace") prior).1
      = [] := by
    rw [updatePageContent_events, hbody]
  refine ⟨hev, by rw [hev]; rfl, ?_, updateSuccessText_chunked pageId content hlen,
    updateSuccessText_status pageId content _⟩
  exact updatePageContent_returned write docId pageId content _ prior (by rw [hbody])

/-- Claim C26 at a content of 4001 spaces, with a write primitive that would reject
its first call. -/
theorem blank_oversized_replace_writes_nothing_witness :
    (CHUNK_SIZE < ((List.replicate 4001 SP).length : Int) ∧
      ∀ c ∈ List.replicate 4001 SP, isWhiteSpace c = true) ∧
    (updatePageContent (failOnCall 1 ⟨utf16 "503"⟩) (utf16 "D1") (utf16 "P1")
        (List.replicate 4001 SP) (utf16 "replace") []).1 = [] :=
  ⟨⟨by rw [List.length_replicate]; decide,
      fun c hc => by rw [List.eq_of_mem_replicate hc]; rfl⟩,
    (blank_oversized_replace_writes_nothing (failOnCall 1 ⟨utf16 "503"⟩) (utf16 "D1")
      (utf16 "P1") (List.replicate 4001 SP) []
      (by rw [List.length_replicate]; decide)
      (fun c hc => by rw [List.eq_of_mem_replicate hc]; rfl)).1⟩

/-- For the modes `'replace'` and `'append'` the method named in the success text is
`Chunked upload` exactly when `updatePageContent` takes its split-and-loop branch. -/
theorem method_matches_for_known_modes (write : WritePrimitive)
    (docId pageId content mode : JSString) (prior : List WriteCall)
    (hmode : mode = utf16 "replace" ∨ mode = utf16 "append") :
    ((CHUNK_SIZE < (content.length : Int) ∧ mode = utf16 "replace") →
        updatePageContentBody write docId pageId content mode prior
          = uploadLoop write docId pageId 0 (chunksOf content) prior) ∧
      (¬ (CHUNK_SIZE < (content.length : Int) ∧ mode = utf16 "replace") →
        updatePageContentBody write docId pageId content mode prior
          = writeOnce write ⟨docId, pageId, content, mode, utf16 "markdown"⟩ prior) := by
  constructor
  · rintro ⟨hlen, hm⟩
    exact updatePageContentBody_chunked write docId pageId content mode prior hlen
      (by rw [hm]; exact replace_ne_append)
  · intro h
    refine updatePageContentBody_direct write docId pageId content mode prior ?_
    rcases hmode with hm | hm
    · left
      by_contra hlen
      exact h ⟨by omega, hm⟩
    · exact Or.inr hm

/-- Claim C28, the code at a failing input: with a write primitive that resolves
every call, `updatePageContent` on a content of 4001 letters `a` in the mode
`'prepend'` takes the split-and-loop branch, writes at least two chunks in the modes
`'replace'` and `'append'` of the loop, and resolves with a text whose method line
reads `Direct upload`. -/
theorem method_misreported_for_other_mode :
    updatePageContentBody succeedAlways (utf16 "D1") (utf16 "P1") (List.replicate 4001 97)
        (utf16 "prepend") []
      = uploadLoop succeedAlways (utf16 "D1") (utf16 "P1") 0
          (chunksOf (List.replicate 4001 97)) [] ∧
    writesOf (updatePageContent succeedAlways (utf16 "D1") (utf16 "P1")
        (List.replicate 4001 97) (utf16 "prepend") []).1
      = uploadPlan (utf16 "D1") (utf16 "P1") 0 (chunksOf (List.replicate 4001 97)) ∧
    2 ≤ (chunksOf (List.replicate 4001 97)).length ∧
    (updatePageContent succeedAlways (utf16 "D1") (utf16 "P1")
        (List.replicate 4001 97) (utf16 "prepend") []).2
      = Outcome.returned (utf16 "✅ **Page content updated successfully!**\n\n" ++
          utf16 "• **Page ID**: " ++ utf16 "P1" ++ utf16 "\n" ++
          utf16 "• **Mode**: " ++ utf16 "prepend" ++ utf16 "\n" ++
          utf16 "• **Content Length**: " ++ utf16 "4001" ++ utf16 " characters\n" ++
          utf16 "• **Method**: " ++ utf16 "Direct upload" ++ utf16 "\n" ++
          utf16 "• **Status**: Content updated successfully") := by
  have hnum : numberToString 4001 = utf16 "4001" := by decide
  have hmethod : (if CHUNK_SIZE < ((4001 : Nat) : Int) ∧ utf16 "prepend" = utf16 "replace"
      then utf16 "Chunked upload" else utf16 "Direct upload") = utf16 "Direct upload" := by
    decide
  have hbody := updatePageContentBody_chunked succeedAlways (utf16 "D1") (utf16 "P1")
    (List.replicate 4001 97) (utf16 "prepend") [] letters_length (by decide)
  have hloop := uploadLoop_of_succeed succeedAlways (utf16 "D1") (utf16 "P1")
    (chunksOf (List.replicate 4001 97)) 0 [] (writesSucceed_succeedAlways _ _)
  refine ⟨hbody, ?_, two_le_chunksOf_letters, ?_⟩
  · rw [updatePageContent_events, hbody]
    exact hloop.1
  · rw [updatePageContent_returned succeedAlways (utf16 "D1") (utf16 "P1") _ _ []
      (by rw [hbody]; exact hloop.2),
      updateSuccessText_of_length (utf16 "P1") _ (utf16 "prepend") 4001
        (List.length_replicate _ _), hnum, hmethod]


/-! ## Lines without leading or trailing whitespace -/

/-- A string that equals its trimmed form does not start with whitespace. -/
theorem trimmed_head (s : JSString) (h : Trimmed s) (c : Nat) (hc : s.head? = some c) :
    isWhiteSpace c = false := by
  rw [← h.2] at hc
  exact trim_head s c hc

/-- A string that equals its trimmed form does not end in whitespace. -/
theorem trimmed_ends (s : JSString) (h : trim s = s) : endsInWhiteSpace s = false := by
  by_cases hne : s = []
  · rw [hne]
    rfl
  · have hpre : s <+: s.dropWhile isWhiteSpace := by
      have := List.rdropWhile_prefix isWhiteSpace (s.dropWhile isWhiteSpace)
      unfold trim at h
      rwa [h] at this
    have hsuf : s.dropWhile isWhiteSpace <:+ s := List.dropWhile_suffix isWhiteSpace
    have hd : s.dropWhile isWhiteSpace = s :=
      (hpre.eq_of_length (le_antisymm hpre.length_le hsuf.length_le)).symm
    have hr : s.rdropWhile isWhiteSpace = s := by
      unfold trim at h
      rwa [hd] at h
    have hlast := List.rdropWhile_eq_self_iff.mp hr hne
    unfold endsInWhiteSpace
    rw [List.getLast?_eq_getLast _ hne]
    simpa using hlast

/-- A non-empty string that neither starts nor ends with whitespace equals its
trimmed form. -/
theorem trimmed_of_ends (s : JSString) (hne : s ≠ [])
    (hhead : ∀ c, s.head? = some c → isWhiteSpace c = false)
    (hend : endsInWhiteSpace s = false) : Trimmed s := by
  refine ⟨hne, ?_⟩
  rw [trim_of_endsClean s hend]
  cases s with
  | nil => rfl
  | cons x xs =>
    have := hhead x rfl
    simp [List.dropWhile_cons, this]

/-- Two trimmed strings with anything between them make a trimmed string. -/
theorem trimmed_append (a mid b : JSString) (ha : Trimmed a) (hb : Trimmed b) :
    Trimmed (a ++ mid ++ b) := by
  obtain ⟨x, xs, rfl⟩ := List.exists_cons_of_ne_nil ha.1
  refine trimmed_of_ends _ (by simp) ?_ ?_
  · intro c hc
    exact trimmed_head _ ha c (by simpa using hc)
  · rw [← endsInWhiteSpace_of_suffix (x :: xs ++ mid ++ b) b ( List.suffix_append _ _) hb.1]
    exact trimmed_ends b hb.2

theorem joinLines_concat (g : List JSString) (s : JSString) :
    joinLines (g ++ [s]) = joinLines g ++ (if joinLines g ≠ [] then [NL] else []) ++ s
      ∨ (g ≠ [] ∧ joinLines g = [] ∧ joinLines (g ++ [s]) = joinLines g ++ [NL] ++ s) := by
  cases g with
  | nil => left; simp [joinLines]
  | cons l ls =>
    have h : joinLines (l :: ls ++ [s]) = joinLines (l :: ls) ++ [NL] ++ s := by
      rw [List.cons_append, joinLines_cons, joinLines_cons]
      simp
    by_cases hnil : joinLines (l :: ls) = []
    · right
      exact ⟨by simp, hnil, h⟩
    · left
      rw [h, if_pos hnil]

theorem joinLines_append (a b : List JSString) (ha : a ≠ []) (hb : b ≠ []) :
    joinLines (a ++ b) = joinLines a ++ NL :: joinLines b := by
  obtain ⟨l, ls, rfl⟩ := List.exists_cons_of_ne_nil ha
  obtain ⟨m, ms, rfl⟩ := List.exists_cons_of_ne_nil hb
  rw [List.cons_append, joinLines_cons, joinLines_cons, joinLines_cons]
  simp

/-- Joining trimmed lines gives a trimmed string. -/
theorem joinLines_trimmed : ∀ (g : List JSString), g ≠ [] → (∀ l ∈ g, Trimmed l) →
    Trimmed (joinLines g) := by
  intro g
  induction g with
  | nil => intro h; exact absurd rfl h
  | cons l ls ih =>
    intro _ hall
    by_cases hls : ls = []
    · rw [hls]
      exact hall l (List.mem_cons_self _ _)
    · have hl := hall l (List.mem_cons_self _ _)
      have hrest := ih hls (fun x hx => hall x (List.mem_cons_of_mem _ hx))
      have hjoin : joinLines (l :: ls) = l ++ [NL] ++ joinLines ls := by
        obtain ⟨m, ms, rfl⟩ := List.exists_cons_of_ne_nil hls
        simp [joinLines]
      rw [hjoin]
      exact trimmed_append l [NL] _ hl hrest

/-- Joining the joined groups is joining all their lines. -/
theorem joinLines_map_joinLines : ∀ (groups : List (List JSString)),
    (∀ g ∈ groups, g ≠ []) → joinLines (groups.map joinLines) = joinLines groups.flatten := by
  intro groups
  induction groups with
  | nil => intro _; rfl
  | cons g rest ih =>
    intro hall
    have hg := hall g (List.mem_cons_self _ _)
    have hrest := fun x hx => hall x (List.mem_cons_of_mem _ hx)
    cases rest with
    | nil => simp [joinLines]
    | cons g2 rest2 =>
      have hne : (g2 :: rest2).flatten ≠ [] := by
        have hg2 := hall g2 (List.mem_cons_of_mem _ (List.mem_cons_self _ _))
        simp [hg2]
      rw [List.flatten_cons, joinLines_append g _ hg hne, ← ih hrest]
      simp [joinLines]

/-- On trimmed lines that fit the ceiling, the loop of `splitContent` keeps whole
lines: with a current chunk that joins the lines `g`, it saves joined groups of
consecutive lines and ends with the joined last group. -/
theorem splitContentLoop_clean (maxSize : Int) :
    ∀ (lines chunks : List JSString) (g : List JSString),
      (∀ l ∈ lines, Trimmed l ∧ (l.length : Int) ≤ maxSize) → (∀ l ∈ g, Trimmed l) →
      ∃ (gs : List (List JSString)) (glast : List JSString),
        splitContentLoop maxSize lines chunks (joinLines g)
            = some (chunks ++ gs.map joinLines, joinLines glast) ∧
          gs.flatten ++ glast = g ++ lines ∧ (∀ x ∈ gs, x ≠ []) ∧
          (∀ l ∈ glast, Trimmed l) ∧ (g ≠ [] ∨ lines ≠ [] → glast ≠ []) := by
  intro lines
  induction lines with
  | nil =>
    intro chunks g _ hg
    exact ⟨[], g, by simp [splitContentLoop], by simp, by simp, hg, by simp⟩
  | cons line rest ih =>
    intro chunks g hlines hg
    have hline := hlines line (List.mem_cons_self _ _)
    have hrest : ∀ l ∈ rest, Trimmed l ∧ (l.length : Int) ≤ maxSize :=
      fun l hl => hlines l (List.mem_cons_of_mem _ hl)
    rw [splitContentLoop]
    by_cases hover : maxSize < ((joinLines g).length : Int) + (line.length : Int) + 1
    · rw [if_pos hover, if_neg (not_lt.mpr hline.2)]
      obtain ⟨gs, glast, hloop, hflat, hgs, hglast, hne⟩ :=
        ih (if trim (joinLines g) ≠ [] then chunks ++ [trim (joinLines g)] else chunks)
          [line] hrest (by
            intro l hl
            rw [List.mem_singleton.mp hl]
            exact hline.1)
      have hone : joinLines [line] = line := rfl
      rw [hone] at hloop
      rw [hloop]
      by_cases hgne : g = []
      · refine ⟨gs, glast, ?_, ?_, hgs, hglast, fun _ => hne (Or.inl (by simp))⟩
        · rw [hgne]
          simp [joinLines, trim_nil]
        · rw [hflat, hgne]
          rfl
      · have htr := joinLines_trimmed g hgne hg
        refine ⟨g :: gs, glast, ?_, ?_, ?_, hglast, fun _ => hne (Or.inl (by simp))⟩
        · rw [htr.2, if_pos htr.1]
          simp
        · rw [List.flatten_cons, List.append_assoc, hflat]
          rfl
        · intro x hx
          rcases List.mem_cons.mp hx with rfl | hx
          · exact hgne
          · exact hgs x hx
    · rw [if_neg hover]
      have hcur : joinLines g ++ (if joinLines g ≠ [] then [NL] else []) ++ line
          = joinLines (g ++ [line]) := by
        rcases joinLines_concat g line with h | ⟨hgne, hnil, _⟩
        · exact h.symm
        · exact absurd hnil (joinLines_trimmed g hgne hg).1
      rw [hcur]
      obtain ⟨gs, glast, hloop, hflat, hgs, hglast, hne⟩ :=
        ih chunks (g ++ [line]) hrest (by
          intro l hl
          rcases List.mem_append.mp hl with hl | hl
          · exact hg l hl
          · rw [List.mem_singleton.mp hl]
            exact hline.1)
      refine ⟨gs, glast, hloop, ?_, hgs, hglast, fun _ => hne (Or.inl (by simp))⟩
      rw [hflat]
      simp

/-- Claim C23: for every ceiling above zero and every text whose lines are all
non-empty, without leading or trailing whitespace and no longer than the ceiling,
`splitContent` returns chunks that joined with line breaks give exactly the text,
and the chunks are the joined groups of a division of the lines of the text into
non-empty runs of consecutive lines. -/
theorem clean_lines_round_trip (content : JSString) (maxSize : Int) (_hM : 0 < maxSize)
    (hclean : ∀ l ∈ splitLines content, Trimmed l ∧ (l.length : Int) ≤ maxSize) :
    ∃ chunks, splitContent content maxSize = some chunks ∧ joinLines chunks = content ∧
      ∃ groups : List (List JSString), groups.flatten = splitLines content ∧
        (∀ g ∈ groups, g ≠ []) ∧ chunks = groups.map joinLines := by
  obtain ⟨gs, glast, hloop, hflat, hgs, hglast, hne⟩ :=
    splitContentLoop_clean maxSize (splitLines content) [] [] hclean (by simp)
  have hlastne : glast ≠ [] := hne (Or.inr (splitLines_ne_nil content))
  have htr := joinLines_trimmed glast hlastne hglast
  have hgroups : ∀ g ∈ gs ++ [glast], g ≠ [] := by
    intro g hg
    rcases List.mem_append.mp hg with hg | hg
    · exact hgs g hg
    · rw [List.mem_singleton.mp hg]
      exact hlastne
  have hflat2 : (gs ++ [glast]).flatten = splitLines content := by
    rw [List.flatten_append]
    simpa using hflat
  have hone : joinLines ([] : List JSString) = [] := rfl
  rw [hone] at hloop
  refine ⟨(gs ++ [glast]).map joinLines, ?_, ?_, gs ++ [glast], hflat2, hgroups, rfl⟩
  · unfold splitContent
    rw [hloop]
    simp only [htr.2, List.nil_append]
    rw [if_pos htr.1]
    simp
  · rw [joinLines_map_joinLines _ hgroups, hflat2, joinLines_splitLines]

/-- Claim C23 at the text `ab\ncd\nef` and ceiling 5. -/
theorem clean_lines_round_trip_witness :
    ((0 : Int) < 5 ∧
      ∀ l ∈ splitLines (utf16 "ab\ncd\nef"), Trimmed l ∧ (l.length : Int) ≤ 5) ∧
    ∃ chunks, splitContent (utf16 "ab\ncd\nef") 5 = some chunks ∧
      joinLines chunks = utf16 "ab\ncd\nef" ∧
      ∃ groups : List (List JSString), groups.flatten = splitLines (utf16 "ab\ncd\nef") ∧
        (∀ g ∈ groups, g ≠ []) ∧ chunks = groups.map joinLines :=
  ⟨⟨by decide, by decide⟩,
    clean_lines_round_trip (utf16 "ab\ncd\nef") 5 (by decide) (by decide)⟩

/-! ## Only whitespace is deleted -/

theorem deletesWhiteSpace_refl : ∀ s : JSString, DeletesWhiteSpace s s
  | [] => DeletesWhiteSpace.done
  | c :: s => DeletesWhiteSpace.keep c (deletesWhiteSpace_refl s)

theorem deletesWhiteSpace_nil_left (kept : JSString) (h : DeletesWhiteSpace [] kept) :
    kept = [] := by
  cases h
  rfl

theorem deletesWhiteSpace_trans {a b c : JSString} (hab : DeletesWhiteSpace a b) :
    DeletesWhiteSpace b c → DeletesWhiteSpace a c := by
  induction hab generalizing c with
  | done => exact fun h => h
  | keep x _ ih =>
    intro hbc
    cases hbc with
    | keep _ h => exact DeletesWhiteSpace.keep x (ih h)
    | delete _ hx h => exact DeletesWhiteSpace.delete x hx (ih h)
  | delete x hx _ ih =>
    intro hbc
    exact DeletesWhiteSpace.delete x hx (ih hbc)

theorem deletesWhiteSpace_append {a b c d : JSString} (hab : DeletesWhiteSpace a b)
    (hcd : DeletesWhiteSpace c d) : DeletesWhiteSpace (a ++ c) (b ++ d) := by
  induction hab with
  | done => exact hcd
  | keep x _ ih => exact DeletesWhiteSpace.keep x ih
  | delete x hx _ ih => exact DeletesWhiteSpace.delete x hx ih

/-- A string of whitespace only can be deleted altogether. -/
theorem deletesWhiteSpace_blank : ∀ (s : JSString), (∀ c ∈ s, isWhiteSpace c = true) →
    DeletesWhiteSpace s []
  | [], _ => DeletesWhiteSpace.done
  | c :: s, h => DeletesWhiteSpace.delete c (h c (List.mem_cons_self _ _))
      (deletesWhiteSpace_blank s (fun x hx => h x (List.mem_cons_of_mem _ hx)))

theorem deletesWhiteSpace_reverse {a b : JSString} (hab : DeletesWhiteSpace a b) :
    DeletesWhiteSpace a.reverse b.reverse := by
  induction hab with
  | done => exact DeletesWhiteSpace.done
  | keep x _ ih =>
    rw [List.reverse_cons, List.reverse_cons]
    exact deletesWhiteSpace_append ih (deletesWhiteSpace_refl [x])
  | delete x hx _ ih =>
    rw [List.reverse_cons]
    have := deletesWhiteSpace_append ih
      (DeletesWhiteSpace.delete x hx DeletesWhiteSpace.done)
    simpa using this

theorem deletesWhiteSpace_dropWhile : ∀ s : JSString,
    DeletesWhiteSpace s (s.dropWhile isWhiteSpace)
  | [] => DeletesWhiteSpace.done
  | c :: s => by
    by_cases hc : isWhiteSpace c = true
    · rw [List.dropWhile_cons_of_pos hc]
      exact DeletesWhiteSpace.delete c hc (deletesWhiteSpace_dropWhile s)
    · rw [List.dropWhile_cons_of_neg hc]
      exact deletesWhiteSpace_refl _

/-- Trimming deletes whitespace only. -/
theorem deletesWhiteSpace_trim (s : JSString) : DeletesWhiteSpace s (trim s) := by
  unfold trim
  refine deletesWhiteSpace_trans (deletesWhiteSpace_dropWhile s) ?_
  have h := deletesWhiteSpace_reverse
    (deletesWhiteSpace_dropWhile (s.dropWhile isWhiteSpace).reverse)
  rw [List.reverse_reverse] at h
  exact h

/-- Deleting whitespace only leaves the other code units as they are. -/
theorem removeWhiteSpace_of_deletes {a b : JSString} (hab : DeletesWhiteSpace a b) :
    removeWhiteSpace a = removeWhiteSpace b := by
  induction hab with
  | done => rfl
  | keep x _ ih => simp only [removeWhiteSpace, List.filter_cons] at ih ⊢; rw [ih]
  | delete x hx _ ih =>
    simp only [removeWhiteSpace, List.filter_cons] at ih ⊢
    simp [hx, ih]

/-- The separators of a join are whitespace: deleting them gives the concatenation. -/
theorem deletesWhiteSpace_joinLines : ∀ chunks : List JSString,
    DeletesWhiteSpace (joinLines chunks) chunks.flatten
  | [] => DeletesWhiteSpace.done
  | [c] => by simpa [joinLines] using deletesWhiteSpace_refl c
  | c :: d :: rest => by
    have ih := deletesWhiteSpace_joinLines (d :: rest)
    have hjoin : joinLines (c :: d :: rest) = c ++ NL :: joinLines (d :: rest) := rfl
    rw [hjoin, List.flatten_cons]
    exact deletesWhiteSpace_append (deletesWhiteSpace_refl c)
      (DeletesWhiteSpace.delete NL rfl ih)

/-- The parts that the loop of `splitLongLine` adds are `remaining` with whitespace
deleted. -/
theorem splitLongLineLoop_deletes (maxSize : Int) :
    ∀ (fuel : Nat) (remaining : JSString) (parts result : List JSString),
      splitLongLineLoop maxSize fuel remaining parts = some result →
      ∃ added, result = parts ++ added ∧ DeletesWhiteSpace remaining added.flatten := by
  intro fuel
  induction fuel with
  | zero => intro remaining parts result h; simp [splitLongLineLoop] at h
  | succ fuel ih =>
    intro remaining parts result h
    rw [splitLongLineLoop] at h
    by_cases hlong : maxSize < (remaining.length : Int)
    · rw [if_pos hlong] at h
      obtain ⟨added, hres, hdel⟩ := ih _ _ _ h
      refine ⟨substringTo remaining (splitPoint remaining maxSize) :: added, ?_, ?_⟩
      · rw [hres]
        simp
      · rw [List.flatten_cons]
        have hsplit : remaining = substringTo remaining (splitPoint remaining maxSize)
            ++ substringFrom remaining (splitPoint remaining maxSize) := by
          simp [substringTo, substringFrom]
        conv_lhs => rw [hsplit]
        exact deletesWhiteSpace_append (deletesWhiteSpace_refl _)
          (deletesWhiteSpace_trans (deletesWhiteSpace_trim _) hdel)
    · rw [if_neg hlong] at h
      by_cases hnil : remaining = []
      · rw [if_neg (by simpa using hnil)] at h
        refine ⟨[], ?_, ?_⟩
        · simpa using (Option.some.inj h).symm
        · rw [hnil]
          exact DeletesWhiteSpace.done
      · rw [if_pos hnil] at h
        refine ⟨[remaining], (Option.some.inj h).symm, ?_⟩
        simpa using deletesWhiteSpace_refl remaining

/-- A flush deletes whitespace only. -/
theorem deletesWhiteSpace_flush (currentChunk : JSString) :
    DeletesWhiteSpace currentChunk
      (if trim currentChunk ≠ [] then [trim currentChunk] else []).flatten := by
  by_cases hnil : trim currentChunk = []
  · simp only [hnil, ne_eq, not_true_eq_false, if_false, List.flatten_nil]
    exact deletesWhiteSpace_blank _ ((trim_eq_nil_iff _).mp hnil)
  · simp only [hnil, ne_eq, not_false_eq_true, if_true, List.flatten_cons, List.flatten_nil,
      List.append_nil]
    exact deletesWhiteSpace_trim _

/-- One round of the line loop of `splitContent` deletes whitespace only. -/
theorem splitContentLoop_step_deletes (maxSize : Int) (line : JSString)
    (rest chunks : List JSString) (currentChunk : JSString)
    (result : List JSString × JSString)
    (h : splitContentLoop maxSize (line :: rest) chunks currentChunk = some result) :
    ∃ chunks1 current1, splitContentLoop maxSize rest chunks1 current1 = some result ∧
      ∀ before separator : JSString, (∀ c ∈ separator, isWhiteSpace c = true) →
        (currentChunk ≠ [] → separator = [NL]) →
        DeletesWhiteSpace before (chunks.flatten ++ currentChunk) →
        DeletesWhiteSpace (before ++ separator ++ line) (chunks1.flatten ++ current1) := by
  rw [splitContentLoop] at h
  have hsaved : ∀ before : JSString,
      DeletesWhiteSpace before (chunks.flatten ++ currentChunk) →
      DeletesWhiteSpace before
        (if trim currentChunk ≠ [] then chunks ++ [trim currentChunk] else chunks).flatten := by
    intro before hbefore
    have hflat : (if trim currentChunk ≠ [] then chunks ++ [trim currentChunk]
        else chunks).flatten
        = chunks.flatten ++ (if trim currentChunk ≠ [] then [trim currentChunk]
          else []).flatten := by
      by_cases hnil : trim currentChunk = [] <;> simp [hnil]
    rw [hflat]
    exact deletesWhiteSpace_trans hbefore
      (deletesWhiteSpace_append (deletesWhiteSpace_refl _)
        (deletesWhiteSpace_flush currentChunk))
  by_cases hover : maxSize < (currentChunk.length : Int) + (line.length : Int) + 1
  · rw [if_pos hover] at h
    by_cases hlong : maxSize < (line.length : Int)
    · simp only [hlong, if_true] at h
      cases hsplit : splitLongLine line maxSize with
      | none => simp [hsplit] at h
      | some parts =>
        simp only [hsplit] at h
        cases hlast : parts.getLast? with
        | none => simp [hlast] at h
        | some last =>
          simp only [hlast] at h
          refine ⟨_, _, h, ?_⟩
          intro before separator hsep _ hbefore
          obtain ⟨added, hres, hdel⟩ := splitLongLineLoop_deletes maxSize _ line [] parts hsplit
          rw [List.nil_append] at hres
          rw [← hres] at hdel
          have hparts : parts.dropLast.flatten ++ last = parts.flatten := by
            have hne : parts ≠ [] := by
              intro hnil
              rw [hnil] at hlast
              simp at hlast
            have hl : parts.getLast hne = last := by
              rw [List.getLast?_eq_getLast _ hne] at hlast
              exact Option.some.inj hlast
            conv_rhs => rw [← List.dropLast_append_getLast hne]
            rw [hl]
            simp
          have hline : DeletesWhiteSpace (separator ++ line)
              (parts.dropLast.flatten ++ last) := by
            rw [hparts]
            have := deletesWhiteSpace_append (deletesWhiteSpace_blank separator hsep) hdel
            simpa using this
          have key := deletesWhiteSpace_append (hsaved before hbefore) hline
          simpa [List.append_assoc] using key
    · simp only [hlong, if_false] at h
      refine ⟨_, _, h, ?_⟩
      intro before separator hsep _ hbefore
      have hline : DeletesWhiteSpace (separator ++ line) line := by
        have := deletesWhiteSpace_append (deletesWhiteSpace_blank separator hsep)
          (deletesWhiteSpace_refl line)
        simpa using this
      have key := deletesWhiteSpace_append (hsaved before hbefore) hline
      simpa [List.append_assoc] using key
  · rw [if_neg hover] at h
    refine ⟨_, _, h, ?_⟩
    intro before separator hsep hnl hbefore
    have hline : DeletesWhiteSpace (separator ++ line)
        ((if currentChunk ≠ [] then [NL] else []) ++ line) := by
      by_cases hnil : currentChunk = []
      · rw [if_neg (by simpa using hnil)]
        have := deletesWhiteSpace_append (deletesWhiteSpace_blank separator hsep)
          (deletesWhiteSpace_refl line)
        simpa using this
      · rw [hnl hnil, if_pos hnil]
        exact deletesWhiteSpace_refl _
    have key := deletesWhiteSpace_append hbefore hline
    simpa [List.append_assoc] using key

/-- The line loop of `splitContent` deletes whitespace only: when the chunks and the
current chunk are a text `before` with whitespace deleted, and `separator` is what
stands between that text and the first line still to visit (nothing at the start, a
line break later), the chunks and the current chunk at the end are the whole text
with whitespace deleted. -/
theorem splitContentLoop_deletes (maxSize : Int) :
    ∀ (rest : List JSString) (line : JSString) (chunks : List JSString)
      (currentChunk : JSString) (result : List JSString × JSString)
      (before separator : JSString),
      splitContentLoop maxSize (line :: rest) chunks currentChunk = some result →
      (∀ c ∈ separator, isWhiteSpace c = true) →
      (currentChunk ≠ [] → separator = [NL]) →
      DeletesWhiteSpace before (chunks.flatten ++ currentChunk) →
      DeletesWhiteSpace (before ++ separator ++ joinLines (line :: rest))
        (result.1.flatten ++ result.2) := by
  intro rest
  induction rest with
  | nil =>
    intro line chunks currentChunk result before separator h hsep hnl hbefore
    obtain ⟨chunks1, current1, hrest, hstep⟩ :=
      splitContentLoop_step_deletes maxSize line [] chunks currentChunk result h
    simp only [splitContentLoop, Option.some.injEq] at hrest
    rw [← hrest]
    exact hstep before separator hsep hnl hbefore
  | cons next rest ih =>
    intro line chunks currentChunk result before separator h hsep hnl hbefore
    obtain ⟨chunks1, current1, hrest, hstep⟩ :=
      splitContentLoop_step_deletes maxSize line (next :: rest) chunks currentChunk result h
    have hjoin : joinLines (line :: next :: rest) = line ++ NL :: joinLines (next :: rest) :=
      rfl
    have := ih next chunks1 current1 result (before ++ separator ++ line) [NL] hrest
      (by intro c hc; rw [List.mem_singleton.mp hc]; rfl) (fun _ => rfl)
      (hstep before separator hsep hnl hbefore)
    rw [hjoin]
    simpa using this

/-- The chunks that `splitContent` returns, put one after the other, are the content
with whitespace deleted. -/
theorem splitContent_deletes (content : JSString) (maxSize : Int)
    (chunks : List JSString) (hsplit : splitContent content maxSize = some chunks) :
    DeletesWhiteSpace content chunks.flatten := by
  unfold splitContent at hsplit
  obtain ⟨line, rest, hlines⟩ := List.exists_cons_of_ne_nil (splitLines_ne_nil content)
  cases hrun : splitContentLoop maxSize (splitLines content) [] [] with
  | none => simp [hrun] at hsplit
  | some result =>
    obtain ⟨saved, last⟩ := result
    simp only [hrun] at hsplit
    rw [hlines] at hrun
    have hdel := splitContentLoop_deletes maxSize rest line [] [] (saved, last) [] [] hrun
      (by simp) (by simp) DeletesWhiteSpace.done
    rw [← hlines, joinLines_splitLines] at hdel
    simp only [List.nil_append] at hdel
    have hflat : chunks.flatten
        = saved.flatten ++ (if trim last ≠ [] then [trim last] else []).flatten := by
      by_cases hnil : trim last = []
      · simp only [hnil, ne_eq, not_true_eq_false, if_false, Option.some.injEq] at hsplit
        simp [hnil, ← hsplit]
      · simp only [hnil, ne_eq, not_false_eq_true, if_true, Option.some.injEq] at hsplit
        simp [hnil, ← hsplit]
    rw [hflat]
    exact deletesWhiteSpace_trans hdel
      (deletesWhiteSpace_append (deletesWhiteSpace_refl _) (deletesWhiteSpace_flush last))

/-! ## Whitespace is deleted at chunk boundaries -/

theorem separatedChunks_nil : SeparatedChunks [] [] :=
  SeparatedChunks.tail (by simp)

theorem separatedChunks_after_gap {text : JSString} {chunks : List JSString}
    (gap : JSString) (hgap : ∀ c ∈ gap, isWhiteSpace c = true)
    (h : SeparatedChunks text chunks) : SeparatedChunks (gap ++ text) chunks := by
  cases h with
  | tail h0 =>
    refine SeparatedChunks.tail ?_
    intro c hc
    rcases List.mem_append.mp hc with hc | hc
    · exact hgap c hc
    · exact h0 c hc
  | @chunk gap0 first rest chunks h0 hrest =>
    have := SeparatedChunks.chunk (gap ++ gap0) first (by
      intro c hc
      rcases List.mem_append.mp hc with hc | hc
      · exact hgap c hc
      · exact h0 c hc) hrest
    simpa [List.append_assoc] using this

theorem separatedChunks_append {a b : JSString} {xs ys : List JSString}
    (ha : SeparatedChunks a xs) (hb : SeparatedChunks b ys) :
    SeparatedChunks (a ++ b) (xs ++ ys) := by
  induction ha with
  | tail h0 => exact separatedChunks_after_gap _ h0 hb
  | chunk gap0 first h0 _ ih =>
    have := SeparatedChunks.chunk gap0 first h0 ih
    simpa [List.append_assoc] using this

theorem separatedChunks_before_gap {text : JSString} {chunks : List JSString}
    (gap : JSString) (hgap : ∀ c ∈ gap, isWhiteSpace c = true)
    (h : SeparatedChunks text chunks) : SeparatedChunks (text ++ gap) chunks := by
  have := separatedChunks_append h (SeparatedChunks.tail hgap)
  simpa using this

/-- A string is its trimmed form between two runs of whitespace. -/
theorem trim_between (s : JSString) :
    ∃ lead trail : JSString, (∀ c ∈ lead, isWhiteSpace c = true) ∧
      (∀ c ∈ trail, isWhiteSpace c = true) ∧ s = lead ++ trim s ++ trail := by
  refine ⟨s.takeWhile isWhiteSpace,
    ((s.dropWhile isWhiteSpace).reverse.takeWhile isWhiteSpace).reverse, ?_, ?_, ?_⟩
  · intro c hc
    exact List.mem_takeWhile_imp hc
  · intro c hc
    exact List.mem_takeWhile_imp (List.mem_reverse.mp hc)
  · have h1 : trim s ++ ((s.dropWhile isWhiteSpace).reverse.takeWhile isWhiteSpace).reverse
        = s.dropWhile isWhiteSpace := by
      unfold trim List.rdropWhile
      rw [← List.reverse_append, List.takeWhile_append_dropWhile, List.reverse_reverse]
    rw [List.append_assoc, h1, List.takeWhile_append_dropWhile]

/-- A flush adds the trimmed current chunk, if any, as a separated chunk. -/
theorem separatedChunks_flush {text : JSString} {chunks : List JSString}
    (currentChunk : JSString) (h : SeparatedChunks text chunks) :
    SeparatedChunks (text ++ currentChunk)
      (if trim currentChunk ≠ [] then chunks ++ [trim currentChunk] else chunks) := by
  by_cases hnil : trim currentChunk = []
  · rw [if_neg (by simpa using hnil)]
    exact separatedChunks_before_gap _ ((trim_eq_nil_iff _).mp hnil) h
  · rw [if_pos hnil]
    obtain ⟨lead, trail, hlead, htrail, hs⟩ := trim_between currentChunk
    have h2 : SeparatedChunks (lead ++ trim currentChunk ++ trail) [trim currentChunk] :=
      SeparatedChunks.chunk lead _ hlead (SeparatedChunks.tail htrail)
    rw [← hs] at h2
    exact separatedChunks_append h h2

/-- The parts of a line that does not end in whitespace: all but the last are
separated chunks of the line up to the last part, which ends the line. -/
theorem splitLongLineLoop_separated (maxSize : Int) (hM : 0 < maxSize) :
    ∀ (fuel : Nat) (remaining : JSString) (parts result : List JSString),
      splitLongLineLoop maxSize fuel remaining parts = some result →
      remaining ≠ [] → endsInWhiteSpace remaining = false →
      ∃ (front : List JSString) (last before : JSString),
        result = parts ++ front ++ [last] ∧ remaining = before ++ last ∧
          SeparatedChunks before front := by
  intro fuel
  induction fuel with
  | zero => intro remaining parts result h; simp [splitLongLineLoop] at h
  | succ fuel ih =>
    intro remaining parts result hrun hne hclean
    by_cases hlong : maxSize < (remaining.length : Int)
    · rw [splitLongLineLoop_step maxSize _ remaining parts (Nat.succ_pos _) hlong] at hrun
      have hpos := splitPoint_pos remaining maxSize hM
      have hle := splitPoint_le remaining maxSize hM
      have hdropNe : substringFrom remaining (splitPoint remaining maxSize) ≠ [] := by
        intro hnil
        have hlen : (substringFrom remaining (splitPoint remaining maxSize)).length
            = remaining.length - (splitPoint remaining maxSize).toNat := by
          simp [substringFrom]
        rw [hnil] at hlen
        simp only [List.length_nil] at hlen
        omega
      have hdropClean :
          endsInWhiteSpace (substringFrom remaining (splitPoint remaining maxSize)) = false := by
        have := endsInWhiteSpace_of_suffix remaining
          (substringFrom remaining (splitPoint remaining maxSize)) ( List.drop_suffix _ _)
          hdropNe
        rw [hclean] at this
        exact this
      have htrimNe := trim_ne_nil_of_endsClean _ hdropNe hdropClean
      have htrimClean :
          endsInWhiteSpace (trim (substringFrom remaining (splitPoint remaining maxSize)))
            = false := by
        have := endsInWhiteSpace_of_suffix _ _ (trim_suffix_of_endsClean _ hdropClean) htrimNe
        rw [hdropClean] at this
        exact this
      obtain ⟨front, last, before, hres, hrem, hsep⟩ := ih _ _ result hrun htrimNe htrimClean
      have hdrop : substringFrom remaining (splitPoint remaining maxSize)
          = (substringFrom remaining (splitPoint remaining maxSize)).takeWhile isWhiteSpace
            ++ trim (substringFrom remaining (splitPoint remaining maxSize)) := by
        rw [trim_of_endsClean _ hdropClean, List.takeWhile_append_dropWhile]
      refine ⟨substringTo remaining (splitPoint remaining maxSize) :: front, last,
        substringTo remaining (splitPoint remaining maxSize) ++
          ((substringFrom remaining (splitPoint remaining maxSize)).takeWhile isWhiteSpace
            ++ before), ?_, ?_, ?_⟩
      · rw [hres]
        simp
      · have hsplit : remaining = substringTo remaining (splitPoint remaining maxSize)
            ++ substringFrom remaining (splitPoint remaining maxSize) := by
          simp [substringTo, substringFrom]
        conv_lhs => rw [hsplit, hdrop, hrem]
        simp only [List.append_assoc]
      · have h1 := separatedChunks_after_gap
          ((substringFrom remaining (splitPoint remaining maxSize)).takeWhile isWhiteSpace)
          (fun c hc => List.mem_takeWhile_imp hc) hsep
        have h2 := SeparatedChunks.chunk [] (substringTo remaining (splitPoint remaining maxSize))
          (by simp) h1
        simpa using h2
    · rw [splitLongLineLoop_exit maxSize _ remaining parts (Nat.succ_pos _) hlong,
        if_pos hne] at hrun
      exact ⟨[], remaining, [], by simpa using (Option.some.inj hrun).symm, by simp,
        separatedChunks_nil⟩

/-- One round of the line loop of `splitContent` on a line that, if longer than the
ceiling, does not end in whitespace: the text read so far stays the chunks, separated
by whitespace, followed by the current chunk. -/
theorem splitContentLoop_step_separated (maxSize : Int) (hM : 0 < maxSize)
    (line : JSString) (rest chunks : List JSString) (currentChunk : JSString)
    (result : List JSString × JSString)
    (hclean : maxSize < (line.length : Int) → endsInWhiteSpace line = false)
    (h : splitContentLoop maxSize (line :: rest) chunks currentChunk = some result) :
    ∃ chunks1 current1, splitContentLoop maxSize rest chunks1 current1 = some result ∧
      ∀ before separator : JSString, (∀ c ∈ separator, isWhiteSpace c = true) →
        (currentChunk ≠ [] → separator = [NL]) →
        SeparatedChunks before chunks →
        ∃ before1, before ++ currentChunk ++ separator ++ line = before1 ++ current1 ∧
          SeparatedChunks before1 chunks1 := by
  rw [splitContentLoop] at h
  by_cases hover : maxSize < (currentChunk.length : Int) + (line.length : Int) + 1
  · rw [if_pos hover] at h
    by_cases hlong : maxSize < (line.length : Int)
    · simp only [hlong, if_true] at h
      cases hsplit : splitLongLine line maxSize with
      | none => simp [hsplit] at h
      | some parts =>
        simp only [hsplit] at h
        cases hlast : parts.getLast? with
        | none => simp [hlast] at h
        | some last =>
          simp only [hlast] at h
          refine ⟨_, _, h, ?_⟩
          intro before separator hsep _ hbefore
          have hlineNe : line ≠ [] := by
            intro hnil
            rw [hnil] at hlong
            simp only [List.length_nil, Nat.cast_zero] at hlong
            omega
          obtain ⟨front, last2, inLine, hres, hline, hfront⟩ :=
            splitLongLineLoop_separated maxSize hM _ line [] parts hsplit hlineNe
              (hclean hlong)
          rw [List.nil_append] at hres
          have hl : last2 = last := by
            rw [hres, List.getLast?_append_of_ne_nil _ (by simp)] at hlast
            simpa using hlast
          have hd : parts.dropLast = front := by
            rw [hres]
            simp
          rw [hd, ← hl]
          refine ⟨before ++ currentChunk ++ separator ++ inLine, ?_, ?_⟩
          · rw [hline]
            simp only [List.append_assoc]
          · have h1 := separatedChunks_before_gap separator hsep
              (separatedChunks_flush currentChunk hbefore)
            exact separatedChunks_append h1 hfront
    · simp only [hlong, if_false] at h
      refine ⟨_, _, h, ?_⟩
      intro before separator hsep _ hbefore
      exact ⟨before ++ currentChunk ++ separator, rfl,
        separatedChunks_before_gap separator hsep
          (separatedChunks_flush currentChunk hbefore)⟩
  · rw [if_neg hover] at h
    refine ⟨_, _, h, ?_⟩
    intro before separator hsep hnl hbefore
    by_cases hnil : currentChunk = []
    · refine ⟨before ++ separator, ?_, separatedChunks_before_gap separator hsep hbefore⟩
      simp [hnil]
    · refine ⟨before, ?_, hbefore⟩
      rw [hnl hnil, if_pos hnil]
      simp only [List.append_assoc]

/-- The line loop of `splitContent` on lines that, if longer than the ceiling, do not
end in whitespace: the text read is the chunks, separated by whitespace, followed by
the current chunk. -/
theorem splitContentLoop_separated (maxSize : Int) (hM : 0 < maxSize) :
    ∀ (rest : List JSString) (line : JSString) (chunks : List JSString)
      (currentChunk : JSString) (result : List JSString × JSString)
      (before separator : JSString),
      (∀ l ∈ line :: rest, maxSize < (l.length : Int) → endsInWhiteSpace l = false) →
      splitContentLoop maxSize (line :: rest) chunks currentChunk = some result →
      (∀ c ∈ separator, isWhiteSpace c = true) →
      (currentChunk ≠ [] → separator = [NL]) →
      SeparatedChunks before chunks →
      ∃ before1,
        before ++ currentChunk ++ separator ++ joinLines (line :: rest) = before1 ++ result.2 ∧
          SeparatedChunks before1 result.1 := by
  intro rest
  induction rest with
  | nil =>
    intro line chunks currentChunk result before separator hclean h hsep hnl hbefore
    obtain ⟨chunks1, current1, hrest, hstep⟩ :=
      splitContentLoop_step_separated maxSize hM line [] chunks currentChunk result
        (hclean line (List.mem_cons_self _ _)) h
    simp only [splitContentLoop, Option.some.injEq] at hrest
    rw [← hrest]
    exact hstep before separator hsep hnl hbefore
  | cons next rest ih =>
    intro line chunks currentChunk result before separator hclean h hsep hnl hbefore
    obtain ⟨chunks1, current1, hrest, hstep⟩ :=
      splitContentLoop_step_separated maxSize hM line (next :: rest) chunks currentChunk
        result (hclean line (List.mem_cons_self _ _)) h
    obtain ⟨before1, htext, hsep1⟩ := hstep before separator hsep hnl hbefore
    have hjoin : joinLines (line :: next :: rest) = line ++ NL :: joinLines (next :: rest) :=
      rfl
    obtain ⟨before2, htext2, hsep2⟩ := ih next chunks1 current1 result before1 [NL]
      (fun l hl => hclean l (List.mem_cons_of_mem _ hl)) hrest
      (by intro c hc; rw [List.mem_singleton.mp hc]; rfl)
      (by
        intro hne
        by_contra hcon
        exact hcon rfl)
      hsep1
    refine ⟨before2, ?_, hsep2⟩
    rw [← htext2, ← htext, hjoin]
    simp only [List.append_assoc, List.singleton_append]

/-- For a positive ceiling and a content whose lines longer than the ceiling do not
end in whitespace, the content is the chunks of `splitContent` in order, separated by
runs of whitespace. -/
theorem splitContent_separated (content : JSString) (maxSize : Int) (hM : 0 < maxSize)
    (hclean : ∀ l ∈ splitLines content, maxSize < (l.length : Int) →
      endsInWhiteSpace l = false)
    (chunks : List JSString) (hsplit : splitContent content maxSize = some chunks) :
    SeparatedChunks content chunks := by
  unfold splitContent at hsplit
  obtain ⟨line, rest, hlines⟩ := List.exists_cons_of_ne_nil (splitLines_ne_nil content)
  cases hrun : splitContentLoop maxSize (splitLines content) [] [] with
  | none => simp [hrun] at hsplit
  | some result =>
    obtain ⟨saved, last⟩ := result
    simp only [hrun] at hsplit
    rw [hlines] at hrun hclean
    obtain ⟨before1, htext, hsep⟩ := splitContentLoop_separated maxSize hM rest line [] []
      (saved, last) [] [] hclean hrun (by simp) (by simp) separatedChunks_nil
    rw [← hlines, joinLines_splitLines] at htext
    simp only [List.nil_append] at htext
    have hflush := separatedChunks_flush last hsep
    rw [← htext] at hflush
    by_cases hnil : trim last = []
    · simp only [hnil, ne_eq, not_true_eq_false, if_false, Option.some.injEq] at hsplit hflush
      rw [← hsplit]
      exact hflush
    · simp only [hnil, ne_eq, not_false_eq_true, if_true, Option.some.injEq] at hsplit hflush
      rw [← hsplit]
      exact hflush

/-- Claim C1, amended: for every text and every ceiling above zero, `splitContent`
returns chunks whose concatenation in order is the text with whitespace code units
deleted and nothing else changed: nothing is added, nothing is reordered and no code
unit other than whitespace is dropped. The join of the chunks with the line separator
is that concatenation with the separators put in; so the trimmed join and the trimmed
text hold the same non-whitespace code units in the same order. When no line longer
than the ceiling ends in whitespace, whitespace is deleted at chunk boundaries only:
the text is the chunks in order with a run of whitespace, empty where a long line was
cut between two code units, before the first, between consecutive ones and after the
last, and the join puts one line break in the place of each run between chunks. -/
theorem round_trip_deletes_only_whitespace (content : JSString) (maxSize : Int)
    (hM : 0 < maxSize) :
    ∃ chunks, splitContent content maxSize = some chunks ∧
      DeletesWhiteSpace content chunks.flatten ∧
      DeletesWhiteSpace (joinLines chunks) chunks.flatten ∧
      removeWhiteSpace (trim (joinLines chunks)) = removeWhiteSpace (trim content) ∧
      ((∀ l ∈ splitLines content, maxSize < (l.length : Int) → endsInWhiteSpace l = false) →
        SeparatedChunks content chunks) := by
  obtain ⟨chunks, hsplit, _, hws⟩ := splitContent_spec content maxSize hM
  refine ⟨chunks, hsplit, splitContent_deletes content maxSize chunks hsplit,
    deletesWhiteSpace_joinLines chunks, ?_,
    fun hclean => splitContent_separated content maxSize hM hclean chunks hsplit⟩
  rw [removeWhiteSpace_trim, removeWhiteSpace_trim, removeWhiteSpace_joinLines,
    ← removeWhiteSpace_flatten, hws]

/-- Claim C1, amended, at the text `ab \ncdef` and ceiling 3, whose long line `cdef`
does not end in whitespace. -/
theorem round_trip_deletes_only_whitespace_witness :
    ((0 : Int) < 3 ∧
      ∀ l ∈ splitLines (utf16 "ab \ncdef"), (3 : Int) < (l.length : Int) →
        endsInWhiteSpace l = false) ∧
      ∃ chunks, splitContent (utf16 "ab \ncdef") 3 = some chunks ∧
        DeletesWhiteSpace (utf16 "ab \ncdef") chunks.flatten ∧
        DeletesWhiteSpace (joinLines chunks) chunks.flatten ∧
        removeWhiteSpace (trim (joinLines chunks))
          = removeWhiteSpace (trim (utf16 "ab \ncdef")) ∧
        SeparatedChunks (utf16 "ab \ncdef") chunks := by
  obtain ⟨chunks, h1, h2, h3, h4, h5⟩ :=
    round_trip_deletes_only_whitespace (utf16 "ab \ncdef") 3 (by decide)
  exact ⟨⟨by decide, by decide⟩, chunks, h1, h2, h3, h4, h5 (by decide)⟩

/-! ## Arrays of bounded length -/

theorem arrayPush_of_le (capacity : Nat) (array items : List JSString)
    (h : array.length + items.length ≤ capacity) :
    arrayPush capacity array items = Outcome.returned (array ++ items) := by
  unfold arrayPush
  rw [if_pos h]

theorem arrayPush_of_full (capacity : Nat) (array items : List JSString)
    (h : capacity < array.length + items.length) :
    arrayPush capacity array items = Outcome.thrown invalidArrayLength := by
  unfold arrayPush
  rw [if_neg (by omega)]

/-- When the loop of `splitLongLine` on lists returns parts that an array can hold,
the loop on arrays of that capacity returns the same parts. -/
theorem splitLongLineLoopWithin_of_loop (capacity : Nat) (maxSize : Int) :
    ∀ (fuel : Nat) (remaining : JSString) (parts result : List JSString),
      splitLongLineLoop maxSize fuel remaining parts = some result →
      result.length ≤ capacity →
      ∀ fuel2, capacity + 1 ≤ fuel2 + parts.length →
        splitLongLineLoopWithin capacity maxSize fuel2 remaining parts
          = Outcome.returned result := by
  intro fuel
  induction fuel with
  | zero => intro remaining parts result h; simp [splitLongLineLoop] at h
  | succ fuel ih =>
    intro remaining parts result h hcap fuel2 hfuel
    obtain ⟨added, hres, _⟩ := splitLongLineLoop_deletes maxSize _ _ _ _ h
    have hlen : parts.length ≤ capacity := by
      rw [hres, List.length_append] at hcap
      omega
    obtain ⟨f, rfl⟩ : ∃ f, fuel2 = f + 1 := ⟨fuel2 - 1, by omega⟩
    rw [splitLongLineLoop] at h
    rw [splitLongLineLoopWithin]
    by_cases hlong : maxSize < (remaining.length : Int)
    · rw [if_pos hlong] at h ⊢
      obtain ⟨added2, hres2, _⟩ := splitLongLineLoop_deletes maxSize _ _ _ _ h
      have hlen2 : parts.length + 1 ≤ capacity := by
        rw [hres2, List.length_append, List.length_append] at hcap
        simp only [List.length_singleton] at hcap
        omega
      rw [arrayPush_of_le capacity parts _ (by simpa using hlen2)]
      exact ih _ _ _ h hcap f (by simp only [List.length_append, List.length_singleton]; omega)
    · rw [if_neg hlong] at h ⊢
      by_cases hnil : remaining = []
      · rw [if_neg (by simpa using hnil)] at h ⊢
        rw [Option.some.inj h]
      · rw [if_pos hnil] at h ⊢
        rw [← Option.some.inj h] at hcap ⊢
        exact arrayPush_of_le capacity parts _ (by simpa using hcap)

theorem splitLongLineWithin_of_splitLongLine (capacity : Nat) (line : JSString)
    (maxSize : Int) (parts : List JSString) (h : splitLongLine line maxSize = some parts)
    (hcap : parts.length ≤ capacity) :
    splitLongLineWithin capacity line maxSize = Outcome.returned parts :=
  splitLongLineLoopWithin_of_loop capacity maxSize _ line [] parts h hcap _ (by simp)

/-- The loop of `splitLongLine` makes no progress on `remaining`: the ceiling is below
zero, or it is zero and `remaining` holds a code unit other than whitespace. -/
theorem stuck_step (maxSize : Int) (remaining : JSString)
    (h : maxSize < 0 ∨ (maxSize = 0 ∧ trim remaining ≠ [])) :
    maxSize < (remaining.length : Int) ∧
      (maxSize < 0 ∨ (maxSize = 0 ∧
        trim (trim (substringFrom remaining (splitPoint remaining maxSize))) ≠ [])) := by
  rcases h with hneg | ⟨h0, hcontent⟩
  · have : (0 : Int) ≤ (remaining.length : Int) := Int.natCast_nonneg _
    exact ⟨by omega, Or.inl hneg⟩
  · subst h0
    have hne : remaining ≠ [] := by
      intro hnil
      rw [hnil] at hcontent
      exact hcontent trim_nil
    have hlong : (0 : Int) < (remaining.length : Int) := by
      have := List.length_pos.mpr hne
      omega
    refine ⟨hlong, Or.inr ⟨rfl, ?_⟩⟩
    simp only [substringFrom, splitPoint_zero_toNat, List.drop_zero]
    intro hnil
    have h1 := (removeWhiteSpace_eq_nil_iff _).mpr hnil
    simp only [removeWhiteSpace_trim] at h1
    exact hcontent ((removeWhiteSpace_eq_nil_iff _).mp h1)

/-- Where the loop of `splitLongLine` makes no progress it pushes a part in every
round, until `parts` is full and `push` throws. -/
theorem splitLongLineLoopWithin_stuck (capacity : Nat) (maxSize : Int) :
    ∀ (room fuel : Nat) (remaining : JSString) (parts : List JSString),
      (maxSize < 0 ∨ (maxSize = 0 ∧ trim remaining ≠ [])) →
      parts.length + room = capacity → room + 1 ≤ fuel →
      splitLongLineLoopWithin capacity maxSize fuel remaining parts
        = Outcome.thrown invalidArrayLength := by
  intro room
  induction room with
  | zero =>
    intro fuel remaining parts hstuck hroom hfuel
    obtain ⟨f, rfl⟩ : ∃ f, fuel = f + 1 := ⟨fuel - 1, by omega⟩
    rw [splitLongLineLoopWithin, if_pos (stuck_step maxSize remaining hstuck).1,
      arrayPush_of_full capacity parts _ (by simp only [List.length_singleton]; omega)]
  | succ room ih =>
    intro fuel remaining parts hstuck hroom hfuel
    obtain ⟨f, rfl⟩ : ∃ f, fuel = f + 1 := ⟨fuel - 1, by omega⟩
    obtain ⟨hlong, hnext⟩ := stuck_step maxSize remaining hstuck
    rw [splitLongLineLoopWithin, if_pos hlong,
      arrayPush_of_le capacity parts _ (by simp only [List.length_singleton]; omega)]
    refine ih f _ _ ?_ (by simp only [List.length_append, List.length_singleton]; omega)
      (by omega)
    rcases hnext with h | ⟨h0, h1⟩
    · exact Or.inl h
    · refine Or.inr ⟨h0, ?_⟩
      intro hnil
      apply h1
      rw [hnil]

theorem splitLongLineWithin_stuck (capacity : Nat) (line : JSString) (maxSize : Int)
    (hstuck : maxSize < 0 ∨ (maxSize = 0 ∧ trim line ≠ [])) :
    splitLongLineWithin capacity line maxSize = Outcome.thrown invalidArrayLength :=
  splitLongLineLoopWithin_stuck capacity maxSize capacity _ line [] hstuck (by simp)
    (le_refl _)

/-- The loop of `splitLongLine` only adds parts. -/
theorem splitLongLineLoopWithin_length (capacity : Nat) (maxSize : Int) :
    ∀ (fuel : Nat) (remaining : JSString) (parts result : List JSString),
      splitLongLineLoopWithin capacity maxSize fuel remaining parts = Outcome.returned result →
      parts.length ≤ result.length := by
  intro fuel
  induction fuel with
  | zero => intro remaining parts result h; simp [splitLongLineLoopWithin] at h
  | succ fuel ih =>
    intro remaining parts result h
    rw [splitLongLineLoopWithin] at h
    by_cases hlong : maxSize < (remaining.length : Int)
    · rw [if_pos hlong] at h
      by_cases hroom : parts.length + 1 ≤ capacity
      · rw [arrayPush_of_le capacity parts _ (by simpa using hroom)] at h
        have := ih _ _ _ h
        simp only [List.length_append, List.length_singleton] at this
        omega
      · rw [arrayPush_of_full capacity parts _ (by
          simp only [List.length_singleton]
          omega)] at h
        simp at h
    · rw [if_neg hlong] at h
      by_cases hnil : remaining = []
      · rw [if_neg (by simpa using hnil)] at h
        rw [Outcome.returned.inj h]
      · rw [if_pos hnil] at h
        unfold arrayPush at h
        split at h
        · rw [← Outcome.returned.inj h]
          simp
        · simp at h

/-- On a line longer than the ceiling `splitLongLine` returns at least one part, when
it returns. -/
theorem splitLongLineWithin_ne_nil (capacity : Nat) (line : JSString) (maxSize : Int)
    (parts : List JSString) (hlong : maxSize < (line.length : Int))
    (h : splitLongLineWithin capacity line maxSize = Outcome.returned parts) :
    parts ≠ [] := by
  unfold splitLongLineWithin at h
  rw [splitLongLineLoopWithin, if_pos hlong] at h
  by_cases hroom : ([] : List JSString).length + 1 ≤ capacity
  · rw [arrayPush_of_le capacity [] _ (by simpa using hroom)] at h
    have := splitLongLineLoopWithin_length capacity maxSize _ _ _ _ h
    intro hnil
    rw [hnil] at this
    simp at this
  · rw [arrayPush_of_full capacity [] _ (by
      simp only [List.length_singleton]
      omega)] at h
    simp at h

/-- When the line loop of `splitContent` on lists returns and an array can hold the
chunks with room for one more, the loop on arrays of that capacity returns the same. -/
theorem splitContentLoopWithin_of_loop (capacity : Nat) (maxSize : Int) :
    ∀ (lines chunks : List JSString) (currentChunk : JSString)
      (result : List JSString × JSString),
      splitContentLoop maxSize lines chunks currentChunk = some result →
      result.1.length + 1 ≤ capacity →
      chunks.length ≤ result.1.length ∧
        splitContentLoopWithin capacity maxSize lines chunks currentChunk
          = Outcome.returned result := by
  intro lines
  induction lines with
  | nil =>
    intro chunks currentChunk result h _
    simp only [splitContentLoop, Option.some.injEq] at h
    rw [← h]
    exact ⟨le_refl _, rfl⟩
  | cons line rest ih =>
    intro chunks currentChunk result h hcap
    rw [splitContentLoop] at h
    rw [splitContentLoopWithin]
    by_cases hover : maxSize < (currentChunk.length : Int) + (line.length : Int) + 1
    · rw [if_pos hover] at h ⊢
      have hsavedLen : chunks.length ≤
          (if trim currentChunk ≠ [] then chunks ++ [trim currentChunk] else chunks).length := by
        by_cases hnil : trim currentChunk = [] <;> simp [hnil]
      have hflush : ∀ bound, (if trim currentChunk ≠ [] then chunks ++ [trim currentChunk]
            else chunks).length ≤ bound → bound ≤ capacity →
          (if trim currentChunk ≠ [] then arrayPush capacity chunks [trim currentChunk]
            else Outcome.returned chunks)
          = Outcome.returned (if trim currentChunk ≠ [] then chunks ++ [trim currentChunk]
            else chunks) := by
        intro bound h1 h2
        by_cases hnil : trim currentChunk = []
        · simp [hnil]
        · simp only [hnil, ne_eq, not_false_eq_true, if_true] at h1 ⊢
          exact arrayPush_of_le capacity chunks _ (by
            simp only [List.length_append] at h1 ⊢
            omega)
      by_cases hlong : maxSize < (line.length : Int)
      · simp only [hlong, if_true] at h
        cases hsplit : splitLongLine line maxSize with
        | none => simp [hsplit] at h
        | some parts =>
          simp only [hsplit] at h
          cases hlast : parts.getLast? with
          | none => simp [hlast] at h
          | some last =>
            simp only [hlast] at h
            obtain ⟨hle, hrun⟩ := ih _ _ _ h hcap
            rw [List.length_append] at hle
            have hparts : parts.length = parts.dropLast.length + 1 := by
              have hne : parts ≠ [] := by
                intro hnil
                rw [hnil] at hlast
                simp at hlast
              have := List.length_pos.mpr hne
              rw [List.length_dropLast]
              omega
            rw [hflush result.1.length (by omega) (by omega)]
            simp only [hlong, if_true]
            rw [splitLongLineWithin_of_splitLongLine capacity line maxSize parts hsplit
              (by omega)]
            simp only []
            rw [arrayPush_of_le capacity _ _ (by omega)]
            simp only [hlast]
            exact ⟨by omega, hrun⟩
      · simp only [hlong, if_false] at h
        obtain ⟨hle, hrun⟩ := ih _ _ _ h hcap
        rw [hflush result.1.length hle (by omega)]
        simp only [hlong, if_false]
        exact ⟨by omega, hrun⟩
    · rw [if_neg hover] at h ⊢
      exact ih _ _ _ h hcap

/-- When `splitContent` on lists returns fewer chunks than an array can hold,
`splitContent` on arrays of that capacity returns the same chunks. -/
theorem splitContentWithin_of_splitContent (capacity : Nat) (content : JSString)
    (maxSize : Int) (chunks : List JSString)
    (hsplit : splitContent content maxSize = some chunks) (hcap : chunks.length < capacity) :
    splitContentWithin capacity content maxSize = Outcome.returned chunks := by
  unfold splitContent at hsplit
  unfold splitContentWithin
  cases hrun : splitContentLoop maxSize (splitLines content) [] [] with
  | none => simp [hrun] at hsplit
  | some result =>
    obtain ⟨saved, last⟩ := result
    simp only [hrun] at hsplit
    by_cases hnil : trim last = []
    · simp only [hnil, ne_eq, not_true_eq_false, if_false, Option.some.injEq] at hsplit
      rw [(splitContentLoopWithin_of_loop capacity maxSize _ _ _ _ hrun
        (by rw [hsplit]; exact hcap)).2]
      simp [hnil, hsplit]
    · simp only [hnil, ne_eq, not_false_eq_true, if_true, Option.some.injEq] at hsplit
      rw [← hsplit, List.length_append, List.length_singleton] at hcap
      rw [(splitContentLoopWithin_of_loop capacity maxSize _ _ _ _ hrun (by
        simp only []
        omega)).2]
      simp only [hnil, ne_eq, not_false_eq_true, if_true]
      rw [arrayPush_of_le capacity saved _ (by simp only [List.length_singleton]; omega),
        hsplit]

/-- With ceiling 0 the line loop of `splitContent`, started with no chunk, passes over
lines of whitespace and throws at the first line that holds anything else. -/
theorem splitContentLoopWithin_zero (capacity : Nat) (hcap : 0 < capacity) :
    ∀ (lines : List JSString),
      splitContentLoopWithin capacity 0 lines [] []
        = if ∀ l ∈ lines, trim l = [] then Outcome.returned ([], [])
          else Outcome.thrown invalidArrayLength := by
  intro lines
  induction lines with
  | nil => simp [splitContentLoopWithin]
  | cons line rest ih =>
    have hover : (0 : Int) < (([] : JSString).length : Int) + (line.length : Int) + 1 := by
      have : (0 : Int) ≤ (line.length : Int) := Int.natCast_nonneg _
      simp only [List.length_nil, Nat.cast_zero]
      omega
    rw [splitContentLoopWithin, if_pos hover]
    simp only [trim_nil, ne_eq, not_true_eq_false, if_false]
    by_cases hne : line = []
    · subst hne
      simp only [List.length_nil, Nat.cast_zero, lt_self_iff_false, if_false]
      rw [ih]
      simp [trim_nil]
    · have hlong : (0 : Int) < (line.length : Int) := by
        have := List.length_pos.mpr hne
        omega
      simp only [hlong, if_true]
      by_cases hblank : trim line = []
      · rw [splitLongLineWithin_of_splitLongLine capacity line 0 [[]]
          (splitLongLine_zero_of_blank line hne hblank) (by simpa using hcap)]
        simp only [List.dropLast_single]
        rw [arrayPush_of_le capacity [] [] (by simp)]
        simp only [List.append_nil, List.getLast?_singleton]
        rw [ih]
        simp [hblank]
      · rw [splitLongLineWithin_stuck capacity line 0 (Or.inr ⟨rfl, hblank⟩)]
        simp [hblank]

/-- With ceiling 0 and a content that holds a code unit other than whitespace,
`splitContent` throws the `RangeError` of `push`: on one of the lines the loop of
`splitLongLine` never leaves by its condition and fills `parts`. -/
theorem splitContentWithin_zero_of_content (capacity : Nat) (hcap : 0 < capacity)
    (content : JSString) (hcontent : removeWhiteSpace content ≠ []) :
    splitContentWithin capacity content 0 = Outcome.thrown invalidArrayLength ∧
      ∃ line ∈ splitLines content,
        splitLongLineWithin capacity line 0 = Outcome.thrown invalidArrayLength ∧
        ∀ fuel, splitLongLineLoop 0 fuel line [] = none := by
  have hlines : ¬ ∀ l ∈ splitLines content, trim l = [] :=
    fun h => hcontent ((blank_lines_iff content).mp h)
  constructor
  · unfold splitContentWithin
    rw [splitContentLoopWithin_zero capacity hcap, if_neg hlines]
  · push_neg at hlines
    obtain ⟨line, hline, hne⟩ := hlines
    exact ⟨line, hline, splitLongLineWithin_stuck capacity line 0 (Or.inr ⟨rfl, hne⟩),
      fun fuel => splitLongLineLoop_zero_of_content fuel line [] hne⟩

/-- With a ceiling below 0, `splitContent` throws the `RangeError` of `push`: on the
first line the loop of `splitLongLine` never leaves by its condition and fills
`parts`. -/
theorem splitContentWithin_of_neg (capacity : Nat) (content : JSString) (maxSize : Int)
    (hM : maxSize < 0) :
    splitContentWithin capacity content maxSize = Outcome.thrown invalidArrayLength ∧
      ∃ line ∈ splitLines content,
        splitLongLineWithin capacity line maxSize = Outcome.thrown invalidArrayLength ∧
        ∀ fuel, splitLongLineLoop maxSize fuel line [] = none := by
  cases hs : splitLines content with
  | nil => exact absurd hs (splitLines_ne_nil content)
  | cons line rest =>
    have hstuck := splitLongLineWithin_stuck capacity line maxSize (Or.inl hM)
    constructor
    · unfold splitContentWithin
      rw [hs, splitContentLoopWithin]
      have h1 : maxSize < (([] : JSString).length : Int) + (line.length : Int) + 1 := by
        have : (0 : Int) ≤ (line.length : Int) := Int.natCast_nonneg _
        simp only [List.length_nil, Nat.cast_zero]
        omega
      have h2 : maxSize < (line.length : Int) := by
        have : (0 : Int) ≤ (line.length : Int) := Int.natCast_nonneg _
        omega
      rw [if_pos h1]
      simp only [trim_nil, ne_eq, not_true_eq_false, if_false, h2, if_true, hstuck]
    · exact ⟨line, List.mem_cons_self _ _, hstuck,
        fun fuel => splitLongLineLoop_of_neg maxSize hM fuel line []⟩

/-- Claim C17, amended: for every content and every ceiling at or below zero,
whatever the number of elements an array can hold (at least one), `splitContent`
checks nothing: with ceiling 0 and a content of whitespace only it returns the empty
sequence, and in every other case it throws the `RangeError` with the message
`Invalid array length` of `parts.push`, because on one of the lines the loop of
`splitLongLine` never leaves by its condition and pushes a part in every round until
`parts` is full. -/
theorem nonpositive_ceiling (capacity : Nat) (content : JSString) (maxSize : Int)
    (hcap : 0 < capacity) (hM : maxSize ≤ 0) :
    (maxSize = 0 ∧ removeWhiteSpace content = [] →
      splitContentWithin capacity content maxSize = Outcome.returned []) ∧
    (¬ (maxSize = 0 ∧ removeWhiteSpace content = []) →
      splitContentWithin capacity content maxSize = Outcome.thrown invalidArrayLength ∧
        ∃ line ∈ splitLines content,
          splitLongLineWithin capacity line maxSize = Outcome.thrown invalidArrayLength ∧
          ∀ fuel, splitLongLineLoop maxSize fuel line [] = none) := by
  constructor
  · rintro ⟨h0, hblank⟩
    rw [h0]
    exact splitContentWithin_of_splitContent capacity content 0 []
      (splitContent_zero_of_blank content hblank) (by simpa using hcap)
  · intro hnot
    by_cases h0 : maxSize = 0
    · subst h0
      exact splitContentWithin_zero_of_content capacity hcap content
        (fun hblank => hnot ⟨rfl, hblank⟩)
    · exact splitContentWithin_of_neg capacity content maxSize (lt_of_le_of_ne hM h0)

/-- Claim C17, amended, on arrays of at most `2^32 - 1` elements: the blank text
` \n ` and the text `ab` at ceiling 0, and the text `ab` at ceiling -1. -/
theorem nonpositive_ceiling_witness :
    ((0 : Nat) < 4294967295 ∧ (0 : Int) ≤ 0 ∧ (-1 : Int) ≤ 0 ∧
      ((0 : Int) = 0 ∧ removeWhiteSpace (utf16 " \n ") = []) ∧
      ¬ ((0 : Int) = 0 ∧ removeWhiteSpace (utf16 "ab") = []) ∧
      ¬ ((-1 : Int) = 0 ∧ removeWhiteSpace (utf16 "ab") = [])) ∧
    splitContentWithin 4294967295 (utf16 " \n ") 0 = Outcome.returned [] ∧
    splitContentWithin 4294967295 (utf16 "ab") 0 = Outcome.thrown invalidArrayLength ∧
    splitContentWithin 4294967295 (utf16 "ab") (-1) = Outcome.thrown invalidArrayLength :=
  ⟨by decide,
    (nonpositive_ceiling 4294967295 (utf16 " \n ") 0 (by decide) (by decide)).1 (by decide),
    ((nonpositive_ceiling 4294967295 (utf16 "ab") 0 (by decide) (by decide)).2
      (by decide)).1,
    ((nonpositive_ceiling 4294967295 (utf16 "ab") (-1) (by decide) (by decide)).2
      (by decide)).1⟩

end CodaMCP
